import Mathlib

/-! ProtoRing (osmium/area/detail/proto_ring.hpp)

A shallow embedding of the ring data structure used by the area assembler and
proofs of its ring algebra.

Conventions of the embedding:

* `std::vector<T>` is a `List T`;
* `int32_t` / `int64_t` values are `Int`s; every 64-bit operation of the source
  is followed by an explicit two's complement reduction `wrap64`;
* `front()` / `back()` of an empty vector have no defined result, so functions
  using them return an `Option`;
* text written to `std::cerr` is collected in a `String`.
-/

namespace Osmium

/-! ## Machine integers -/

/-- Two's complement reduction of an integer to the signed 64-bit range
`[-2^63, 2^63 - 1]`. -/
def wrap64 (n : Int) : Int :=
  (n + 9223372036854775808) % 18446744073709551616 - 9223372036854775808

/-- Two's complement reduction of an integer to the signed 32-bit range
`[-2^31, 2^31 - 1]`. -/
def wrap32 (n : Int) : Int := (n + 2147483648) % 4294967296 - 2147483648

/-- The range of `int32_t`. -/
def isInt32 (n : Int) : Prop := -2147483648 ≤ n ∧ n ≤ 2147483647

instance (n : Int) : Decidable (isInt32 n) := by
  unfold isInt32; infer_instance

/-- The range of `int64_t`. -/
def isInt64 (n : Int) : Prop := -9223372036854775808 ≤ n ∧ n ≤ 9223372036854775807

instance (n : Int) : Decidable (isInt64 n) := by
  unfold isInt64; infer_instance

/-- `std::abs` on `int64_t`: the absolute value, reduced to 64 bits (the
absolute value of `-2^63` is not representable). -/
def abs64 (n : Int) : Int := wrap64 (if n < 0 then -n else n)

/-! ## Data model -/

/-- Modelled from the spec: `osmium::Location` (osmium/osm/location.hpp is not
among the sources): a fixed-point coordinate pair, `x` and `y` being `int32_t`
values. -/
structure Location where
  x : Int
  y : Int
deriving DecidableEq, Repr

/-- Modelled from the spec: `operator==` on `Location` (osmium/osm/location.hpp
is not among the sources): two locations are equal when both coordinates
are. -/
def Location.eq (a b : Location) : Bool := a.x == b.x && a.y == b.y

/-- Modelled from the spec: `osmium::NodeRef` (osmium/osm/noderef.hpp is not
among the sources): an identifier plus a Location. -/
structure NodeRef where
  ref : Int
  location : Location
deriving DecidableEq, Repr

/-- Modelled from the spec: `osmium::area::NodeRefSegment`
(osmium/area/segment.hpp is not among the sources): an ordered pair
(first, second) of NodeRefs carrying a back-reference to its source way
(the address of the way object). -/
structure NodeRefSegment where
  first : NodeRef
  second : NodeRef
  way : Nat
deriving DecidableEq, Repr

/-- Modelled from the spec: `NodeRefSegment::swap_locations`
(osmium/area/segment.hpp is not among the sources): exchanges the segment's
first and second endpoint. -/
def NodeRefSegment.swap_locations (s : NodeRefSegment) : NodeRefSegment :=
  { s with first := s.second, second := s.first }

/-- Modelled from the spec: `operator<` on `Location` (osmium/osm/location.hpp
is not among the sources): locations are orderable; the order is the one its
test (test_location.cpp, section `order`) exercises, by `x` first and by `y`
among equal `x`. -/
def Location.lt (a b : Location) : Bool :=
  (a.x == b.x && decide (a.y < b.y)) || decide (a.x < b.x)

/-- Modelled from the spec: `operator>` on `Location` (osmium/osm/location.hpp
is not among the sources): the order `operator<` with the operands
exchanged. -/
def Location.gt (a b : Location) : Bool := Location.lt b a

/-- Modelled from the spec: `operator==` on `NodeRef` (osmium/osm/noderef.hpp
is not among the sources): a NodeRef is an identifier plus a Location, and
compared as such it is compared by identifier; comparison by Location is what
the separate functors `location_equal` and `location_less` are for. -/
def NodeRef.eq (a b : NodeRef) : Bool := a.ref == b.ref

/-- Modelled from the spec: the functor `location_less` on `NodeRef`
(osmium/osm/noderef.hpp is not among the sources): compares the locations. -/
def location_less (a b : NodeRef) : Bool := Location.lt a.location b.location

/-- Modelled from the spec: `operator==` on `NodeRefSegment`
(osmium/area/segment.hpp is not among the sources): a segment is a directed
edge between two located points; two segments are equal when the locations of
their first endpoints and of their second endpoints are. -/
def NodeRefSegment.eq (a b : NodeRefSegment) : Bool :=
  Location.eq a.first.location b.first.location &&
    Location.eq a.second.location b.second.location

/-- Modelled from the spec: `operator<` on `NodeRefSegment`
(osmium/area/segment.hpp is not among the sources): a segment is an ordered
pair (first, second) of located points; segments are ordered by the location
of the first endpoint and, when these are equal, by the location of the
second endpoint. -/
def NodeRefSegment.less (a b : NodeRefSegment) : Bool :=
  (Location.eq a.first.location b.first.location &&
      Location.lt a.second.location b.second.location) ||
    Location.lt a.first.location b.first.location

/-- The class `ProtoRing`: its three data members. `m_inner` holds the
addresses of the inner rings. -/
structure ProtoRing where
  m_segments : List NodeRefSegment
  m_outer : Bool := true
  m_inner : List Nat := []
deriving DecidableEq, Repr

namespace ProtoRing

/-! ## Standard library algorithms used by the class -/

/-- `std::vector::resize(n)`: truncates, or appends default-constructed
elements `dflt`. -/
def vector_resize {α : Type} (dflt : α) (v : List α) (n : Nat) : List α :=
  if n ≤ v.length then v.take n else v ++ List.replicate (n - v.length) dflt

/-- `std::copy(first, last, d_first)`: assigns the elements of the source range
one by one to the destination positions `pos`, `pos + 1`, ... -/
def std_copy {α : Type} : List α → List α → Nat → List α
  | [], dst, _ => dst
  | x :: xs, dst, pos => std_copy xs (dst.set pos x) (pos + 1)

/-- `std::transform(first, last, d_first, op)`: assigns `op` of each element
of the source range to the destination positions `pos`, `pos + 1`, ... -/
def std_transform {α : Type} (op : α → α) : List α → List α → Nat → List α
  | [], dst, _ => dst
  | x :: xs, dst, pos => std_transform op xs (dst.set pos (op x)) (pos + 1)

/-! ## Member functions -/

/-- `add_segment_end`: `m_segments.push_back(segment)`. -/
def add_segment_end (R : ProtoRing) (segment : NodeRefSegment) : ProtoRing :=
  { R with m_segments := R.m_segments ++ [segment] }

/-- `add_segment_start`: `m_segments.insert(m_segments.begin(), segment)`. -/
def add_segment_start (R : ProtoRing) (segment : NodeRefSegment) : ProtoRing :=
  { R with m_segments := segment :: R.m_segments }

/-- `first_segment`: `m_segments.front()`. -/
def first_segment (R : ProtoRing) : Option NodeRefSegment := R.m_segments.head?

/-- `last_segment`: `m_segments.back()`. -/
def last_segment (R : ProtoRing) : Option NodeRefSegment := R.m_segments.getLast?

/-- `closed`: compares the location of the first endpoint of the front segment
with the location of the second endpoint of the back segment. -/
def closed (R : ProtoRing) : Option Bool :=
  match R.m_segments.head?, R.m_segments.getLast? with
  | some f, some l => some (Location.eq f.first.location l.second.location)
  | _, _ => none

/-- The summand of `sum` for one segment: both products and their difference
are 64-bit operations on the coordinates cast to `int64_t`. -/
def sum_term (segment : NodeRefSegment) : Int :=
  wrap64 (wrap64 (segment.first.location.x * segment.second.location.y) -
          wrap64 (segment.second.location.x * segment.first.location.y))

/-- `sum`: the loop `sum += ...` over all segments with a 64-bit accumulator
starting at 0. -/
def sum (R : ProtoRing) : Int :=
  R.m_segments.foldl (fun acc segment => wrap64 (acc + sum_term segment)) 0

/-- `is_cw`: `sum() <= 0`. -/
def is_cw (R : ProtoRing) : Bool := decide (sum R ≤ 0)

/-- `area`: `std::abs(sum()) / 2`, the division truncating. -/
def area (R : ProtoRing) : Int := Int.tdiv (abs64 (sum R)) 2

/-- `print`: writes the node ids of the ring, `[a,b,c]`. -/
def print (R : ProtoRing) : String :=
  (R.m_segments.foldl
    (fun (st : String × Bool) segment =>
      ((if st.2 then st.1 ++ toString segment.first.ref else st.1)
          ++ "," ++ toString segment.second.ref, false))
    ("[", true)).1 ++ "]"

/-- `reverse`: swaps the endpoints of every segment in place, then reverses the
vector. -/
def reverse (R : ProtoRing) : ProtoRing :=
  { R with m_segments := (R.m_segments.map NodeRefSegment.swap_locations).reverse }

/-- The objects a merge call works on: the ring itself, the ring passed by
const reference, and the text written to `std::cerr` so far. -/
structure MergeState where
  self : ProtoRing
  other : ProtoRing
  cerr : String
deriving DecidableEq, Repr

/-- `merge_ring`: optional trace, `resize`, `std::copy` of the other ring's
segments behind the old end, optional trace. `dflt` is the default-constructed
segment `resize` fills with. -/
def merge_ring (dflt : NodeRefSegment) (st : MergeState) (debug : Bool) : MergeState :=
  let cerr1 :=
    if debug then
      st.cerr ++ "        MERGE rings " ++ print st.self ++ " to " ++ print st.other ++ "\n"
    else st.cerr
  let n := st.self.m_segments.length
  let resized := vector_resize dflt st.self.m_segments (n + st.other.m_segments.length)
  let self1 := { st.self with m_segments := std_copy st.other.m_segments resized n }
  let cerr2 :=
    if debug then cerr1 ++ "          result ring: " ++ print self1 ++ "\n" else cerr1
  { self := self1, other := st.other, cerr := cerr2 }

/-- `merge_ring_reverse`: optional trace, `resize`, `std::transform` of the
other ring's segments in reverse iteration order, each copy with its endpoints
swapped, behind the old end, optional trace. -/
def merge_ring_reverse (dflt : NodeRefSegment) (st : MergeState) (debug : Bool) : MergeState :=
  let cerr1 :=
    if debug then
      st.cerr ++ "        MERGE rings (reverse) " ++ print st.self ++ " to "
        ++ print st.other ++ "\n"
    else st.cerr
  let n := st.self.m_segments.length
  let resized := vector_resize dflt st.self.m_segments (n + st.other.m_segments.length)
  let self1 :=
    { st.self with
      m_segments :=
        std_transform NodeRefSegment.swap_locations st.other.m_segments.reverse resized n }
  let cerr2 :=
    if debug then cerr1 ++ "          result ring: " ++ print self1 ++ "\n" else cerr1
  { self := self1, other := st.other, cerr := cerr2 }

/-- `std::min_element(first, last)` with the comparison `lt`: the first
element is the candidate, and every later element that compares less than the
candidate replaces it; no result on an empty range. -/
def std_min_element {α : Type} (lt : α → α → Bool) : List α → Option α
  | [] => none
  | x :: xs => some (xs.foldl (fun smallest e => if lt e smallest then e else smallest) x)

/-- `min_node`: the smallest segment by the segment comparison `lt`
(`operator<` of `NodeRefSegment`), and of its two endpoints the first one if
its location is less than that of the second one, else the second one. -/
def min_node (lt : NodeRefSegment → NodeRefSegment → Bool) (R : ProtoRing) : Option NodeRef :=
  match std_min_element lt R.m_segments with
  | none => none
  | some it => if location_less it.first it.second then some it.first else some it.second

/-- The condition of the `if` in the loop of `is_in` for the test point `t`,
the vertex `vi` (index `i`) and the vertex `vj` (index `j`), in 32-bit
arithmetic; the second operand of `&&` is only evaluated when the first one
holds, and has no result when the division has none: when the divisor is 0,
and when the dividend is `INT_MIN` and the divisor is -1 (the quotient is no
`int`, and the division instruction traps). -/
def is_in_cond (t vi vj : Location) : Option Bool :=
  if (decide (vi.y > t.y) != decide (vj.y > t.y)) then
    if wrap32 (vj.y - vi.y) = 0 then none
    else if wrap32 (wrap32 (vj.x - vi.x) * wrap32 (t.y - vi.y)) = -2147483648 ∧
        wrap32 (vj.y - vi.y) = -1 then none
    else
      some (decide (t.x <
        wrap32 (wrap32 (Int.tdiv (wrap32 (wrap32 (vj.x - vi.x) * wrap32 (t.y - vi.y)))
                          (wrap32 (vj.y - vi.y)))
                + vi.x)))
  else some false

/-- The loop of `is_in`: `is` are the values of `i` still to come, `j` the
current value of `j`, `acc` the current value of the flag. -/
def is_in_loop (testpoint : Location) (segs : List NodeRefSegment) :
    List Nat → Nat → Bool → Option Bool
  | [], _, acc => some acc
  | i :: rest, j, acc =>
    match segs[i]?, segs[j]? with
    | some si, some sj =>
      match is_in_cond testpoint si.first.location sj.first.location with
      | some c => is_in_loop testpoint segs rest i (if c then !acc else acc)
      | none => none
    | _, _ => none

/-- `is_in`: the test point is the location of the first endpoint of the
ring's front segment; the loop runs `i` over `0 .. size - 1` with `j`
starting at `size - 1` and following `i`. -/
def is_in (R outer : ProtoRing) : Option Bool :=
  match R.m_segments.head? with
  | none => none
  | some f =>
    is_in_loop f.first.location outer.m_segments
      (List.range outer.m_segments.length) (outer.m_segments.length - 1) false

/-- `contains`: some segment of the ring is `==` to the given one, or has its
first endpoint `==` to the given second endpoint and its second endpoint `==`
to the given first endpoint. `segEq` is `operator==` of `NodeRefSegment`,
`nodeEq` is `operator==` of `NodeRef`. -/
def contains (segEq : NodeRefSegment → NodeRefSegment → Bool)
    (nodeEq : NodeRef → NodeRef → Bool) (R : ProtoRing) (segment : NodeRefSegment) : Bool :=
  R.m_segments.any
    (fun s => segEq s segment || (nodeEq s.first segment.second && nodeEq s.second segment.first))

/-! ## Specification-side notions -/

/-- The exact shoelace sum of a segment sequence over the integers. -/
def shoelace (segs : List NodeRefSegment) : Int :=
  (segs.map (fun s => s.first.location.x * s.second.location.y
                      - s.second.location.x * s.first.location.y)).sum

/-- All coordinates of a segment are `int32_t` values. -/
def segInt32 (s : NodeRefSegment) : Prop :=
  isInt32 s.first.location.x ∧ isInt32 s.first.location.y ∧
  isInt32 s.second.location.x ∧ isInt32 s.second.location.y

instance (s : NodeRefSegment) : Decidable (segInt32 s) := by
  unfold segInt32; infer_instance

/-- Contiguity of a segment sequence: the second location of each segment is
the first location of the next one. -/
def contiguous : List NodeRefSegment → Bool
  | [] => true
  | [_] => true
  | a :: b :: rest =>
      Location.eq a.second.location b.first.location && contiguous (b :: rest)

/-- A segment from `(x1, y1)` to `(x2, y2)` between nodes `r1` and `r2`. -/
def mkSeg (r1 x1 y1 r2 x2 y2 : Int) : NodeRefSegment :=
  { first := { ref := r1, location := { x := x1, y := y1 } },
    second := { ref := r2, location := { x := x2, y := y2 } },
    way := 0 }

/-- The rectangle spanning the whole valid coordinate range, traversed
counter-clockwise. -/
def worldRing : ProtoRing :=
  { m_segments :=
      [ mkSeg 1 (-1800000000) (-900000000) 2 1800000000 (-900000000),
        mkSeg 2 1800000000 (-900000000) 3 1800000000 900000000,
        mkSeg 3 1800000000 900000000 4 (-1800000000) 900000000,
        mkSeg 4 (-1800000000) 900000000 1 (-1800000000) (-900000000) ] }

/-- A clockwise L-shaped hexagon inside the valid coordinate range whose
enclosed area is `2^62`. -/
def minSumRing : ProtoRing :=
  { m_segments :=
      [ mkSeg 1 (-1800000000) (-900000000) 2 (-1800000000) 381023895,
        mkSeg 2 (-1800000000) 381023895 3 (-1772612096) 381023895,
        mkSeg 3 (-1772612096) 381023895 4 (-1772612096) 381023894,
        mkSeg 4 (-1772612096) 381023894 5 1800000000 381023894,
        mkSeg 5 1800000000 381023894 6 1800000000 (-900000000),
        mkSeg 6 1800000000 (-900000000) 1 (-1800000000) (-900000000) ] }

/-- The southern and eastern edge of `worldRing`. -/
def worldSouthEast : ProtoRing :=
  { m_segments :=
      [ mkSeg 1 (-1800000000) (-900000000) 2 1800000000 (-900000000),
        mkSeg 2 1800000000 (-900000000) 3 1800000000 900000000 ] }

/-- The northern and western edge of `worldRing`. -/
def worldNorthWest : ProtoRing :=
  { m_segments :=
      [ mkSeg 3 1800000000 900000000 4 (-1800000000) 900000000,
        mkSeg 4 (-1800000000) 900000000 1 (-1800000000) (-900000000) ] }

/-- The relation between consecutive segments of a contiguous sequence. -/
def adjacent (a b : NodeRefSegment) : Prop := a.second.location = b.first.location

/-- A valid location: `|x| <= 1800000000` and `|y| <= 900000000`. -/
def validLocation (l : Location) : Prop :=
  -1800000000 ≤ l.x ∧ l.x ≤ 1800000000 ∧ -900000000 ≤ l.y ∧ l.y ≤ 900000000

instance (l : Location) : Decidable (validLocation l) := by
  unfold validLocation; infer_instance

/-- Both endpoints of a segment are valid locations. -/
def validSegment (s : NodeRefSegment) : Prop :=
  validLocation s.first.location ∧ validLocation s.second.location

instance (s : NodeRefSegment) : Decidable (validSegment s) := by
  unfold validSegment; infer_instance

/-- The square with corners `(-900000000, -900000000)` and
`(900000000, 900000000)`, traversed counter-clockwise. -/
def worldSquare : ProtoRing :=
  { m_segments :=
      [ mkSeg 1 (-900000000) (-900000000) 2 900000000 (-900000000),
        mkSeg 2 900000000 (-900000000) 3 900000000 900000000,
        mkSeg 3 900000000 900000000 4 (-900000000) 900000000,
        mkSeg 4 (-900000000) 900000000 1 (-900000000) (-900000000) ] }

/-- The two locations of a segment, in order. -/
def segLocations (s : NodeRefSegment) : Location × Location :=
  (s.first.location, s.second.location)

/-- The edges of the axis-aligned rectangle with corners `(x0, y0)` and
`(x1, y1)` traversed `(x0,y0) -> (x1,y0) -> (x1,y1) -> (x0,y1) -> (x0,y0)`. -/
def rectEdges (x0 y0 x1 y1 : Int) : List (Location × Location) :=
  [ (⟨x0, y0⟩, ⟨x1, y0⟩), (⟨x1, y0⟩, ⟨x1, y1⟩), (⟨x1, y1⟩, ⟨x0, y1⟩), (⟨x0, y1⟩, ⟨x0, y0⟩) ]

/-- The edges of the same rectangle traversed in the opposite direction,
`(x0,y0) -> (x0,y1) -> (x1,y1) -> (x1,y0) -> (x0,y0)`. -/
def rectEdgesOpposite (x0 y0 x1 y1 : Int) : List (Location × Location) :=
  [ (⟨x0, y0⟩, ⟨x0, y1⟩), (⟨x0, y1⟩, ⟨x1, y1⟩), (⟨x1, y1⟩, ⟨x1, y0⟩), (⟨x1, y0⟩, ⟨x0, y0⟩) ]

/-- A ring of one segment, between the nodes 1 and 2. -/
def dupRing : ProtoRing := { m_segments := [mkSeg 1 0 0 2 10 0] }

/-- A segment between two other nodes (ids 3 and 4) lying at the locations of
the nodes 1 and 2 of `dupRing`. -/
def dupSegment : NodeRefSegment := mkSeg 3 0 0 4 10 0

/-- The lexicographic order on locations, by `x`, then by `y`. -/
def Location.le (a b : Location) : Prop := a.x < b.x ∨ (a.x = b.x ∧ a.y ≤ b.y)

instance (a b : Location) : Decidable (Location.le a b) := by
  unfold Location.le; infer_instance

/-- The locations of all endpoints (first and second) of all segments. -/
def endpointLocations : List NodeRefSegment → List Location
  | [] => []
  | s :: rest => s.first.location :: s.second.location :: endpointLocations rest

/-- The location `p` is the lexicographically smallest of the locations `ls`:
it is one of them and none of them is smaller. -/
def isLeastLocation (p : Location) (ls : List Location) : Prop :=
  p ∈ ls ∧ ∀ q ∈ ls, Location.le p q

instance (p : Location) (ls : List Location) : Decidable (isLeastLocation p ls) := by
  unfold isLeastLocation; infer_instance

/-- What is used of the segment comparison `operator<`: a segment whose first
location is smaller is smaller, and a smaller segment has no greater first
location. -/
def comparesFirstLocation (lt : NodeRefSegment → NodeRefSegment → Bool) : Prop :=
  ∀ a b, (Location.lt a.first.location b.first.location = true → lt a b = true) ∧
         (lt a b = true → Location.le a.first.location b.first.location)

/-- The ring with the segment sequence rotated by `k` places: the same cycle of
segments started at another segment. -/
def rotated (R : ProtoRing) (k : Nat) : ProtoRing :=
  { R with m_segments := R.m_segments.rotate k }

/-- An open contiguous chain `(2,0) -> (5,0) -> (1,0)`. -/
def openChain : ProtoRing :=
  { m_segments := [mkSeg 1 2 0 2 5 0, mkSeg 2 5 0 3 1 0] }

/-- The index `j` that accompanies the index `i` in the loop of `is_in` over
`n` segments: `i - 1`, and `n - 1` for `i = 0`. -/
def prevIdx (n i : Nat) : Nat := if i = 0 then n - 1 else i - 1

/-- The start vertices of a ring: the first location of each segment. -/
def startVertices (O : ProtoRing) : List Location :=
  O.m_segments.map (fun s => s.first.location)

/-- The vertex with index `i` of a vertex list. -/
def vertexAt (vs : List Location) (i : Nat) : Location := vs.getD i ⟨0, 0⟩

/-- The crossing condition of `is_in` for the test point `t`, the vertex `vi`
and the vertex `vj`, the arithmetic being that of `int32_t`. -/
def crossesAt (t vi vj : Location) : Prop :=
  ¬ (vi.y > t.y ↔ vj.y > t.y) ∧
  t.x < wrap32 (wrap32 (Int.tdiv (wrap32 (wrap32 (vj.x - vi.x) * wrap32 (t.y - vi.y)))
                          (wrap32 (vj.y - vi.y)))
                + vi.x)

instance (t vi vj : Location) : Decidable (crossesAt t vi vj) := by
  unfold crossesAt; infer_instance

/-- The number of indices `i` of the vertex list whose vertex `v_i` and
predecessor `v_j` (`j = i - 1`, and `j = n - 1` for `i = 0`) satisfy the
crossing condition. -/
def crossingCount (t : Location) (vs : List Location) : Nat :=
  (List.range vs.length).countP
    (fun i => decide (crossesAt t (vertexAt vs i) (vertexAt vs (prevIdx vs.length i))))

/-- The crossing-number test of the polygon with vertices `vs` applied to the
point `t`: the number of crossings is odd. -/
def crossing_number_test (t : Location) (vs : List Location) : Bool :=
  decide (crossingCount t vs % 2 = 1)

/-- The corners of the axis-aligned rectangle with corners `(x0, y0)` and
`(x1, y1)`, in counter-clockwise order from `(x0, y0)`. -/
def rectCorners (x0 y0 x1 y1 : Int) : List Location :=
  [⟨x0, y0⟩, ⟨x1, y0⟩, ⟨x1, y1⟩, ⟨x0, y1⟩]

/-- The square with corners `(0, 0)` and `(10, 10)`, counter-clockwise. -/
def square10 : ProtoRing :=
  { m_segments :=
      [ mkSeg 1 0 0 2 10 0, mkSeg 2 10 0 3 10 10, mkSeg 3 10 10 4 0 10, mkSeg 4 0 10 1 0 0 ] }

/-- A closed triangle `(5,5) -> (-5,5) -> (-5,6) -> (5,5)` whose first vertex
lies inside `square10` and whose smallest vertex lies outside. -/
def straddlingTriangle : ProtoRing :=
  { m_segments := [ mkSeg 5 5 5 6 (-5) 5, mkSeg 6 (-5) 5 7 (-5) 6, mkSeg 7 (-5) 6 5 5 5 ] }

/-- The triangle `(0,0) -> (3,0) -> (0,2) -> (0,0)`, counter-clockwise. -/
def triangle32 : ProtoRing :=
  { m_segments := [ mkSeg 1 0 0 2 3 0, mkSeg 2 3 0 3 0 2, mkSeg 3 0 2 1 0 0 ] }

/-- A ring of one segment starting at `(1, 1)`, a point strictly inside
`triangle32`. -/
def probe11 : ProtoRing := { m_segments := [ mkSeg 7 1 1 8 2 1 ] }

/-- The index in the original vertex list of the vertex with index `i` of the
reversed closed ring. -/
def revIdx (n i : Nat) : Nat := if i = 0 then 0 else n - i

/-- The number of indices `i` whose vertex `v_i` and predecessor `v_j` satisfy
the crossing condition with the two vertices exchanged. -/
def crossingCountExchanged (t : Location) (vs : List Location) : Nat :=
  (List.range vs.length).countP
    (fun i => decide (crossesAt t (vertexAt vs (prevIdx vs.length i)) (vertexAt vs i)))

end ProtoRing

/-! ## typed_mmap (osmium/index/detail/typed_mmap.hpp): definitions -/

/-- Reduction of a natural number to the range of `size_t` (64 bits). -/
def wrapU64 (n : Nat) : Nat := n % 18446744073709551616

namespace typed_mmap

/-- The ways in which the functions of `typed_mmap` fail. -/
inductive Failure where
  | system_error (what : String)
  | length_error (what : String)
  | assertion_failed
deriving DecidableEq, Repr

/-- What the functions see of the file behind a file descriptor: its size in
bytes (`st_size`), whether `fstat` succeeds on it and whether `ftruncate`
succeeds on it. -/
structure File where
  st_size : Nat
  fstat_ok : Bool := true
  ftruncate_ok : Bool := true
deriving DecidableEq, Repr

/-- `file_size`: `fstat`, then the size in bytes must be a multiple of
`sizeof(T)`, and the result is the quotient. -/
def file_size (sizeofT : Nat) (fd : File) : Except Failure Nat :=
  if fd.fstat_ok = false then
    .error (.system_error "fstat failed")
  else if wrapU64 fd.st_size % sizeofT ≠ 0 then
    .error (.length_error "file size has to be multiple of object size")
  else
    .ok (wrapU64 fd.st_size / sizeofT)

/-- `static_cast_with_assert<off_t>` of a `size_t` value (osmium/util/cast.hpp
is not among the sources): the value itself, under the assertion that it does
not exceed the largest `off_t`. -/
def static_cast_with_assert_off_t (value : Nat) : Option Nat :=
  if value ≤ 9223372036854775807 then some value else none

/-- `grow_file`: if the file holds fewer than `new_size` objects, `ftruncate`
to `sizeof(T) * new_size` bytes, the product being computed in `size_t`. The
result is the file afterwards. -/
def grow_file (sizeofT new_size : Nat) (fd : File) : Except Failure File :=
  match file_size sizeofT fd with
  | .error e => .error e
  | .ok objects =>
    if objects < new_size then
      match static_cast_with_assert_off_t (wrapU64 (sizeofT * new_size)) with
      | none => .error .assertion_failed
      | some length =>
        if fd.ftruncate_ok = false then .error (.system_error "ftruncate failed")
        else .ok { fd with st_size := length }
    else .ok fd

end typed_mmap

/-! ## SparseMemTable (osmium/index/map/sparse_mem_table.hpp): definitions -/

namespace SparseMemTable

/-- The class `google::sparsetable<TValue>` as far as the index uses it: a table
of `table_size` elements of which the assigned ones are stored. -/
structure sparsetable (V : Type) where
  table_size : Nat
  assigned : List (Nat × V)
deriving DecidableEq, Repr

/-- `sparsetable(n)`: a table of `n` unassigned elements. -/
def sparsetable.create {V : Type} (n : Nat) : sparsetable V :=
  { table_size := n, assigned := [] }

/-- `sparsetable::size`. -/
def sparsetable.size {V : Type} (t : sparsetable V) : Nat := t.table_size

/-- `sparsetable::resize(n)`: the new size is `n`; elements at positions from
`n` on are dropped. -/
def sparsetable.resize {V : Type} (t : sparsetable V) (n : Nat) : sparsetable V :=
  { table_size := n, assigned := t.assigned.filter (fun e => decide (e.1 < n)) }

/-- Reading `t[i]` for `i < size()`: the assigned value, or the default value
of the value type for an unassigned element. -/
def sparsetable.read {V : Type} (dflt : V) (t : sparsetable V) (i : Nat) : V :=
  match t.assigned.lookup i with
  | some v => v
  | none => dflt

/-- The assignment `t[i] = value`; there is no result for a position outside
the table. -/
def sparsetable.assign {V : Type} (t : sparsetable V) (i : Nat) (value : V) :
    Option (sparsetable V) :=
  if i < t.table_size then
    some { t with assigned := (i, value) :: t.assigned.filter (fun e => decide (e.1 ≠ i)) }
  else none

end SparseMemTable

/-- The class `SparseMemTable<TId, TValue>` with `TId` a 64-bit unsigned
integer: its two data members. -/
structure SparseMemTable (V : Type) where
  m_grow_size : Nat
  m_elements : SparseMemTable.sparsetable V
deriving DecidableEq, Repr

namespace SparseMemTable

/-- The constructor: `m_grow_size(grow_size), m_elements(grow_size)`. -/
def create {V : Type} (grow_size : Nat) : SparseMemTable V :=
  { m_grow_size := grow_size, m_elements := sparsetable.create grow_size }

/-- The first statement of `set`: if `id >= m_elements.size()`, resize to
`id + m_grow_size`, the sum being computed in the 64-bit type `TId`. -/
def set_resize {V : Type} (t : SparseMemTable V) (id : Nat) : SparseMemTable V :=
  if id ≥ t.m_elements.size then
    { t with m_elements := t.m_elements.resize (wrapU64 (id + t.m_grow_size)) }
  else t

/-- `set`: the resize step, then `m_elements[id] = value`. -/
def set {V : Type} (t : SparseMemTable V) (id : Nat) (value : V) : Option (SparseMemTable V) :=
  match (set_resize t id).m_elements.assign id value with
  | some elements => some { set_resize t id with m_elements := elements }
  | none => none

/-- `get`: throws `not_found{id}` (the error of the result) for an `id` outside
the table and for an element equal to the empty value `empty`
(`osmium::index::empty_value<TValue>()`); `dflt` is the default value of the
value type. -/
def get {V : Type} [DecidableEq V] (dflt empty : V) (t : SparseMemTable V) (id : Nat) :
    Except Nat V :=
  if id ≥ t.m_elements.size then .error id
  else if t.m_elements.read dflt id = empty then .error id
  else .ok (t.m_elements.read dflt id)

/-- `get_noexcept`: the empty value for an `id` outside the table, else the
element. -/
def get_noexcept {V : Type} (dflt empty : V) (t : SparseMemTable V) (id : Nat) : V :=
  if id ≥ t.m_elements.size then empty else t.m_elements.read dflt id

/-- `size`: `m_elements.size()`. -/
def size {V : Type} (t : SparseMemTable V) : Nat := t.m_elements.size

end SparseMemTable

/-! ## XMLParser (osmium/io/detail/xml_input_format.hpp): definitions -/

namespace XML

/-- The enumeration `XMLParser::context`. -/
inductive context where
  | root
  | top
  | node
  | way
  | relation
  | changeset
  | discussion
  | comment
  | comment_text
  | ignored_node
  | ignored_way
  | ignored_relation
  | ignored_changeset
  | in_object
deriving DecidableEq, Repr

/-- The exceptions of the parser and the failure of an assertion.
`format_version_error none` is the exception constructed without a version,
`conversion_error` stands for any exception raised by code that is not among
the sources while it converts an attribute value or builds an object. -/
inductive Failure where
  | xml_error (message : String)
  | format_version_error (version : Option String)
  | conversion_error
  | assertion_failed
deriving DecidableEq, Repr

/-- The attributes of an element as Expat passes them: name and value pairs in
document order. -/
abbrev Attrs := List (String × String)

/-- The operations of `osmium::io::Header` that the parser uses
(osmium/io/header.hpp is not among the sources), taken as parameters. -/
structure HeaderOps (H : Type) where
  set : H → String → String → H
  get : H → String → String
  set_has_multiple_object_versions : H → Bool → H
  add_box : H → Attrs → H

/-- What the parser relies on of the header: `get` returns the value last `set`
for the key, other keys are not affected, and the other operations do not
change the values of keys. -/
structure HeaderOps.Lawful {H : Type} (ops : HeaderOps H) : Prop where
  get_set : ∀ h k v, ops.get (ops.set h k v) k = v
  get_set_other : ∀ h k k2 v, k2 ≠ k → ops.get (ops.set h k v) k2 = ops.get h k2
  get_versions : ∀ h b k, ops.get (ops.set_has_multiple_object_versions h b) k = ops.get h k
  get_add_box : ∀ h a k, ops.get (ops.add_box h a) k = ops.get h k

/-- A header kept as a list of key and value pairs, the newest first, with the
flag and the boxes: an instance of the operations. -/
structure ListHeader where
  options : List (String × String) := []
  multiple_object_versions : Bool := false
  boxes : List Attrs := []
deriving DecidableEq, Repr

/-- The operations on `ListHeader`; `get` of a key that was never set is the
empty string. -/
def listHeaderOps : HeaderOps ListHeader where
  set := fun h k v => { h with options := (k, v) :: h.options }
  get := fun h k => (h.options.lookup k).getD ""
  set_has_multiple_object_versions := fun h b => { h with multiple_object_versions := b }
  add_box := fun h a => { h with boxes := a :: h.boxes }

/-- The item types a relation member can be given, and the others. -/
inductive item_type where
  | undefined
  | node
  | way
  | relation
  | other
deriving DecidableEq, Repr

/-- What the parser uses of code that is not among the sources, taken as
parameters: which entity types are read (`read_types()`), whether the
conversions of the attribute values of an element and the builder calls for it
succeed (they raise an exception otherwise), and `char_to_item_type`. -/
structure External where
  read_node : Bool := true
  read_way : Bool := true
  read_relation : Bool := true
  read_changeset : Bool := true
  converts : String → Attrs → Bool := fun _ _ => true
  char_to_item_type : Char → item_type

/-- The data members of `XMLParser` that hold the state of the parse: the
contexts, the delete flag, the header and the comment text. The builders and
the buffer receive the output and are not part of this state, except for the
strings handed to `add_comment_text`, which are recorded in `comment_texts`,
the newest first. -/
structure XMLParser (H : Type) where
  m_context : context := .root
  m_last_context : context := .root
  m_in_delete_section : Bool := false
  m_header : H
  m_comment_text : String := ""
  comment_texts : List String := []

/-- `check_attributes`: calls `check` on each name and value pair in order; an
exception raised by `check` ends the loop. -/
def check_attributes {σ ε : Type} (attrs : Attrs) (check : σ → String → String → Except ε σ)
    (init : σ) : Except ε σ :=
  match attrs with
  | [] => .ok init
  | (name, value) :: rest =>
    match check init name value with
    | .error e => .error e
    | .ok s => check_attributes rest check s

/-- The callback of `check_attributes` in the context `root`: a `version`
attribute is stored in the header and must have the value `0.6`, a `generator`
attribute is stored in the header. -/
def check_root_attribute {H : Type} (ops : HeaderOps H) (h : H) (name value : String) :
    Except Failure H :=
  if name = "version" then
    if value ≠ "0.6" then .error (.format_version_error (some value))
    else .ok (ops.set h "version" value)
  else if name = "generator" then .ok (ops.set h "generator" value)
  else .ok h

/-- The first character of a C string, the terminating NUL for the empty
string. -/
def first_char (value : String) : Char := value.toList.headD (Char.ofNat 0)

/-- The state of the member attributes scan: the type and whether `ref` was
seen. -/
def member_scan (ext : External) (attrs : Attrs) : item_type × Bool :=
  attrs.foldl
    (fun st nv =>
      if nv.1 = "type" then (ext.char_to_item_type (first_char nv.2), st.2)
      else if nv.1 = "ref" then (st.1, true)
      else st)
    (item_type.undefined, false)

/-- `start_element`: the `switch` over the context. -/
def start_element {H : Type} (ops : HeaderOps H) (ext : External) (p : XMLParser H)
    (element : String) (attrs : Attrs) : Except Failure (XMLParser H) :=
  match p.m_context with
  | .root =>
    if element = "osm" ∨ element = "osmChange" then
      let h0 :=
        if element = "osmChange" then ops.set_has_multiple_object_versions p.m_header true
        else p.m_header
      match check_attributes attrs (check_root_attribute ops) h0 with
      | .error e => .error e
      | .ok h1 =>
        if ops.get h1 "version" = "" then .error (.format_version_error none)
        else .ok { p with m_header := h1, m_context := .top }
    else .error (.xml_error ("Unknown top-level element: " ++ element))
  | .top =>
    if element = "node" then
      if ext.read_node then
        if ext.converts element attrs then .ok { p with m_context := .node }
        else .error .conversion_error
      else .ok { p with m_context := .ignored_node }
    else if element = "way" then
      if ext.read_way then
        if ext.converts element attrs then .ok { p with m_context := .way }
        else .error .conversion_error
      else .ok { p with m_context := .ignored_way }
    else if element = "relation" then
      if ext.read_relation then
        if ext.converts element attrs then .ok { p with m_context := .relation }
        else .error .conversion_error
      else .ok { p with m_context := .ignored_relation }
    else if element = "changeset" then
      if ext.read_changeset then
        if ext.converts element attrs then .ok { p with m_context := .changeset }
        else .error .conversion_error
      else .ok { p with m_context := .ignored_changeset }
    else if element = "bounds" then
      if ext.converts element attrs then .ok { p with m_header := ops.add_box p.m_header attrs }
      else .error .conversion_error
    else if element = "delete" then .ok { p with m_in_delete_section := true }
    else .ok p
  | .node =>
    if element = "tag" ∧ ext.converts element attrs = false then .error .conversion_error
    else .ok { p with m_last_context := .node, m_context := .in_object }
  | .way =>
    if (element = "nd" ∨ element = "tag") ∧ ext.converts element attrs = false then
      .error .conversion_error
    else .ok { p with m_last_context := .way, m_context := .in_object }
  | .relation =>
    if element = "member" then
      if ext.converts element attrs = false then .error .conversion_error
      else if (member_scan ext attrs).1 ≠ item_type.node ∧
          (member_scan ext attrs).1 ≠ item_type.way ∧
          (member_scan ext attrs).1 ≠ item_type.relation then
        .error (.xml_error "Unknown type on relation member")
      else if (member_scan ext attrs).2 = false then
        .error (.xml_error "Missing ref on relation member")
      else .ok { p with m_last_context := .relation, m_context := .in_object }
    else if element = "tag" ∧ ext.converts element attrs = false then .error .conversion_error
    else .ok { p with m_last_context := .relation, m_context := .in_object }
  | .changeset =>
    if element = "discussion" then
      .ok { p with m_last_context := .changeset, m_context := .discussion }
    else if element = "tag" then
      if ext.converts element attrs = false then .error .conversion_error
      else .ok { p with m_last_context := .changeset, m_context := .in_object }
    else .ok { p with m_last_context := .changeset }
  | .discussion =>
    if element = "comment" then
      if ext.converts element attrs = false then .error .conversion_error
      else .ok { p with m_context := .comment }
    else .ok p
  | .comment =>
    if element = "text" then .ok { p with m_context := .comment_text } else .ok p
  | .comment_text => .ok p
  | .ignored_node => .ok p
  | .ignored_way => .ok p
  | .ignored_relation => .ok p
  | .ignored_changeset => .ok p
  | .in_object => .error (.xml_error "xml file nested too deep")

/-- `end_element`: the `switch` over the context; a failing `assert` is the
failure `assertion_failed`. -/
def end_element {H : Type} (p : XMLParser H) (element : String) :
    Except Failure (XMLParser H) :=
  match p.m_context with
  | .root => .error .assertion_failed
  | .top =>
    if element = "osm" ∨ element = "osmChange" then .ok { p with m_context := .root }
    else if element = "delete" then .ok { p with m_in_delete_section := false }
    else .ok p
  | .node =>
    if element = "node" then .ok { p with m_context := .top } else .error .assertion_failed
  | .way =>
    if element = "way" then .ok { p with m_context := .top } else .error .assertion_failed
  | .relation =>
    if element = "relation" then .ok { p with m_context := .top }
    else .error .assertion_failed
  | .changeset =>
    if element = "changeset" then .ok { p with m_context := .top }
    else .error .assertion_failed
  | .discussion =>
    if element = "discussion" then .ok { p with m_context := .changeset }
    else .error .assertion_failed
  | .comment =>
    if element = "comment" then .ok { p with m_context := .discussion }
    else .error .assertion_failed
  | .comment_text =>
    if element = "text" then
      .ok { p with m_context := .comment, comment_texts := p.m_comment_text :: p.comment_texts }
    else .error .assertion_failed
  | .in_object => .ok { p with m_context := p.m_last_context }
  | .ignored_node => if element = "node" then .ok { p with m_context := .top } else .ok p
  | .ignored_way => if element = "way" then .ok { p with m_context := .top } else .ok p
  | .ignored_relation =>
    if element = "relation" then .ok { p with m_context := .top } else .ok p
  | .ignored_changeset =>
    if element = "changeset" then .ok { p with m_context := .top } else .ok p

/-- `characters`: appends the text in the context `comment_text` and empties
the comment text in every other context. -/
def characters {H : Type} (p : XMLParser H) (text : String) : XMLParser H :=
  if p.m_context = .comment_text then { p with m_comment_text := p.m_comment_text ++ text }
  else { p with m_comment_text := "" }

/-- The parser after construction, with the header `h`. -/
def initial {H : Type} (h : H) : XMLParser H := { m_header := h }

end XML

/-! ## Iterator (osmium/memory/iterator.hpp): definitions -/

namespace memory

/-- The class `osmium::memory::Buffer` as the iterator sees it: whether the
buffer is valid (`operator bool`) and the items it holds, `begin()` being the
position 0 and `end()` the position after the last item. -/
structure Buffer (Item : Type) where
  valid : Bool
  items : List Item
deriving DecidableEq, Repr

/-- A source: the buffers `read()` is going to return, in order; when they are
used up `read()` returns an invalid buffer. -/
structure Source (Item : Type) where
  pending : List (Buffer Item)
deriving DecidableEq, Repr

/-- `TSource::read`: the next buffer and the source afterwards. -/
def Source.read {Item : Type} (src : Source Item) : Buffer Item × Source Item :=
  match src.pending with
  | [] => ({ valid := false, items := [] }, src)
  | b :: rest => (b, { pending := rest })

/-- The class `Iterator`: the source (with its present state) or `nullptr`,
the buffer or an empty pointer, and the position in the buffer or a
default-constructed buffer iterator. -/
structure Iterator (Item : Type) where
  m_source : Option (Source Item)
  m_buffer : Option (Buffer Item)
  m_iter : Option Nat
deriving DecidableEq, Repr

/-- The default-constructed iterator, the end iterator. -/
def Iterator.end_iterator {Item : Type} : Iterator Item :=
  { m_source := none, m_buffer := none, m_iter := none }

/-- `update_buffer` on a source that is going to return the buffers `pending`:
reads buffers until one is invalid (end of input: the iterator becomes the end
iterator) or has an item (the iterator rests on its first item). -/
def Iterator.update_buffer {Item : Type} : List (Buffer Item) → Iterator Item
  | [] => Iterator.end_iterator
  | b :: rest =>
    if b.valid = false then Iterator.end_iterator
    else if b.items.length = 0 then Iterator.update_buffer rest
    else { m_source := some { pending := rest }, m_buffer := some b, m_iter := some 0 }

/-- The constructor `Iterator(source)`. -/
def Iterator.create {Item : Type} (source : Source Item) : Iterator Item :=
  Iterator.update_buffer source.pending

/-- `operator++`: the three assertions, the step to the next item, and
`update_buffer` at the end of the buffer. There is no result when an assertion
fails or the position is not that of an item. -/
def Iterator.increment {Item : Type} (it : Iterator Item) : Option (Iterator Item) :=
  match it.m_source, it.m_buffer, it.m_iter with
  | some source, some buffer, some i =>
    if i < buffer.items.length then
      if i + 1 = buffer.items.length then some (Iterator.update_buffer source.pending)
      else some { it with m_iter := some (i + 1) }
    else none
  | _, _, _ => none

/-- `operator==` with the end iterator as right-hand side. -/
def Iterator.equals_end {Item : Type} (it : Iterator Item) : Bool :=
  it.m_source.isNone && it.m_buffer.isNone && it.m_iter.isNone

/-- `operator*`: the item at the position; no result without a buffer or on a
position that is not that of an item. -/
def Iterator.deref {Item : Type} (it : Iterator Item) : Option Item :=
  match it.m_buffer, it.m_iter with
  | some buffer, some i => buffer.items[i]?
  | _, _ => none

/-- The loop `for (; it != end; ++it) visit(*it)`: the items visited, when the
loop ends within `fuel` comparisons without a failure. -/
def Iterator.visit {Item : Type} : Nat → Iterator Item → Option (List Item)
  | 0, _ => none
  | fuel + 1, it =>
    if it.equals_end then some []
    else
      match it.deref, it.increment with
      | some item, some next =>
        match Iterator.visit fuel next with
        | some items => some (item :: items)
        | none => none
      | _, _ => none

/-- The iterator after `k` applications of `operator++`. -/
def Iterator.advance {Item : Type} : Nat → Iterator Item → Option (Iterator Item)
  | 0, it => some it
  | k + 1, it =>
    match it.increment with
    | some next => Iterator.advance k next
    | none => none

/-- The iterator is the end iterator or rests on an item of its buffer. -/
def Iterator.rests_on_item {Item : Type} (it : Iterator Item) : Prop :=
  it = Iterator.end_iterator ∨
    ∃ buffer i, it.m_buffer = some buffer ∧ it.m_iter = some i ∧ i < buffer.items.length

/-- All items of a sequence of buffers, in order. -/
def all_items {Item : Type} : List (Buffer Item) → List Item
  | [] => []
  | b :: rest => b.items ++ all_items rest

end memory

/-! ## Coordinates as strings (osmium/osm/location.hpp): definitions -/

namespace detail

/-- The test `*str >= '0' && *str <= '9'`. -/
def is_digit (c : Char) : Bool := decide (48 ≤ c.toNat) && decide (c.toNat ≤ 57)

/-- The value `*str - '0'` of a digit. -/
def digit_value (c : Char) : Int := (c.toNat : Int) - 48

/-- The loop reading the significant digits after the decimal point: while
`scale > 0` and there is a digit, `result = result * 10 + digit` in 32-bit
arithmetic. The result is the new `result`, the new `scale` and the rest of the
string. -/
def read_significant : Nat → Int → List Char → Int × Nat × List Char
  | 0, result, str => (result, 0, str)
  | scale + 1, result, [] => (result, scale + 1, [])
  | scale + 1, result, c :: str =>
    if is_digit c then read_significant scale (wrap32 (wrap32 (result * 10) + digit_value c)) str
    else (result, scale + 1, c :: str)

/-- The step that uses the eighth digit after the decimal point for rounding:
when `scale` is 0 and the next character is one of `5` .. `9`, the result is
incremented and the character consumed. -/
def round_eighth (result : Int) (scale : Nat) (str : List Char) : Int × List Char :=
  match str with
  | d :: rest =>
    if scale = 0 ∧ 53 ≤ d.toNat ∧ d.toNat ≤ 57 then (wrap32 (result + 1), rest)
    else (result, d :: rest)
  | [] => (result, [])

/-- The loop `for (; scale > 0; --scale) result *= 10` in 32-bit arithmetic. -/
def scale_up : Nat → Int → Int
  | 0, result => result
  | scale + 1, result => scale_up scale (wrap32 (result * 10))

/-- The optional second and third digit before the decimal point. -/
def read_more_integer_digits (result : Int) (str : List Char) : Int × List Char :=
  match str with
  | c2 :: str2 =>
    if is_digit c2 then
      match str2 with
      | c3 :: str3 =>
        if is_digit c3 then
          (wrap32 (wrap32 (wrap32 (wrap32 (result * 10) + digit_value c2) * 10)
            + digit_value c3), str3)
        else (wrap32 (wrap32 (result * 10) + digit_value c2), c3 :: str3)
      | [] => (wrap32 (wrap32 (result * 10) + digit_value c2), [])
    else (result, c2 :: str2)
  | [] => (result, [])

/-- The conversion after the optional minus sign, `sign` being 1 or -1. -/
def parse_unsigned (sign : Int) (str : List Char) : Option Int :=
  match str with
  | [] => none
  | c1 :: str1 =>
    if is_digit c1 = false then none
    else
      match read_more_integer_digits (digit_value c1) str1 with
      | (result, []) => some (wrap32 (scale_up 7 result * sign))
      | (result, c :: str4) =>
        if c ≠ '.' then none
        else
          match read_significant 7 result str4 with
          | (result5, scale, str5) =>
            match round_eighth result5 scale str5 with
            | (result6, str6) =>
              if str6.dropWhile is_digit ≠ [] then none
              else some (wrap32 (scale_up scale result6 * sign))

/-- Modelled from the spec: `string_to_location_coordinate`
(osmium/osm/location.hpp is not among the sources), after its test
(test_location.cpp, `Parsing coordinates from strings`): an optional minus
sign, one to three digits, then nothing or a decimal point and digits, of
which seven are significant and the eighth rounds; the result is the number of
`10^-7` units as an `int32_t`, and there is no result (`invalid_location`) for
every other string. -/
def string_to_location_coordinate (s : String) : Option Int :=
  match s.toList with
  | [] => parse_unsigned 1 []
  | c :: rest => if c = '-' then parse_unsigned (-1) rest else parse_unsigned 1 (c :: rest)

/-- The number written by a sequence of digit characters. -/
def digits_value (ds : List Char) : Nat :=
  ds.foldl (fun acc c => acc * 10 + (c.toNat - 48)) 0

/-- The value of the decimal number with the digits `ints` before and the
digits `fracs` after the decimal point, times `10^7`, rounded to the nearest
integer, halves rounded up. -/
def scaled_rounded (ints fracs : List Char) : Nat :=
  (2 * (digits_value (ints ++ fracs) * 10000000) + 10 ^ fracs.length) / (2 * 10 ^ fracs.length)

/-- What the conversion computes for the digits `ints` before and the digits
`fracs` after the decimal point: the first seven digits after the point are
significant, and an eighth digit from 5 to 9 adds one. -/
def scaled_value (ints fracs : List Char) : Nat :=
  (digits_value ints * 10 ^ (fracs.take 7).length + digits_value (fracs.take 7))
      * 10 ^ (7 - (fracs.take 7).length)
    + (match fracs.drop 7 with
       | d :: _ => if 53 ≤ d.toNat then 1 else 0
       | [] => 0)

/-- A character that can occur in a coordinate: a digit, the decimal point or
the minus sign. -/
def is_numeric (c : Char) : Bool := is_digit c || c == '.' || c == '-'

end detail

namespace ProtoRing

/-- The crossing condition of `is_in` with the same formula evaluated over the
mathematical integers, the division truncating. -/
def crossesAtExact (t vi vj : Location) : Prop :=
  ¬ (vi.y > t.y ↔ vj.y > t.y) ∧
  t.x < Int.tdiv ((vj.x - vi.x) * (t.y - vi.y)) (vj.y - vi.y) + vi.x

instance (t vi vj : Location) : Decidable (crossesAtExact t vi vj) := by
  unfold crossesAtExact; infer_instance

/-- The number of crossings counted with the formula over the mathematical
integers. -/
def crossingCountExact (t : Location) (vs : List Location) : Nat :=
  (List.range vs.length).countP
    (fun i => decide (crossesAtExact t (vertexAt vs i) (vertexAt vs (prevIdx vs.length i))))

/-- The crossing-number test with the formula over the mathematical
integers. -/
def crossing_number_test_exact (t : Location) (vs : List Location) : Bool :=
  decide (crossingCountExact t vs % 2 = 1)

/-- Every intermediate value of the second operand of the condition of `is_in`
is an `int32_t`: the two differences, their product, the divisor, the quotient
and the sum. -/
def noOverflowAt (t vi vj : Location) : Prop :=
  isInt32 (vj.x - vi.x) ∧ isInt32 (t.y - vi.y) ∧
  isInt32 ((vj.x - vi.x) * (t.y - vi.y)) ∧ isInt32 (vj.y - vi.y) ∧
  isInt32 (Int.tdiv ((vj.x - vi.x) * (t.y - vi.y)) (vj.y - vi.y)) ∧
  isInt32 (Int.tdiv ((vj.x - vi.x) * (t.y - vi.y)) (vj.y - vi.y) + vi.x)

/-- The triangle `(0, 0) -> (100000, 0) -> (0, 100000)`, one hundredth of a
degree wide, counter-clockwise. -/
def smallTriangle : ProtoRing :=
  { m_segments :=
      [ mkSeg 1 0 0 2 100000 0, mkSeg 2 100000 0 3 0 100000, mkSeg 3 0 100000 1 0 0 ] }

/-- A ring whose first location `(20000, 20000)` lies inside `smallTriangle`. -/
def probeInTriangle : ProtoRing :=
  { m_segments := [ mkSeg 7 20000 20000 8 20001 20000 ] }

end ProtoRing

namespace XML

/-- The events that Expat delivers to the handlers of the parser. -/
inductive Event where
  | start_element (element : String) (attrs : Attrs)
  | end_element (element : String)
  | characters (text : String)
deriving DecidableEq, Repr

/-- The handler call for one event. -/
def step {H : Type} (ops : HeaderOps H) (ext : External) (p : XMLParser H) :
    Event → Except Failure (XMLParser H)
  | .start_element element attrs => start_element ops ext p element attrs
  | .end_element element => end_element p element
  | .characters text => .ok (characters p text)

/-- The handler calls for a sequence of events in order; an exception or a
failing assertion ends the parse. -/
def run {H : Type} (ops : HeaderOps H) (ext : External) :
    XMLParser H → List Event → Except Failure (XMLParser H)
  | p, [] => .ok p
  | p, ev :: rest =>
    match step ops ext p ev with
    | .error e => .error e
    | .ok p2 => run ops ext p2 rest

/-- The events are well nested below the open elements `stack` (innermost
first): every end event closes the innermost open element, and no element is
left open. -/
def well_nested_from : List String → List Event → Bool
  | stack, [] => stack.isEmpty
  | stack, .start_element element _ :: rest => well_nested_from (element :: stack) rest
  | [], .end_element _ :: _ => false
  | open_element :: stack, .end_element element :: rest =>
    open_element == element && well_nested_from stack rest
  | stack, .characters _ :: rest => well_nested_from stack rest

/-- The contexts of an object that is being built. -/
def object_context (c : context) : Prop :=
  c = .node ∨ c = .way ∨ c = .relation ∨ c = .changeset

instance (c : context) : Decidable (object_context c) := by
  unfold object_context; infer_instance

/-- A reader of all entity types whose conversions succeed. -/
def readAll : External := { char_to_item_type := fun _ => item_type.undefined }

/-- The events of the document
`<osm version="0.6"><changeset><foo/></changeset></osm>`. -/
def unknownChildDocument : List Event :=
  [ .start_element "osm" [("version", "0.6")],
    .start_element "changeset" [],
    .start_element "foo" [],
    .end_element "foo",
    .end_element "changeset",
    .end_element "osm" ]

/-- The events of a changeset discussion with two comments, the texts `a` and
`b`, and no character data between the elements. -/
def twoCommentsDocument : List Event :=
  [ .start_element "osm" [("version", "0.6")],
    .start_element "changeset" [],
    .start_element "discussion" [],
    .start_element "comment" [],
    .start_element "text" [],
    .characters "a",
    .end_element "text",
    .end_element "comment",
    .start_element "comment" [],
    .start_element "text" [],
    .characters "b",
    .end_element "text",
    .end_element "comment",
    .end_element "discussion",
    .end_element "changeset",
    .end_element "osm" ]

/-- The events of a `text` element with the character data `texts`. -/
def text_element (texts : List String) : List Event :=
  .start_element "text" [] :: (texts.map Event.characters ++ [.end_element "text"])

end XML

namespace ProtoRing

/-- The case in which the division of `is_in` has no value although the
divisor is not zero: the first operand of the condition holds, the dividend
computed in 32 bits is `INT_MIN` and the divisor is -1. -/
def quotient_traps (t vi vj : Location) : Prop :=
  ¬ (vi.y > t.y ↔ vj.y > t.y) ∧
  wrap32 (wrap32 (vj.x - vi.x) * wrap32 (t.y - vi.y)) = -2147483648 ∧
  wrap32 (vj.y - vi.y) = -1

instance (t vi vj : Location) : Decidable (quotient_traps t vi vj) := by
  unfold quotient_traps; infer_instance

instance (t vi vj : Location) : Decidable (noOverflowAt t vi vj) := by
  unfold noOverflowAt isInt32; infer_instance

/-- No intermediate value overflows in the loop of `is_in` for the test point
`t` and the start vertices `vs`: for every index `i` whose vertex `v_i` and
predecessor `v_j` satisfy the first operand of the condition, so that the
second one is evaluated, every intermediate value is an `int32_t`. -/
def noOverflowIn (t : Location) (vs : List Location) : Prop :=
  ∀ i, i < vs.length →
    ¬ ((vertexAt vs i).y > t.y ↔ (vertexAt vs (prevIdx vs.length i)).y > t.y) →
    noOverflowAt t (vertexAt vs i) (vertexAt vs (prevIdx vs.length i))

instance (t : Location) (vs : List Location) : Decidable (noOverflowIn t vs) := by
  unfold noOverflowIn; infer_instance

/-- The number of indices `i` whose vertex `v_i` and predecessor `v_j` satisfy
the crossing condition over the mathematical integers with the two vertices
exchanged. -/
def crossingCountExchangedExact (t : Location) (vs : List Location) : Nat :=
  (List.range vs.length).countP
    (fun i => decide (crossesAtExact t (vertexAt vs (prevIdx vs.length i)) (vertexAt vs i)))

/-- An outer ring with valid locations on which the division of `is_in`
traps for the test point `(0, 0)`: the closed contiguous triangle
`(1073741824, 0) -> (-1073741824, 1) -> (0, 2) -> (1073741824, 0)`. -/
def trapTriangle : ProtoRing :=
  { m_segments :=
      [ mkSeg 1 1073741824 0 2 (-1073741824) 1, mkSeg 2 (-1073741824) 1 3 0 2,
        mkSeg 3 0 2 1 1073741824 0 ] }

/-- A ring whose first location is `(0, 0)`. -/
def probeOrigin : ProtoRing := { m_segments := [ mkSeg 7 0 0 8 1 0 ] }

end ProtoRing

namespace ProtoRing

/-! ## Auxiliary lemmas -/

theorem wrap64_isInt64 (n : Int) : isInt64 (wrap64 n) := by
  unfold isInt64 wrap64; omega

theorem wrap64_of_isInt64 (n : Int) (h : isInt64 n) : wrap64 n = n := by
  unfold isInt64 at h; unfold wrap64; omega

theorem wrap64_add_wrap64 (a b : Int) : wrap64 (wrap64 a + wrap64 b) = wrap64 (a + b) := by
  unfold wrap64; omega

theorem wrap64_neg_wrap64 (a : Int) : wrap64 (-wrap64 a) = wrap64 (-a) := by
  unfold wrap64; omega

theorem sum_term_eq (s : NodeRefSegment) :
    sum_term s = wrap64 (s.first.location.x * s.second.location.y
                          - s.second.location.x * s.first.location.y) := by
  unfold sum_term
  generalize s.first.location.x * s.second.location.y = p
  generalize s.second.location.x * s.first.location.y = q
  unfold wrap64; omega

theorem foldl_sum_eq (l : List NodeRefSegment) (a : Int) :
    l.foldl (fun acc segment => wrap64 (acc + sum_term segment)) (wrap64 a)
      = wrap64 (a + shoelace l) := by
  induction l generalizing a with
  | nil => simp [shoelace]
  | cons s rest ih =>
    have key : wrap64 (wrap64 a + sum_term s)
        = wrap64 (a + (s.first.location.x * s.second.location.y
                        - s.second.location.x * s.first.location.y)) := by
      rw [sum_term_eq, wrap64_add_wrap64]
    simp only [List.foldl_cons]
    rw [key, ih]
    simp [shoelace, add_assoc]

/-- The value of `sum` is the exact shoelace sum reduced to 64 bits. -/
theorem sum_eq_wrap64_shoelace (R : ProtoRing) : sum R = wrap64 (shoelace R.m_segments) := by
  have h := foldl_sum_eq R.m_segments 0
  have h0 : wrap64 0 = 0 := by decide
  rw [h0, zero_add] at h
  exact h

theorem sum_isInt64 (R : ProtoRing) : isInt64 (sum R) := by
  rw [sum_eq_wrap64_shoelace]; exact wrap64_isInt64 _

theorem location_eq_iff (a b : Location) : Location.eq a b = true ↔ a = b := by
  cases a; cases b; simp [Location.eq]

theorem location_eq_comm (a b : Location) : Location.eq a b = Location.eq b a := by
  rw [Bool.eq_iff_iff, location_eq_iff, location_eq_iff]; exact ⟨Eq.symm, Eq.symm⟩

theorem swap_locations_swap_locations (s : NodeRefSegment) :
    s.swap_locations.swap_locations = s := by
  cases s; rfl

theorem closed_of_ne_nil (R : ProtoRing) (h : R.m_segments ≠ []) :
    closed R = some (Location.eq (R.m_segments.head h).first.location
                                 (R.m_segments.getLast h).second.location) := by
  unfold closed
  rw [List.head?_eq_head h, List.getLast?_eq_getLast _ h]

theorem closed_nil (R : ProtoRing) (h : R.m_segments = []) : closed R = none := by
  unfold closed; rw [h]; rfl

theorem reverse_segments (R : ProtoRing) :
    (reverse R).m_segments = R.m_segments.reverse.map NodeRefSegment.swap_locations := by
  unfold reverse; simp [List.map_reverse]

theorem shoelace_reverse (l : List NodeRefSegment) : shoelace l.reverse = shoelace l := by
  unfold shoelace; rw [List.map_reverse, List.sum_reverse]

theorem shoelace_map_swap (l : List NodeRefSegment) :
    shoelace (l.map NodeRefSegment.swap_locations) = -shoelace l := by
  induction l with
  | nil => simp [shoelace]
  | cons s rest ih =>
    unfold shoelace at ih ⊢
    simp only [List.map_cons, List.sum_cons, ih, NodeRefSegment.swap_locations]
    ring

theorem sum_reverse_eq (R : ProtoRing) : sum (reverse R) = wrap64 (-sum R) := by
  rw [sum_eq_wrap64_shoelace, sum_eq_wrap64_shoelace R, reverse_segments,
    shoelace_map_swap, shoelace_reverse, wrap64_neg_wrap64]

theorem abs64_wrap64_neg (s : Int) (h : isInt64 s) : abs64 (wrap64 (-s)) = abs64 s := by
  unfold isInt64 at h
  unfold abs64 wrap64
  split_ifs <;> omega

theorem vector_resize_add {α : Type} (dflt : α) (v : List α) (k : Nat) :
    vector_resize dflt v (v.length + k) = v ++ List.replicate k dflt := by
  unfold vector_resize
  split_ifs with h
  · have hk : k = 0 := by omega
    subst hk; simp
  · simp

theorem std_copy_spec {α : Type} (src : List α) :
    ∀ (pre mid post : List α), mid.length = src.length →
      std_copy src (pre ++ mid ++ post) pre.length = pre ++ src ++ post := by
  induction src with
  | nil =>
    intro pre mid post h
    have hm : mid = [] := List.length_eq_zero.mp h
    subst hm; rfl
  | cons x xs ih =>
    intro pre mid post h
    cases mid with
    | nil => simp at h
    | cons m ms =>
      have hset : (pre ++ m :: ms ++ post).set pre.length x = (pre ++ [x]) ++ ms ++ post := by
        simp [List.set_append_right]
      have hlen : pre.length + 1 = (pre ++ [x]).length := by simp
      unfold std_copy
      rw [hset, hlen, ih (pre ++ [x]) ms post (by simpa using h)]
      simp

theorem std_transform_eq_std_copy {α : Type} (op : α → α) (src : List α) :
    ∀ (dst : List α) (pos : Nat),
      std_transform op src dst pos = std_copy (src.map op) dst pos := by
  induction src with
  | nil => intro dst pos; rfl
  | cons x xs ih => intro dst pos; simp [std_transform, std_copy, ih]

theorem std_copy_resize {α : Type} (dflt : α) (v src : List α) :
    std_copy src (vector_resize dflt v (v.length + src.length)) v.length = v ++ src := by
  rw [vector_resize_add]
  have h := std_copy_spec src v (List.replicate src.length dflt) [] (by simp)
  simpa using h

/-- The segments after `merge_ring`: the ring's own followed by the other's. -/
theorem merge_ring_segments (dflt : NodeRefSegment) (st : MergeState) (debug : Bool) :
    (merge_ring dflt st debug).self.m_segments = st.self.m_segments ++ st.other.m_segments := by
  unfold merge_ring
  exact std_copy_resize dflt _ _

/-- The segments after `merge_ring_reverse`: the ring's own followed by the
other's in reverse order, each swapped. -/
theorem merge_ring_reverse_segments (dflt : NodeRefSegment) (st : MergeState) (debug : Bool) :
    (merge_ring_reverse dflt st debug).self.m_segments
      = st.self.m_segments ++ st.other.m_segments.reverse.map NodeRefSegment.swap_locations := by
  unfold merge_ring_reverse
  simp only [std_transform_eq_std_copy]
  have h := std_copy_resize dflt st.self.m_segments
    (st.other.m_segments.reverse.map NodeRefSegment.swap_locations)
  simpa using h

theorem contiguous_iff_chain (l : List NodeRefSegment) :
    contiguous l = true ↔ List.Chain' adjacent l := by
  induction l with
  | nil => simp [contiguous]
  | cons a rest ih =>
    cases rest with
    | nil => simp [contiguous]
    | cons b rest2 =>
      rw [List.chain'_cons, ← ih]
      simp [contiguous, adjacent, location_eq_iff]

theorem contiguous_reverse_swap (l : List NodeRefSegment) (h : contiguous l = true) :
    contiguous (l.reverse.map NodeRefSegment.swap_locations) = true := by
  rw [contiguous_iff_chain] at h ⊢
  rw [List.chain'_map, List.chain'_reverse]
  refine List.Chain'.imp ?_ h
  intro a b hab
  simp only [flip, adjacent, NodeRefSegment.swap_locations] at hab ⊢
  exact hab.symm

theorem contiguous_append (l₁ l₂ : List NodeRefSegment) (h₁ : l₁ ≠ []) (h₂ : l₂ ≠ [])
    (c₁ : contiguous l₁ = true) (c₂ : contiguous l₂ = true)
    (hj : (l₁.getLast h₁).second.location = (l₂.head h₂).first.location) :
    contiguous (l₁ ++ l₂) = true := by
  rw [contiguous_iff_chain] at c₁ c₂ ⊢
  rw [List.chain'_append]
  refine ⟨c₁, c₂, ?_⟩
  intro x hx y hy
  rw [List.getLast?_eq_getLast _ h₁] at hx
  rw [List.head?_eq_head h₂] at hy
  simp only [Option.mem_def, Option.some.injEq] at hx hy
  subst hx; subst hy
  exact hj

theorem closed_append (R : ProtoRing) (l₁ l₂ : List NodeRefSegment) (h₁ : l₁ ≠ [])
    (h₂ : l₂ ≠ []) (hR : R.m_segments = l₁ ++ l₂) :
    closed R = some (decide ((l₂.getLast h₂).second.location = (l₁.head h₁).first.location)) := by
  obtain ⟨segs, o, i⟩ := R
  simp only at hR
  subst hR
  have hne : l₁ ++ l₂ ≠ [] := by simp [h₁]
  rw [closed_of_ne_nil _ hne]
  congr 1
  rw [Bool.eq_iff_iff, location_eq_iff, decide_eq_true_eq]
  simp only [List.head_append_of_ne_nil h₁, List.getLast_append_of_ne_nil h₂]
  exact eq_comm

theorem shoelace_eq_of_locations (segs : List NodeRefSegment) :
    shoelace segs
      = ((segs.map segLocations).map (fun p => p.1.x * p.2.y - p.2.x * p.1.y)).sum := by
  unfold shoelace
  rw [List.map_map]
  rfl

theorem shoelace_rectEdges (segs : List NodeRefSegment) (x0 y0 x1 y1 : Int)
    (h : segs.map segLocations = rectEdges x0 y0 x1 y1) :
    shoelace segs = 2 * ((x1 - x0) * (y1 - y0)) := by
  rw [shoelace_eq_of_locations, h]
  simp only [rectEdges, List.map_cons, List.map_nil, List.sum_cons, List.sum_nil]
  ring

theorem shoelace_rectEdgesOpposite (segs : List NodeRefSegment) (x0 y0 x1 y1 : Int)
    (h : segs.map segLocations = rectEdgesOpposite x0 y0 x1 y1) :
    shoelace segs = -(2 * ((x1 - x0) * (y1 - y0))) := by
  rw [shoelace_eq_of_locations, h]
  simp only [rectEdgesOpposite, List.map_cons, List.map_nil, List.sum_cons, List.sum_nil]
  ring

theorem area_is_cw_of_sum_pos (R : ProtoRing) (A : Int) (h0 : 0 < A)
    (h1 : A < 4611686018427387904) (hs : shoelace R.m_segments = 2 * A) :
    area R = A ∧ is_cw R = false := by
  have hsum : sum R = 2 * A := by
    rw [sum_eq_wrap64_shoelace, hs]; apply wrap64_of_isInt64; unfold isInt64; omega
  unfold area is_cw abs64
  rw [hsum]
  constructor
  · rw [if_neg (by omega), wrap64_of_isInt64 _ (by unfold isInt64; omega)]
    rw [Int.tdiv_eq_ediv (by omega) (by omega)]
    omega
  · simp; omega

theorem area_is_cw_of_sum_neg (R : ProtoRing) (A : Int) (h0 : 0 < A)
    (h1 : A < 4611686018427387904) (hs : shoelace R.m_segments = -(2 * A)) :
    area R = A ∧ is_cw R = true := by
  have hsum : sum R = -(2 * A) := by
    rw [sum_eq_wrap64_shoelace, hs]; apply wrap64_of_isInt64; unfold isInt64; omega
  unfold area is_cw abs64
  rw [hsum]
  constructor
  · rw [if_pos (by omega), wrap64_of_isInt64 _ (by unfold isInt64; omega)]
    rw [Int.tdiv_eq_ediv (by omega) (by omega)]
    omega
  · simp; omega

theorem location_le_refl (a : Location) : Location.le a a := by
  unfold Location.le; omega

theorem location_le_trans {a b c : Location} (h₁ : Location.le a b) (h₂ : Location.le b c) :
    Location.le a c := by
  unfold Location.le at *; omega

theorem location_le_antisymm {a b : Location} (h₁ : Location.le a b) (h₂ : Location.le b a) :
    a = b := by
  cases a; cases b
  unfold Location.le at *
  simp only [Location.mk.injEq] at *
  omega

theorem location_lt_iff (a b : Location) :
    Location.lt a b = true ↔ a.x < b.x ∨ (a.x = b.x ∧ a.y < b.y) := by
  unfold Location.lt
  simp only [Bool.or_eq_true, Bool.and_eq_true, beq_iff_eq, decide_eq_true_eq]
  omega

theorem location_le_of_not_lt {a b : Location} (h : ¬ Location.lt b a = true) :
    Location.le a b := by
  rw [location_lt_iff] at h
  unfold Location.le; omega

theorem location_le_of_lt {a b : Location} (h : Location.lt a b = true) : Location.le a b := by
  rw [location_lt_iff] at h
  unfold Location.le; omega

theorem less_comparesFirstLocation : comparesFirstLocation NodeRefSegment.less := by
  intro a b
  unfold NodeRefSegment.less
  constructor
  · intro h; simp [h]
  · intro h
    simp only [Bool.or_eq_true, Bool.and_eq_true, location_eq_iff] at h
    rcases h with ⟨h1, _⟩ | h
    · rw [h1]; exact location_le_refl _
    · exact location_le_of_lt h

theorem mem_endpointLocations (segs : List NodeRefSegment) (p : Location) :
    p ∈ endpointLocations segs ↔
      ∃ s ∈ segs, p = s.first.location ∨ p = s.second.location := by
  induction segs with
  | nil => simp [endpointLocations]
  | cons a rest ih =>
    simp only [endpointLocations, List.mem_cons, ih]
    constructor
    · rintro (h | h | ⟨s, hs, h⟩)
      · exact ⟨a, Or.inl rfl, Or.inl h⟩
      · exact ⟨a, Or.inl rfl, Or.inr h⟩
      · exact ⟨s, Or.inr hs, h⟩
    · rintro ⟨s, hs | hs, h⟩
      · subst hs; rcases h with h | h
        · exact Or.inl h
        · exact Or.inr (Or.inl h)
      · exact Or.inr (Or.inr ⟨s, hs, h⟩)

theorem foldl_min_spec (lt : NodeRefSegment → NodeRefSegment → Bool)
    (hlt : comparesFirstLocation lt) (xs : List NodeRefSegment) :
    ∀ x : NodeRefSegment,
      xs.foldl (fun smallest e => if lt e smallest then e else smallest) x ∈ x :: xs ∧
      ∀ e ∈ x :: xs,
        Location.le
          (xs.foldl (fun smallest e => if lt e smallest then e else smallest) x).first.location
          e.first.location := by
  induction xs with
  | nil =>
    intro x
    simp only [List.foldl_nil, List.mem_singleton, forall_eq, true_and]
    exact location_le_refl _
  | cons y ys ih =>
    intro x
    simp only [List.foldl_cons]
    obtain ⟨hmem, hle⟩ := ih (if lt y x then y else x)
    have hstep : Location.le (if lt y x then y else x).first.location x.first.location ∧
        Location.le (if lt y x then y else x).first.location y.first.location := by
      by_cases hyx : lt y x = true
      · rw [if_pos hyx]
        exact ⟨(hlt y x).2 hyx, location_le_refl _⟩
      · rw [if_neg hyx]
        refine ⟨location_le_refl _, location_le_of_not_lt ?_⟩
        intro hl; exact hyx ((hlt y x).1 hl)
    constructor
    · rcases List.mem_cons.mp hmem with h | h
      · rw [h]
        by_cases hyx : lt y x = true
        · rw [if_pos hyx]; simp
        · rw [if_neg hyx]; simp
      · exact List.mem_cons_of_mem _ (List.mem_cons_of_mem _ h)
    · intro e he
      rcases List.mem_cons.mp he with h | h
      · subst h
        exact location_le_trans (hle _ (List.mem_cons_self _ _)) hstep.1
      · rcases List.mem_cons.mp h with h | h
        · subst h
          exact location_le_trans (hle _ (List.mem_cons_self _ _)) hstep.2
        · exact hle e (List.mem_cons_of_mem _ h)

theorem std_min_element_spec (lt : NodeRefSegment → NodeRefSegment → Bool)
    (hlt : comparesFirstLocation lt) (segs : List NodeRefSegment) (hne : segs ≠ []) :
    ∃ m, std_min_element lt segs = some m ∧ m ∈ segs ∧
      ∀ e ∈ segs, Location.le m.first.location e.first.location := by
  cases segs with
  | nil => exact absurd rfl hne
  | cons x xs =>
    exact ⟨_, rfl, (foldl_min_spec lt hlt xs x).1, (foldl_min_spec lt hlt xs x).2⟩

/-- The location of `min_node` is the smallest endpoint location of every
non-empty ring in which each second location is the first location of some
segment. -/
theorem min_node_least (lt : NodeRefSegment → NodeRefSegment → Bool)
    (hlt : comparesFirstLocation lt) (R : ProtoRing) (hne : R.m_segments ≠ [])
    (hP : ∀ s ∈ R.m_segments, ∃ t ∈ R.m_segments, t.first.location = s.second.location) :
    ∃ nd, min_node lt R = some nd ∧
      isLeastLocation nd.location (endpointLocations R.m_segments) := by
  obtain ⟨m, hm, hmem, hle⟩ := std_min_element_spec lt hlt R.m_segments hne
  have hall : ∀ q ∈ endpointLocations R.m_segments, Location.le m.first.location q := by
    intro q hq
    rw [mem_endpointLocations] at hq
    obtain ⟨s, hs, h | h⟩ := hq
    · rw [h]; exact hle s hs
    · obtain ⟨t, ht, hts⟩ := hP s hs
      rw [h, ← hts]; exact hle t ht
  unfold min_node
  rw [hm]
  by_cases hl : location_less m.first m.second = true
  · refine ⟨m.first, by simp [hl], ?_, hall⟩
    rw [mem_endpointLocations]; exact ⟨m, hmem, Or.inl rfl⟩
  · refine ⟨m.second, by simp [hl], ?_, ?_⟩
    · rw [mem_endpointLocations]; exact ⟨m, hmem, Or.inr rfl⟩
    · intro q hq
      have h2 : Location.le m.second.location m.first.location :=
        location_le_of_not_lt hl
      exact location_le_trans h2 (hall q hq)

theorem isLeastLocation_unique {p q : Location} {ls ls' : List Location}
    (hp : isLeastLocation p ls) (hq : isLeastLocation q ls')
    (hmem : ∀ x, x ∈ ls ↔ x ∈ ls') : p = q :=
  location_le_antisymm (hp.2 q ((hmem q).mpr hq.1)) (hq.2 p ((hmem p).mp hp.1))

theorem contiguous_second_mem (l : List NodeRefSegment) (hc : contiguous l = true)
    (hne : l ≠ []) :
    ∀ s ∈ l, s.second.location = (l.getLast hne).second.location ∨
      ∃ t ∈ l, t.first.location = s.second.location := by
  induction l with
  | nil => exact absurd rfl hne
  | cons a rest ih =>
    cases rest with
    | nil =>
      intro s hs
      simp only [List.mem_singleton] at hs
      subst hs; left; rfl
    | cons b rest2 =>
      simp only [contiguous, Bool.and_eq_true, location_eq_iff] at hc
      intro s hs
      rcases List.mem_cons.mp hs with h | h
      · subst h
        right
        exact ⟨b, by simp, hc.1.symm⟩
      · rcases ih hc.2 (by simp) s h with h' | ⟨t, ht, h'⟩
        · left
          rw [h']; rfl
        · right
          exact ⟨t, List.mem_cons_of_mem _ ht, h'⟩

theorem contiguous_first_mem (l : List NodeRefSegment) (hc : contiguous l = true)
    (hne : l ≠ []) :
    ∀ s ∈ l, s.first.location = (l.head hne).first.location ∨
      ∃ t ∈ l, t.second.location = s.first.location := by
  induction l with
  | nil => exact absurd rfl hne
  | cons a rest ih =>
    cases rest with
    | nil =>
      intro s hs
      simp only [List.mem_singleton] at hs
      subst hs; left; rfl
    | cons b rest2 =>
      simp only [contiguous, Bool.and_eq_true, location_eq_iff] at hc
      intro s hs
      rcases List.mem_cons.mp hs with h | h
      · subst h; left; rfl
      · right
        rcases ih hc.2 (by simp) s h with h' | ⟨t, ht, h'⟩
        · refine ⟨a, by simp, ?_⟩
          rw [h']; exact hc.1
        · exact ⟨t, List.mem_cons_of_mem _ ht, h'⟩

theorem closed_true_ne_nil (R : ProtoRing) (h : closed R = some true) : R.m_segments ≠ [] := by
  intro hnil
  rw [closed_nil R hnil] at h
  exact absurd h (by simp)

theorem closed_true_ends (R : ProtoRing) (h : closed R = some true) :
    (R.m_segments.head (closed_true_ne_nil R h)).first.location
      = (R.m_segments.getLast (closed_true_ne_nil R h)).second.location := by
  have h2 := closed_of_ne_nil R (closed_true_ne_nil R h)
  rw [h2] at h
  simp only [Option.some.injEq] at h
  exact (location_eq_iff _ _).mp h

/-- In a closed contiguous ring every second location is a first location. -/
theorem closed_contiguous_second_is_first (R : ProtoRing) (hc : closed R = some true)
    (hcont : contiguous R.m_segments = true) :
    ∀ s ∈ R.m_segments, ∃ t ∈ R.m_segments, t.first.location = s.second.location := by
  intro s hs
  rcases contiguous_second_mem _ hcont (closed_true_ne_nil R hc) s hs with h | h
  · exact ⟨_, List.head_mem (closed_true_ne_nil R hc), by rw [h]; exact closed_true_ends R hc⟩
  · exact h

/-- In a closed contiguous ring every first location is a second location. -/
theorem closed_contiguous_first_is_second (R : ProtoRing) (hc : closed R = some true)
    (hcont : contiguous R.m_segments = true) :
    ∀ s ∈ R.m_segments, ∃ t ∈ R.m_segments, t.second.location = s.first.location := by
  intro s hs
  rcases contiguous_first_mem _ hcont (closed_true_ne_nil R hc) s hs with h | h
  · exact ⟨_, List.getLast_mem (closed_true_ne_nil R hc),
      by rw [h]; exact (closed_true_ends R hc).symm⟩
  · exact h

theorem mem_reverse_segments (R : ProtoRing) (s : NodeRefSegment) :
    s ∈ (reverse R).m_segments ↔ ∃ t ∈ R.m_segments, s = t.swap_locations := by
  rw [reverse_segments]
  simp only [List.mem_map, List.mem_reverse]
  constructor
  · rintro ⟨t, ht, h⟩; exact ⟨t, ht, h.symm⟩
  · rintro ⟨t, ht, h⟩; exact ⟨t, ht, h.symm⟩

theorem mem_endpointLocations_reverse (R : ProtoRing) (p : Location) :
    p ∈ endpointLocations (reverse R).m_segments ↔ p ∈ endpointLocations R.m_segments := by
  simp only [mem_endpointLocations, mem_reverse_segments]
  constructor
  · rintro ⟨s, ⟨t, ht, rfl⟩, h⟩
    exact ⟨t, ht, by simpa [NodeRefSegment.swap_locations, or_comm] using h⟩
  · rintro ⟨t, ht, h⟩
    exact ⟨t.swap_locations, ⟨t, ht, rfl⟩,
      by simpa [NodeRefSegment.swap_locations, or_comm] using h⟩

theorem mem_endpointLocations_rotated (R : ProtoRing) (k : Nat) (p : Location) :
    p ∈ endpointLocations (rotated R k).m_segments ↔ p ∈ endpointLocations R.m_segments := by
  simp only [mem_endpointLocations, rotated, List.mem_rotate]

theorem decide_succ_mod_two (c : Nat) :
    decide ((c + 1) % 2 = 1) = !decide (c % 2 = 1) := by
  rcases Nat.mod_two_eq_zero_or_one c with h | h <;> simp [h, Nat.add_mod]

theorem wrap32_zero : wrap32 0 = 0 := by decide

theorem wrap32_of_isInt32 (n : Int) (h : isInt32 n) : wrap32 n = n := by
  unfold isInt32 at h; unfold wrap32; omega

theorem is_in_cond_eq (t vi vj : Location) (hi : isInt32 vi.y) (hj : isInt32 vj.y)
    (hq : ¬ quotient_traps t vi vj) :
    is_in_cond t vi vj = some (decide (crossesAt t vi vj)) := by
  unfold isInt32 at hi hj
  unfold is_in_cond crossesAt
  by_cases hs : (vi.y > t.y ↔ vj.y > t.y)
  · have hb : (decide (vi.y > t.y) != decide (vj.y > t.y)) = false := by
      simp only [bne_eq_false_iff_eq, decide_eq_decide]; exact hs
    simp [hb, hs]
  · have hb : (decide (vi.y > t.y) != decide (vj.y > t.y)) = true := by
      simp only [bne_iff_ne, ne_eq, decide_eq_decide]; exact hs
    have hd : wrap32 (vj.y - vi.y) ≠ 0 := by
      unfold wrap32; omega
    have hq2 : ¬ (wrap32 (wrap32 (vj.x - vi.x) * wrap32 (t.y - vi.y)) = -2147483648 ∧
        wrap32 (vj.y - vi.y) = -1) := fun h => hq ⟨hs, h⟩
    rw [if_pos hb, if_neg hd, if_neg hq2]
    simp [hs]

/-- The condition of `is_in` has no result exactly when the quotient traps,
the coordinates being `int32_t` values: never because of a zero divisor. -/
theorem is_in_cond_eq_none_iff (t vi vj : Location) (hi : isInt32 vi.y) (hj : isInt32 vj.y) :
    is_in_cond t vi vj = none ↔ quotient_traps t vi vj := by
  constructor
  · intro h
    by_contra hq
    rw [is_in_cond_eq t vi vj hi hj hq] at h
    exact Option.noConfusion h
  · rintro ⟨hs, hq⟩
    have hb : (decide (vi.y > t.y) != decide (vj.y > t.y)) = true := by
      simp only [bne_iff_ne, ne_eq, decide_eq_decide]; exact hs
    have hd : wrap32 (vj.y - vi.y) ≠ 0 := by rw [hq.2]; decide
    unfold is_in_cond
    rw [if_pos hb, if_neg hd, if_pos hq]

/-- Without overflow the condition of `is_in` has a result, the condition over
the mathematical integers. -/
theorem is_in_cond_eq_exact (t vi vj : Location)
    (h : ¬ (vi.y > t.y ↔ vj.y > t.y) → noOverflowAt t vi vj) :
    is_in_cond t vi vj = some (decide (crossesAtExact t vi vj)) := by
  unfold is_in_cond crossesAtExact
  by_cases hs : (vi.y > t.y ↔ vj.y > t.y)
  · have hb : (decide (vi.y > t.y) != decide (vj.y > t.y)) = false := by
      simp only [bne_eq_false_iff_eq, decide_eq_decide]; exact hs
    simp [hb, hs]
  · have hb : (decide (vi.y > t.y) != decide (vj.y > t.y)) = true := by
      simp only [bne_iff_ne, ne_eq, decide_eq_decide]; exact hs
    obtain ⟨h1, h2, h3, h4, h5, h6⟩ := h hs
    have hne : vj.y - vi.y ≠ 0 := by
      intro h0
      apply hs
      have : vj.y = vi.y := by omega
      rw [this]
    rw [wrap32_of_isInt32 _ h1, wrap32_of_isInt32 _ h2, wrap32_of_isInt32 _ h3,
      wrap32_of_isInt32 _ h4]
    have hq2 : ¬ ((vj.x - vi.x) * (t.y - vi.y) = -2147483648 ∧ vj.y - vi.y = -1) := by
      rintro ⟨ha, hb2⟩
      rw [ha, hb2] at h5
      revert h5
      decide
    rw [if_pos hb, if_neg hne, if_neg hq2, wrap32_of_isInt32 _ h5, wrap32_of_isInt32 _ h6]
    simp [hs]

theorem vertexAt_map (segs : List NodeRefSegment) (i : Nat) (si : NodeRefSegment)
    (h : segs[i]? = some si) :
    vertexAt (segs.map (fun s => s.first.location)) i = si.first.location := by
  unfold vertexAt
  simp [List.getD_eq_getElem?_getD, List.getElem?_map, h]

theorem vertexAt_mem (vs : List Location) (i : Nat) (h : i < vs.length) :
    vertexAt vs i ∈ vs := by
  unfold vertexAt
  rw [List.getD_eq_getElem?_getD, List.getElem?_eq_getElem h]
  exact List.getElem_mem h

theorem prevIdx_lt (n i : Nat) (h : i < n) : prevIdx n i < n := by
  unfold prevIdx; split_ifs <;> omega

/-- The loop of `is_in` counts, modulo 2, the indices whose condition is
true, whenever the condition has a result `c v_i v_j` at every index. -/
theorem is_in_loop_range (t : Location) (segs : List NodeRefSegment)
    (c : Location → Location → Bool)
    (hc : ∀ i, i < segs.length →
      is_in_cond t (vertexAt (segs.map (fun s => s.first.location)) i)
          (vertexAt (segs.map (fun s => s.first.location)) (prevIdx segs.length i))
        = some (c (vertexAt (segs.map (fun s => s.first.location)) i)
            (vertexAt (segs.map (fun s => s.first.location)) (prevIdx segs.length i)))) :
    ∀ (k s : Nat) (acc : Bool), s + k ≤ segs.length →
      is_in_loop t segs (List.range' s k) (prevIdx segs.length s) acc
        = some (xor acc (decide ((List.range' s k).countP
            (fun i => c
              (vertexAt (segs.map (fun s => s.first.location)) i)
              (vertexAt (segs.map (fun s => s.first.location)) (prevIdx segs.length i)))
            % 2 = 1))) := by
  intro k
  induction k with
  | zero => intro s acc _; simp [is_in_loop]
  | succ k ih =>
    intro s acc hs
    have hlt : s < segs.length := by omega
    have hj : prevIdx segs.length s < segs.length := prevIdx_lt _ _ hlt
    have hsi : segs[s]? = some (segs.get ⟨s, hlt⟩) := List.getElem?_eq_getElem hlt
    have hsj : segs[prevIdx segs.length s]? = some (segs.get ⟨prevIdx segs.length s, hj⟩) :=
      List.getElem?_eq_getElem hj
    have hnext : prevIdx segs.length (s + 1) = s := by
      unfold prevIdx; simp
    have hcs := hc s hlt
    rw [vertexAt_map segs s _ hsi, vertexAt_map segs (prevIdx segs.length s) _ hsj] at hcs
    rw [List.range'_succ]
    unfold is_in_loop
    rw [hsi, hsj]
    simp only [hcs]
    have ih' := ih (s + 1)
      (if c (segs.get ⟨s, hlt⟩).first.location
          (segs.get ⟨prevIdx segs.length s, hj⟩).first.location = true then !acc else acc)
      (by omega)
    rw [hnext] at ih'
    rw [ih', List.countP_cons, vertexAt_map segs s _ hsi,
      vertexAt_map segs (prevIdx segs.length s) _ hsj]
    congr 1
    by_cases hcr : c (segs.get ⟨s, hlt⟩).first.location
        (segs.get ⟨prevIdx segs.length s, hj⟩).first.location = true
    · simp only [hcr, if_true]
      rw [decide_succ_mod_two]
      cases acc <;> simp
    · simp only [hcr, Bool.false_eq_true, if_false, add_zero]

/-- For a non-empty ring, `is_in` is the parity of the number of indices whose
condition is true, whenever the condition has a result at every index. -/
theorem is_in_eq_count (R O : ProtoRing) (f : NodeRefSegment)
    (hR : R.m_segments.head? = some f) (c : Location → Location → Bool)
    (hc : ∀ i, i < (startVertices O).length →
      is_in_cond f.first.location (vertexAt (startVertices O) i)
          (vertexAt (startVertices O) (prevIdx (startVertices O).length i))
        = some (c (vertexAt (startVertices O) i)
            (vertexAt (startVertices O) (prevIdx (startVertices O).length i)))) :
    is_in R O = some (decide ((List.range (startVertices O).length).countP
      (fun i => c (vertexAt (startVertices O) i)
        (vertexAt (startVertices O) (prevIdx (startVertices O).length i))) % 2 = 1)) := by
  have hlen : (startVertices O).length = O.m_segments.length := by simp [startVertices]
  unfold is_in
  rw [hR]
  rw [hlen] at hc ⊢
  have h := is_in_loop_range f.first.location O.m_segments c hc O.m_segments.length 0 false
    (by omega)
  have hp : prevIdx O.m_segments.length 0 = O.m_segments.length - 1 := by simp [prevIdx]
  rw [hp, ← List.range_eq_range'] at h
  simp only [h, Bool.false_xor, startVertices]

/-- For a non-empty ring and an outer ring with `int32_t` coordinates on which
no quotient traps, `is_in` is the crossing-number test of the outer ring's
start vertices in the 32-bit arithmetic of the code, applied to the location
of the first endpoint of the ring's front segment. -/
theorem is_in_eq_crossing_number_test (R O : ProtoRing) (f : NodeRefSegment)
    (hR : R.m_segments.head? = some f)
    (hO : ∀ s ∈ O.m_segments, isInt32 s.first.location.y)
    (hq : ∀ i, i < (startVertices O).length →
      ¬ quotient_traps f.first.location (vertexAt (startVertices O) i)
          (vertexAt (startVertices O) (prevIdx (startVertices O).length i))) :
    is_in R O = some (crossing_number_test f.first.location (startVertices O)) := by
  have hy : ∀ v ∈ startVertices O, isInt32 v.y := by
    intro v hv
    unfold startVertices at hv
    obtain ⟨s, hs, rfl⟩ := List.mem_map.mp hv
    exact hO s hs
  exact is_in_eq_count R O f hR (fun vi vj => decide (crossesAt f.first.location vi vj))
    (fun i hi => is_in_cond_eq _ _ _ (hy _ (vertexAt_mem _ i hi))
      (hy _ (vertexAt_mem _ _ (prevIdx_lt _ i hi))) (hq i hi))

/-- For a non-empty ring and an outer ring on which no intermediate value
overflows, `is_in` is the crossing-number test over the mathematical integers
of the outer ring's start vertices, applied to the location of the first
endpoint of the ring's front segment. -/
theorem is_in_eq_crossing_number_test_exact (R O : ProtoRing) (f : NodeRefSegment)
    (hR : R.m_segments.head? = some f)
    (hnov : noOverflowIn f.first.location (startVertices O)) :
    is_in R O = some (crossing_number_test_exact f.first.location (startVertices O)) :=
  is_in_eq_count R O f hR (fun vi vj => decide (crossesAtExact f.first.location vi vj))
    (fun i hi => is_in_cond_eq_exact _ _ _ (hnov i hi))

theorem startVertices_int32 (O : ProtoRing)
    (h : ∀ v ∈ startVertices O, isInt32 v.y) :
    ∀ s ∈ O.m_segments, isInt32 s.first.location.y := by
  intro s hs
  apply h
  unfold startVertices
  exact List.mem_map.mpr ⟨s, hs, rfl⟩

theorem is_in_of_startVertices (R O : ProtoRing) (f : NodeRefSegment) (vs : List Location)
    (hR : R.m_segments.head? = some f) (hvs : startVertices O = vs)
    (h32 : ∀ v ∈ vs, isInt32 v.y)
    (hq : ∀ i, i < vs.length →
      ¬ quotient_traps f.first.location (vertexAt vs i) (vertexAt vs (prevIdx vs.length i))) :
    is_in R O = some (crossing_number_test f.first.location vs) := by
  subst hvs
  exact is_in_eq_crossing_number_test R O f hR (startVertices_int32 O h32) hq

theorem crossesAt_vertical (t : Location) (x ya yb : Int) (h : isInt32 x) :
    crossesAt t ⟨x, ya⟩ ⟨x, yb⟩ ↔
      (((t.y < ya ∧ yb ≤ t.y) ∨ (ya ≤ t.y ∧ t.y < yb)) ∧ t.x < x) := by
  unfold crossesAt
  simp only [sub_self, wrap32_zero, zero_mul, Int.zero_tdiv, zero_add, wrap32_of_isInt32 x h]
  constructor
  · rintro ⟨h1, h2⟩
    refine ⟨?_, h2⟩
    by_cases ha : ya > t.y
    · left; refine ⟨ha, ?_⟩
      by_contra hb
      exact h1 ⟨fun _ => by omega, fun _ => ha⟩
    · right; refine ⟨by omega, ?_⟩
      by_contra hb
      exact h1 ⟨fun h => absurd h ha, fun h => absurd h (by omega)⟩
  · rintro ⟨h1, h2⟩
    refine ⟨?_, h2⟩
    intro hiff
    rcases h1 with ⟨ha, hb⟩ | ⟨ha, hb⟩
    · have := hiff.mp ha; omega
    · have := hiff.mpr hb; omega

theorem crossesAt_horizontal (t : Location) (xa xb y : Int) :
    crossesAt t ⟨xa, y⟩ ⟨xb, y⟩ ↔ False := by
  unfold crossesAt
  simp

theorem crossingCount_four (t a b c d : Location) :
    crossingCount t [a, b, c, d]
      = (if crossesAt t a d then 1 else 0) + (if crossesAt t b a then 1 else 0)
        + (if crossesAt t c b then 1 else 0) + (if crossesAt t d c then 1 else 0) := by
  have hr : List.range 4 = [0, 1, 2, 3] := rfl
  unfold crossingCount
  simp only [List.length_cons, List.length_nil, Nat.reduceAdd, hr, List.countP_cons,
    List.countP_nil, vertexAt, prevIdx, List.getD_cons_zero, List.getD_cons_succ,
    decide_eq_true_eq]
  simp
  omega

theorem rect_rotations (x0 y0 x1 y1 : Int) (k : Nat) (vs : List Location)
    (h : vs = (rectCorners x0 y0 x1 y1).rotate k ∨
         vs = (rectCorners x0 y0 x1 y1).reverse.rotate k) :
    vs = [⟨x0, y0⟩, ⟨x1, y0⟩, ⟨x1, y1⟩, ⟨x0, y1⟩] ∨
    vs = [⟨x1, y0⟩, ⟨x1, y1⟩, ⟨x0, y1⟩, ⟨x0, y0⟩] ∨
    vs = [⟨x1, y1⟩, ⟨x0, y1⟩, ⟨x0, y0⟩, ⟨x1, y0⟩] ∨
    vs = [⟨x0, y1⟩, ⟨x0, y0⟩, ⟨x1, y0⟩, ⟨x1, y1⟩] ∨
    vs = [⟨x0, y1⟩, ⟨x1, y1⟩, ⟨x1, y0⟩, ⟨x0, y0⟩] ∨
    vs = [⟨x1, y1⟩, ⟨x1, y0⟩, ⟨x0, y0⟩, ⟨x0, y1⟩] ∨
    vs = [⟨x1, y0⟩, ⟨x0, y0⟩, ⟨x0, y1⟩, ⟨x1, y1⟩] ∨
    vs = [⟨x0, y0⟩, ⟨x0, y1⟩, ⟨x1, y1⟩, ⟨x1, y0⟩] := by
  have hk : k % 4 < 4 := Nat.mod_lt _ (by decide)
  have h1 : (rectCorners x0 y0 x1 y1).rotate k = (rectCorners x0 y0 x1 y1).rotate (k % 4) :=
    (List.rotate_mod _ _).symm
  have h2 : (rectCorners x0 y0 x1 y1).reverse.rotate k
      = (rectCorners x0 y0 x1 y1).reverse.rotate (k % 4) :=
    (List.rotate_mod _ _).symm
  rw [h1, h2] at h
  generalize k % 4 = r at h hk
  interval_cases r <;> rcases h with h | h <;> subst h <;> simp [rectCorners, List.rotate]

theorem crossing_rect (t : Location) (x0 y0 x1 y1 : Int) (vs : List Location)
    (hx : x0 < x1) (hy : y0 < y1) (hx0 : isInt32 x0) (hx1 : isInt32 x1)
    (h : vs = [⟨x0, y0⟩, ⟨x1, y0⟩, ⟨x1, y1⟩, ⟨x0, y1⟩] ∨
    vs = [⟨x1, y0⟩, ⟨x1, y1⟩, ⟨x0, y1⟩, ⟨x0, y0⟩] ∨
    vs = [⟨x1, y1⟩, ⟨x0, y1⟩, ⟨x0, y0⟩, ⟨x1, y0⟩] ∨
    vs = [⟨x0, y1⟩, ⟨x0, y0⟩, ⟨x1, y0⟩, ⟨x1, y1⟩] ∨
    vs = [⟨x0, y1⟩, ⟨x1, y1⟩, ⟨x1, y0⟩, ⟨x0, y0⟩] ∨
    vs = [⟨x1, y1⟩, ⟨x1, y0⟩, ⟨x0, y0⟩, ⟨x0, y1⟩] ∨
    vs = [⟨x1, y0⟩, ⟨x0, y0⟩, ⟨x0, y1⟩, ⟨x1, y1⟩] ∨
    vs = [⟨x0, y0⟩, ⟨x0, y1⟩, ⟨x1, y1⟩, ⟨x1, y0⟩]) :
    ((x0 < t.x ∧ t.x < x1 ∧ y0 < t.y ∧ t.y < y1) → crossing_number_test t vs = true) ∧
    ((t.x < x0 ∨ t.x > x1 ∨ t.y < y0 ∨ t.y > y1) → crossing_number_test t vs = false) := by
  unfold crossing_number_test
  rcases h with h | h | h | h | h | h | h | h <;> subst h <;>
    simp only [crossingCount_four, crossesAt_vertical _ _ _ _ hx0,
      crossesAt_vertical _ _ _ _ hx1, crossesAt_horizontal, if_false,
      decide_eq_true_eq, decide_eq_false_iff_not] <;>
    constructor <;> intro ht <;> split_ifs <;> first | omega | exact not_false

theorem contiguous_get (l : List NodeRefSegment) (hc : contiguous l = true) :
    ∀ (m : Nat) (h : m + 1 < l.length),
      (l.get ⟨m, by omega⟩).second.location = (l.get ⟨m + 1, h⟩).first.location := by
  induction l with
  | nil => intro m h; simp at h
  | cons a rest ih =>
    cases rest with
    | nil => intro m h; simp at h
    | cons b rest2 =>
      simp only [contiguous, Bool.and_eq_true, location_eq_iff] at hc
      intro m h
      cases m with
      | zero => exact hc.1
      | succ m =>
        have := ih hc.2 m (by simpa using h)
        simpa using this

theorem startVertices_reverse (O : ProtoRing) :
    startVertices (reverse O) = (O.m_segments.map (fun s => s.second.location)).reverse := by
  unfold startVertices
  rw [reverse_segments, List.map_map, List.map_reverse]
  rfl

theorem vertexAt_reverse (O : ProtoRing) (hc : closed O = some true)
    (hcont : contiguous O.m_segments = true) (i : Nat) (hi : i < O.m_segments.length) :
    vertexAt (startVertices (reverse O)) i
      = vertexAt (startVertices O) (revIdx O.m_segments.length i) := by
  have hne := closed_true_ne_nil O hc
  rw [startVertices_reverse]
  unfold vertexAt startVertices revIdx
  have hlen : (O.m_segments.map (fun s => s.second.location)).length = O.m_segments.length := by
    simp
  rw [List.getD_eq_getElem?_getD, List.getD_eq_getElem?_getD,
    List.getElem?_reverse (by rw [hlen]; exact hi), hlen]
  by_cases h0 : i = 0
  · subst h0
    have hpos : 0 < O.m_segments.length := hi
    have h1 : O.m_segments.length - 1 - 0 < O.m_segments.length := by omega
    simp only [if_true, List.getElem?_map, List.getElem?_eq_getElem h1,
      List.getElem?_eq_getElem hpos, Option.map_some', Option.getD_some]
    have := closed_true_ends O hc
    rw [List.getLast_eq_getElem, ← List.getElem_zero] at this
    simpa using this.symm
  · have h1 : O.m_segments.length - 1 - i < O.m_segments.length := by omega
    have h2 : O.m_segments.length - i < O.m_segments.length := by omega
    simp only [if_neg h0, List.getElem?_map, List.getElem?_eq_getElem h1,
      List.getElem?_eq_getElem h2, Option.map_some', Option.getD_some]
    have := contiguous_get O.m_segments hcont (O.m_segments.length - 1 - i) (by omega)
    have e : O.m_segments.length - 1 - i + 1 = O.m_segments.length - i := by omega
    simp only [List.get_eq_getElem, e] at this
    exact this

theorem revIdx_prevIdx_lt (n i : Nat) (hi : i < n) : revIdx n (prevIdx n i) < n := by
  unfold revIdx prevIdx; split_ifs <;> omega

theorem revIdx_prevIdx_involutive (n i : Nat) (hi : i < n) :
    revIdx n (prevIdx n (revIdx n (prevIdx n i))) = i := by
  unfold revIdx prevIdx; split_ifs <;> omega

theorem prevIdx_revIdx_prevIdx (n i : Nat) (hi : i < n) :
    prevIdx n (revIdx n (prevIdx n i)) = revIdx n i := by
  unfold revIdx prevIdx; split_ifs <;> omega

theorem map_revIdx_prevIdx_perm (n : Nat) :
    List.Perm ((List.range n).map (fun i => revIdx n (prevIdx n i))) (List.range n) := by
  have hnd : ((List.range n).map (fun i => revIdx n (prevIdx n i))).Nodup := by
    refine List.Nodup.map_on ?_ (List.nodup_range n)
    intro x hx y hy hxy
    rw [List.mem_range] at hx hy
    have hx2 := revIdx_prevIdx_involutive n x hx
    have hy2 := revIdx_prevIdx_involutive n y hy
    simp only at hxy
    rw [← hx2, ← hy2, hxy]
  rw [List.perm_ext_iff_of_nodup hnd (List.nodup_range n)]
  intro a
  simp only [List.mem_map, List.mem_range]
  constructor
  · rintro ⟨i, hi, rfl⟩; exact revIdx_prevIdx_lt n i hi
  · intro ha
    exact ⟨revIdx n (prevIdx n a), revIdx_prevIdx_lt n a ha, revIdx_prevIdx_involutive n a ha⟩

theorem crossingCount_reverse (t : Location) (O : ProtoRing) (hc : closed O = some true)
    (hcont : contiguous O.m_segments = true) :
    crossingCount t (startVertices (reverse O)) = crossingCountExchanged t (startVertices O) := by
  have hlen : (startVertices O).length = O.m_segments.length := by simp [startVertices]
  have hlen' : (startVertices (reverse O)).length = O.m_segments.length := by
    rw [startVertices_reverse]; simp
  unfold crossingCount crossingCountExchanged
  rw [hlen, hlen']
  have hperm := (map_revIdx_prevIdx_perm O.m_segments.length).countP_eq
    (fun i => decide (crossesAt t
      (vertexAt (startVertices O) (prevIdx O.m_segments.length i))
      (vertexAt (startVertices O) i)))
  rw [← hperm, List.countP_map]
  apply List.countP_congr
  intro i hi
  rw [List.mem_range] at hi
  have hj : prevIdx O.m_segments.length i < O.m_segments.length := by
    unfold prevIdx; split_ifs <;> omega
  simp only [Function.comp, decide_eq_true_eq]
  rw [vertexAt_reverse O hc hcont i hi, vertexAt_reverse O hc hcont _ hj,
    prevIdx_revIdx_prevIdx _ i hi]

theorem quotient_traps_vertical (t : Location) (x ya yb : Int) :
    ¬ quotient_traps t ⟨x, ya⟩ ⟨x, yb⟩ := by
  unfold quotient_traps
  simp only [sub_self, wrap32_zero, zero_mul]
  rintro ⟨_, h, _⟩
  revert h
  decide

theorem quotient_traps_horizontal (t : Location) (xa xb y : Int) :
    ¬ quotient_traps t ⟨xa, y⟩ ⟨xb, y⟩ := by
  unfold quotient_traps
  simp

/-- On an axis-aligned rectangle no quotient traps: an edge that is evaluated
is vertical, and its dividend is 0. -/
theorem rect_no_trap (t : Location) (x0 y0 x1 y1 : Int) (vs : List Location)
    (h : vs = [⟨x0, y0⟩, ⟨x1, y0⟩, ⟨x1, y1⟩, ⟨x0, y1⟩] ∨
    vs = [⟨x1, y0⟩, ⟨x1, y1⟩, ⟨x0, y1⟩, ⟨x0, y0⟩] ∨
    vs = [⟨x1, y1⟩, ⟨x0, y1⟩, ⟨x0, y0⟩, ⟨x1, y0⟩] ∨
    vs = [⟨x0, y1⟩, ⟨x0, y0⟩, ⟨x1, y0⟩, ⟨x1, y1⟩] ∨
    vs = [⟨x0, y1⟩, ⟨x1, y1⟩, ⟨x1, y0⟩, ⟨x0, y0⟩] ∨
    vs = [⟨x1, y1⟩, ⟨x1, y0⟩, ⟨x0, y0⟩, ⟨x0, y1⟩] ∨
    vs = [⟨x1, y0⟩, ⟨x0, y0⟩, ⟨x0, y1⟩, ⟨x1, y1⟩] ∨
    vs = [⟨x0, y0⟩, ⟨x0, y1⟩, ⟨x1, y1⟩, ⟨x1, y0⟩]) :
    ∀ i, i < vs.length →
      ¬ quotient_traps t (vertexAt vs i) (vertexAt vs (prevIdx vs.length i)) := by
  rcases h with h | h | h | h | h | h | h | h <;> subst h <;> intro i hi <;>
    simp only [List.length_cons, List.length_nil] at hi <;>
    interval_cases i <;>
    first
      | exact quotient_traps_vertical t _ _ _
      | exact quotient_traps_horizontal t _ _ _

theorem crossingCountExact_reverse (t : Location) (O : ProtoRing) (hc : closed O = some true)
    (hcont : contiguous O.m_segments = true) :
    crossingCountExact t (startVertices (reverse O))
      = crossingCountExchangedExact t (startVertices O) := by
  have hlen : (startVertices O).length = O.m_segments.length := by simp [startVertices]
  have hlen' : (startVertices (reverse O)).length = O.m_segments.length := by
    rw [startVertices_reverse]; simp
  unfold crossingCountExact crossingCountExchangedExact
  rw [hlen, hlen']
  have hperm := (map_revIdx_prevIdx_perm O.m_segments.length).countP_eq
    (fun i => decide (crossesAtExact t
      (vertexAt (startVertices O) (prevIdx O.m_segments.length i))
      (vertexAt (startVertices O) i)))
  rw [← hperm, List.countP_map]
  apply List.countP_congr
  intro i hi
  rw [List.mem_range] at hi
  have hj : prevIdx O.m_segments.length i < O.m_segments.length := by
    unfold prevIdx; split_ifs <;> omega
  simp only [Function.comp, decide_eq_true_eq]
  rw [vertexAt_reverse O hc hcont i hi, vertexAt_reverse O hc hcont _ hj,
    prevIdx_revIdx_prevIdx _ i hi]

/-! ## The claims -/

/-- C1 (amended): for every ring whose exact integer shoelace sum
`Σ (first.x * second.y - second.x * first.y)` lies in the signed 64-bit range,
`sum()` equals that exact sum. -/
theorem sum_eq_shoelace_of_isInt64 (R : ProtoRing) (h : isInt64 (shoelace R.m_segments)) :
    sum R = shoelace R.m_segments := by
  rw [sum_eq_wrap64_shoelace, wrap64_of_isInt64 _ h]

theorem sum_eq_shoelace_of_isInt64_witness :
    isInt64 (shoelace minSumRing.m_segments) ∧
      sum minSumRing = shoelace minSumRing.m_segments :=
  ⟨by decide, sum_eq_shoelace_of_isInt64 minSumRing (by decide)⟩

/-- C1 (as stated) fails: the rectangle spanning the whole valid coordinate
range is a non-empty, closed, contiguous ring of valid locations whose exact
shoelace sum is 12960000000000000000, but `sum()` returns
-5486744073709551616. -/
theorem sum_ne_shoelace_worldRing :
    worldRing.m_segments ≠ [] ∧
    (∀ s ∈ worldRing.m_segments, validSegment s) ∧
    contiguous worldRing.m_segments = true ∧
    closed worldRing = some true ∧
    shoelace worldRing.m_segments = 12960000000000000000 ∧
    sum worldRing = -5486744073709551616 ∧
    sum worldRing ≠ shoelace worldRing.m_segments := by
  decide

/-- C2: for every non-empty ring, `closed()` is true exactly when the location
of the first segment's first endpoint equals the location of the last
segment's second endpoint; node ids play no role: replacing the segments by
any segments with the same locations leaves the result unchanged. -/
theorem closed_iff_ends_coincide (R : ProtoRing) (h : R.m_segments ≠ []) :
    closed R = some (decide ((R.m_segments.head h).first.location
                              = (R.m_segments.getLast h).second.location)) ∧
    ∀ f : NodeRefSegment → NodeRefSegment,
      (∀ s, (f s).first.location = s.first.location ∧
            (f s).second.location = s.second.location) →
      closed { R with m_segments := R.m_segments.map f } = closed R := by
  constructor
  · rw [closed_of_ne_nil R h]
    congr 1
    rw [Bool.eq_iff_iff, location_eq_iff]; simp
  · intro f hf
    unfold closed
    simp only [List.head?_map, List.getLast?_map]
    rw [List.head?_eq_head h, List.getLast?_eq_getLast _ h]
    simp [(hf _).1, (hf _).2]

theorem closed_iff_ends_coincide_witness :
    worldRing.m_segments ≠ [] ∧ closed worldRing = some true :=
  ⟨by decide, (closed_iff_ends_coincide worldRing (by decide)).1⟩

/-- C3: `is_cw()` is true exactly when `sum() <= 0`; in particular a ring
whose sum is 0 is reported as clockwise. -/
theorem is_cw_iff_sum_le_zero (R : ProtoRing) :
    (is_cw R = true ↔ sum R ≤ 0) ∧ (sum R = 0 → is_cw R = true) := by
  unfold is_cw
  constructor
  · simp
  · intro h; simp [h]

theorem is_cw_iff_sum_le_zero_witness :
    sum { m_segments := [mkSeg 1 0 0 2 1 0] } = 0 ∧
      is_cw { m_segments := [mkSeg 1 0 0 2 1 0] } = true :=
  ⟨by decide, (is_cw_iff_sum_le_zero { m_segments := [mkSeg 1 0 0 2 1 0] }).2 (by decide)⟩

/-- C4 (amended): for every ring whose `sum()` is not `-2^63`, `area()` is
the absolute value of `sum()` divided by 2 with truncating division, and is
non-negative. -/
theorem area_eq_abs_sum_div_two (R : ProtoRing) (h : sum R ≠ -9223372036854775808) :
    area R = Int.tdiv |sum R| 2 ∧ 0 ≤ area R := by
  have hr := sum_isInt64 R
  unfold isInt64 at hr
  have habs : abs64 (sum R) = |sum R| := by
    unfold abs64
    split_ifs with hneg
    · rw [abs_of_neg hneg]; apply wrap64_of_isInt64; unfold isInt64; omega
    · rw [abs_of_nonneg (not_lt.mp hneg)]; apply wrap64_of_isInt64; unfold isInt64; omega
  unfold area
  rw [habs]
  exact ⟨rfl, Int.tdiv_nonneg (abs_nonneg _) (by decide)⟩

theorem area_eq_abs_sum_div_two_witness :
    sum worldRing ≠ -9223372036854775808 ∧
      area worldRing = Int.tdiv |sum worldRing| 2 ∧ 0 ≤ area worldRing :=
  ⟨by decide, area_eq_abs_sum_div_two worldRing (by decide)⟩

/-- C4 (as stated) fails: the clockwise hexagon `minSumRing`, a non-empty
closed contiguous ring of valid locations, has `sum() = -2^63`, whose absolute
value is not representable; `area()` is `-2^62`, which is negative and is not
`|sum()| / 2`. -/
theorem area_negative_minSumRing :
    (∀ s ∈ minSumRing.m_segments, validSegment s) ∧
    contiguous minSumRing.m_segments = true ∧
    closed minSumRing = some true ∧
    shoelace minSumRing.m_segments = -9223372036854775808 ∧
    sum minSumRing = -9223372036854775808 ∧
    area minSumRing = -4611686018427387904 ∧
    area minSumRing < 0 ∧
    area minSumRing ≠ Int.tdiv |sum minSumRing| 2 := by
  decide

/-- C5: reversing a ring twice gives back the original segment sequence (same
segments, same order, same endpoint direction) and the same `is_cw()`. -/
theorem reverse_reverse_segments (R : ProtoRing) :
    (reverse (reverse R)).m_segments = R.m_segments ∧
    is_cw (reverse (reverse R)) = is_cw R := by
  have h : reverse (reverse R) = R := by
    cases R
    simp [reverse, List.map_reverse, Function.comp_def, swap_locations_swap_locations]
  rw [h]; exact ⟨rfl, rfl⟩

/-- C6 (amended): after `reverse()` the segments are
`swap(s_{n-1}), ..., swap(s_0)`; `sum()` of the reversed ring is the negation
of `sum()` of the ring reduced to 64 bits, which is the negation itself
whenever `sum()` is not `-2^63`; `area()` is unchanged. -/
theorem reverse_segments_sum_area (R : ProtoRing) :
    (reverse R).m_segments = R.m_segments.reverse.map NodeRefSegment.swap_locations ∧
    (∀ (i : Nat) (hi : i < R.m_segments.length),
      (reverse R).m_segments[i]? =
        some (R.m_segments.get ⟨R.m_segments.length - 1 - i, by omega⟩).swap_locations) ∧
    sum (reverse R) = wrap64 (-sum R) ∧
    (sum R ≠ -9223372036854775808 → sum (reverse R) = -sum R) ∧
    area (reverse R) = area R := by
  refine ⟨reverse_segments R, ?_, sum_reverse_eq R, ?_, ?_⟩
  · intro i hi
    have hlt : R.m_segments.length - 1 - i < R.m_segments.length := by omega
    rw [reverse_segments, List.getElem?_map, List.getElem?_reverse hi,
      List.getElem?_eq_getElem hlt]
    rfl
  · intro h
    have hr := sum_isInt64 R
    rw [sum_reverse_eq]
    apply wrap64_of_isInt64
    unfold isInt64 at hr ⊢
    omega
  · unfold area
    rw [sum_reverse_eq, abs64_wrap64_neg _ (sum_isInt64 R)]

theorem reverse_segments_sum_area_witness :
    sum worldRing ≠ -9223372036854775808 ∧ sum (reverse worldRing) = -sum worldRing :=
  ⟨by decide, (reverse_segments_sum_area worldRing).2.2.2.1 (by decide)⟩

/-- C6 (as stated) fails: the clockwise hexagon `minSumRing` has
`sum() = -2^63`; the sum of the reversed ring is again `-2^63`, not the
negation `2^63`. -/
theorem sum_reverse_ne_neg_minSumRing :
    (∀ s ∈ minSumRing.m_segments, validSegment s) ∧
    sum minSumRing = -9223372036854775808 ∧
    sum (reverse minSumRing) = -9223372036854775808 ∧
    sum (reverse minSumRing) ≠ -sum minSumRing := by
  decide

/-- C7: closure does not depend on direction: `closed()` after `reverse()`
equals `closed()` before it. -/
theorem closed_reverse (R : ProtoRing) : closed (reverse R) = closed R := by
  by_cases h : R.m_segments = []
  · rw [closed_nil R h, closed_nil]
    rw [reverse_segments, h]; rfl
  · have h2 : (reverse R).m_segments ≠ [] := by
      rw [reverse_segments]; simpa using h
    rw [closed_of_ne_nil R h, closed_of_ne_nil _ h2]
    congr 1
    rw [location_eq_comm]
    simp only [reverse_segments, List.head_map, List.getLast_map, List.head_reverse,
      List.getLast_reverse, NodeRefSegment.swap_locations]

/-- C8: for either value of the debug flag, after `merge_ring` the ring's
segments are its previous segments followed by the other ring's segments in
their original order and direction; the other ring, the outer flag and the
inner-ring list are unchanged; nothing is required of the endpoints, and the
flag has no influence on the resulting ring. -/
theorem merge_ring_appends (dflt : NodeRefSegment) (st : MergeState) (debug : Bool) :
    (merge_ring dflt st debug).self.m_segments
      = st.self.m_segments ++ st.other.m_segments ∧
    (merge_ring dflt st debug).other = st.other ∧
    (merge_ring dflt st debug).self.m_outer = st.self.m_outer ∧
    (merge_ring dflt st debug).self.m_inner = st.self.m_inner ∧
    (merge_ring dflt st true).self = (merge_ring dflt st false).self :=
  ⟨merge_ring_segments dflt st debug, rfl, rfl, rfl, rfl⟩

/-- C9: `merge_ring_reverse` leaves the ring exactly as `merge_ring` with a
reversed copy of the other ring does: the previous segments followed by the
other ring's segments in reverse order, each with its endpoints swapped. -/
theorem merge_ring_reverse_eq_merge_ring_reverse (dflt : NodeRefSegment)
    (R O : ProtoRing) (debug : Bool) (c : String) :
    (merge_ring_reverse dflt { self := R, other := O, cerr := c } debug).self
      = (merge_ring dflt { self := R, other := reverse O, cerr := c } debug).self ∧
    (merge_ring_reverse dflt { self := R, other := O, cerr := c } debug).self.m_segments
      = R.m_segments ++ O.m_segments.reverse.map NodeRefSegment.swap_locations := by
  have h1 := merge_ring_reverse_segments dflt { self := R, other := O, cerr := c } debug
  have h2 := merge_ring_segments dflt { self := R, other := reverse O, cerr := c } debug
  simp only [reverse_segments] at h2
  refine ⟨?_, h1⟩
  have hseg : (merge_ring_reverse dflt { self := R, other := O, cerr := c } debug).self.m_segments
      = (merge_ring dflt { self := R, other := reverse O, cerr := c } debug).self.m_segments := by
    rw [h1, h2]
  have ho : (merge_ring_reverse dflt { self := R, other := O, cerr := c } debug).self.m_outer
      = (merge_ring dflt { self := R, other := reverse O, cerr := c } debug).self.m_outer := rfl
  have hi : (merge_ring_reverse dflt { self := R, other := O, cerr := c } debug).self.m_inner
      = (merge_ring dflt { self := R, other := reverse O, cerr := c } debug).self.m_inner := rfl
  revert hseg ho hi
  generalize (merge_ring_reverse dflt { self := R, other := O, cerr := c } debug).self = A
  generalize (merge_ring dflt { self := R, other := reverse O, cerr := c } debug).self = B
  intro hseg ho hi
  cases A; cases B
  simp only at hseg ho hi
  subst hseg; subst ho; subst hi
  rfl

/-- C10: for non-empty contiguous rings R and O, if R's last second location
is O's first first location then R after `merge_ring` is contiguous and
`closed()` holds exactly when O's last second location is R's first first
location; if R's last second location is O's last second location then R
after `merge_ring_reverse` is contiguous and `closed()` holds exactly when
O's first first location is R's first first location. -/
theorem merge_preserves_contiguity (dflt : NodeRefSegment) (R O : ProtoRing)
    (debug : Bool) (c : String)
    (hR : R.m_segments ≠ []) (hO : O.m_segments ≠ [])
    (cR : contiguous R.m_segments = true) (cO : contiguous O.m_segments = true) :
    ((R.m_segments.getLast hR).second.location = (O.m_segments.head hO).first.location →
      contiguous (merge_ring dflt { self := R, other := O, cerr := c } debug).self.m_segments
        = true ∧
      closed (merge_ring dflt { self := R, other := O, cerr := c } debug).self
        = some (decide ((O.m_segments.getLast hO).second.location
                          = (R.m_segments.head hR).first.location))) ∧
    ((R.m_segments.getLast hR).second.location = (O.m_segments.getLast hO).second.location →
      contiguous
        (merge_ring_reverse dflt { self := R, other := O, cerr := c } debug).self.m_segments
        = true ∧
      closed (merge_ring_reverse dflt { self := R, other := O, cerr := c } debug).self
        = some (decide ((O.m_segments.head hO).first.location
                          = (R.m_segments.head hR).first.location))) := by
  constructor
  · intro hj
    have hseg := merge_ring_segments dflt { self := R, other := O, cerr := c } debug
    simp only at hseg
    refine ⟨?_, closed_append _ _ _ hR hO hseg⟩
    rw [hseg]
    exact contiguous_append _ _ hR hO cR cO hj
  · intro hj
    have hseg := merge_ring_reverse_segments dflt { self := R, other := O, cerr := c } debug
    simp only at hseg
    have hO2 : O.m_segments.reverse.map NodeRefSegment.swap_locations ≠ [] := by
      simpa using hO
    have hhead : ((O.m_segments.reverse.map NodeRefSegment.swap_locations).head hO2).first
        = (O.m_segments.getLast hO).second := by
      simp [List.head_map, List.head_reverse, NodeRefSegment.swap_locations]
    have hlast : ((O.m_segments.reverse.map NodeRefSegment.swap_locations).getLast hO2).second
        = (O.m_segments.head hO).first := by
      simp [List.getLast_map, List.getLast_reverse, NodeRefSegment.swap_locations]
    constructor
    · rw [hseg]
      refine contiguous_append _ _ hR hO2 cR (contiguous_reverse_swap _ cO) ?_
      rw [hhead]; exact hj
    · rw [closed_append _ _ _ hR hO2 hseg, hlast]

theorem merge_preserves_contiguity_witness :
    (contiguous
        (merge_ring (mkSeg 0 0 0 0 0 0)
          { self := worldSouthEast, other := worldNorthWest, cerr := "" } true).self.m_segments
        = true ∧
      closed
        (merge_ring (mkSeg 0 0 0 0 0 0)
          { self := worldSouthEast, other := worldNorthWest, cerr := "" } true).self
        = some true) ∧
    (contiguous
        (merge_ring_reverse (mkSeg 0 0 0 0 0 0)
          { self := worldSouthEast, other := reverse worldNorthWest,
            cerr := "" } true).self.m_segments
        = true ∧
      closed
        (merge_ring_reverse (mkSeg 0 0 0 0 0 0)
          { self := worldSouthEast, other := reverse worldNorthWest, cerr := "" } true).self
        = some true) :=
  ⟨(merge_preserves_contiguity (mkSeg 0 0 0 0 0 0) worldSouthEast worldNorthWest true ""
      (by decide) (by decide) (by decide) (by decide)).1 (by decide),
   (merge_preserves_contiguity (mkSeg 0 0 0 0 0 0) worldSouthEast (reverse worldNorthWest)
      true "" (by decide) (by decide) (by decide) (by decide)).2 (by decide)⟩

/-- C11: `reverse()` preserves contiguity: if the second location of each
segment is the first location of the next one, the same holds in the reversed
ring. -/
theorem reverse_preserves_contiguity (R : ProtoRing) (h : contiguous R.m_segments = true) :
    contiguous (reverse R).m_segments = true := by
  rw [reverse_segments]
  exact contiguous_reverse_swap _ h

theorem reverse_preserves_contiguity_witness :
    contiguous minSumRing.m_segments = true ∧
      contiguous (reverse minSumRing).m_segments = true :=
  ⟨by decide, reverse_preserves_contiguity minSumRing (by decide)⟩

/-- C18 (amended): for every axis-aligned rectangle with corners `(x0, y0)`
and `(x1, y1)`, `x0 < x1`, `y0 < y1`, whose area `(x1 - x0) * (y1 - y0)` is
below `2^62`, the 4-segment ring traversing it has
`area() = (x1 - x0) * (y1 - y0)`, with `is_cw()` false when traversed
`(x0,y0) -> (x1,y0) -> (x1,y1) -> (x0,y1) -> (x0,y0)` and true when traversed in
the opposite direction. -/
theorem rectangle_area_is_cw (R : ProtoRing) (x0 y0 x1 y1 : Int)
    (hx : x0 < x1) (hy : y0 < y1)
    (hA : (x1 - x0) * (y1 - y0) < 4611686018427387904) :
    (R.m_segments.map segLocations = rectEdges x0 y0 x1 y1 →
      area R = (x1 - x0) * (y1 - y0) ∧ is_cw R = false) ∧
    (R.m_segments.map segLocations = rectEdgesOpposite x0 y0 x1 y1 →
      area R = (x1 - x0) * (y1 - y0) ∧ is_cw R = true) := by
  have hpos : 0 < (x1 - x0) * (y1 - y0) := mul_pos (sub_pos.mpr hx) (sub_pos.mpr hy)
  exact ⟨fun h => area_is_cw_of_sum_pos R _ hpos hA (shoelace_rectEdges _ _ _ _ _ h),
    fun h => area_is_cw_of_sum_neg R _ hpos hA (shoelace_rectEdgesOpposite _ _ _ _ _ h)⟩

theorem rectangle_area_is_cw_witness :
    (area worldSquare = (900000000 - -900000000) * (900000000 - -900000000) ∧
      is_cw worldSquare = false) ∧
    (area (reverse worldSquare) = (900000000 - -900000000) * (900000000 - -900000000) ∧
      is_cw (reverse worldSquare) = true) :=
  ⟨(rectangle_area_is_cw worldSquare (-900000000) (-900000000) 900000000 900000000
      (by decide) (by decide) (by decide)).1 (by decide),
   (rectangle_area_is_cw (reverse worldSquare) (-900000000) (-900000000) 900000000 900000000
      (by decide) (by decide) (by decide)).2 (by decide)⟩

/-- C18 (as stated) fails: the rectangle with corners
`(-1800000000, -900000000)` and `(1800000000, 900000000)` has valid
coordinates and area 6480000000000000000, but the ring traversing it
`(x0,y0) -> (x1,y0) -> (x1,y1) -> (x0,y1) -> (x0,y0)` has
`area() = 2743372036854775808` and `is_cw()` true. -/
theorem rectangle_area_worldRing :
    worldRing.m_segments.map segLocations
      = rectEdges (-1800000000) (-900000000) 1800000000 900000000 ∧
    (∀ s ∈ worldRing.m_segments, validSegment s) ∧
    closed worldRing = some true ∧ contiguous worldRing.m_segments = true ∧
    area worldRing = 2743372036854775808 ∧
    area worldRing ≠ (1800000000 - -1800000000) * (900000000 - -900000000) ∧
    is_cw worldRing = true := by
  decide

/-- C19 (amended): `contains(s)` is true exactly when some segment `t` of the
ring is `==` to `s` as a segment, or has `t.first() == s.second()` and
`t.second() == s.first()` as NodeRefs; `contains(s)` and `contains(s with
endpoints swapped)` agree whenever, for the segments of the ring, equality
with `s` and with the swapped `s` as segments is equality of both endpoints as
NodeRefs. -/
theorem contains_iff (segEq : NodeRefSegment → NodeRefSegment → Bool)
    (nodeEq : NodeRef → NodeRef → Bool) (R : ProtoRing) (s : NodeRefSegment) :
    (contains segEq nodeEq R s = true ↔
      ∃ t ∈ R.m_segments,
        segEq t s = true ∨ (nodeEq t.first s.second = true ∧ nodeEq t.second s.first = true)) ∧
    ((∀ t ∈ R.m_segments,
        segEq t s = (nodeEq t.first s.first && nodeEq t.second s.second) ∧
        segEq t s.swap_locations = (nodeEq t.first s.second && nodeEq t.second s.first)) →
      contains segEq nodeEq R s.swap_locations = contains segEq nodeEq R s) := by
  constructor
  · unfold contains
    simp [List.any_eq_true]
  · intro h
    unfold contains
    rw [Bool.eq_iff_iff]
    simp only [List.any_eq_true]
    constructor
    · rintro ⟨t, ht, hc⟩
      refine ⟨t, ht, ?_⟩
      rw [(h t ht).2] at hc
      rw [(h t ht).1]
      simp only [NodeRefSegment.swap_locations, Bool.or_eq_true, Bool.and_eq_true] at hc ⊢
      tauto
    · rintro ⟨t, ht, hc⟩
      refine ⟨t, ht, ?_⟩
      rw [(h t ht).1] at hc
      rw [(h t ht).2]
      simp only [NodeRefSegment.swap_locations, Bool.or_eq_true, Bool.and_eq_true] at hc ⊢
      tauto

theorem contains_iff_witness :
    contains NodeRefSegment.eq NodeRef.eq worldRing
        (mkSeg 3 1800000000 900000000 2 1800000000 (-900000000)).swap_locations
      = contains NodeRefSegment.eq NodeRef.eq worldRing
          (mkSeg 3 1800000000 900000000 2 1800000000 (-900000000)) :=
  (contains_iff NodeRefSegment.eq NodeRef.eq worldRing
    (mkSeg 3 1800000000 900000000 2 1800000000 (-900000000))).2 (by decide)

/-- C19 (as stated) fails: with segments compared by the locations of their
endpoints and NodeRefs by identifier, the ring `dupRing` (nodes 1 and 2)
contains the segment `dupSegment` between the two other nodes 3 and 4 lying at
the same two locations, but not that segment with its endpoints swapped. -/
theorem contains_swap_disagree :
    contains NodeRefSegment.eq NodeRef.eq dupRing dupSegment = true ∧
    contains NodeRefSegment.eq NodeRef.eq dupRing dupSegment.swap_locations = false := by
  decide

/-- C20: `add_segment_end(s)` makes the segment sequence `L` followed by `s`,
so that `last_segment()` is `s`; `add_segment_start(s)` makes it `s` followed
by `L`, so that `first_segment()` is `s`; the outer flag and the inner-ring
list are unchanged in both cases. -/
theorem add_segment_end_start (R : ProtoRing) (s : NodeRefSegment) :
    ((add_segment_end R s).m_segments = R.m_segments ++ [s] ∧
      last_segment (add_segment_end R s) = some s ∧
      (add_segment_end R s).m_outer = R.m_outer ∧
      (add_segment_end R s).m_inner = R.m_inner) ∧
    ((add_segment_start R s).m_segments = s :: R.m_segments ∧
      first_segment (add_segment_start R s) = some s ∧
      (add_segment_start R s).m_outer = R.m_outer ∧
      (add_segment_start R s).m_inner = R.m_inner) := by
  refine ⟨⟨rfl, ?_, rfl, rfl⟩, ⟨rfl, rfl, rfl, rfl⟩⟩
  simp [last_segment, add_segment_end]

/-- C12 (amended): for every closed contiguous ring, the location of
`min_node()` is the lexicographically smallest (by x, then y) location among
all endpoints (first and second) of all segments of the ring; the segment
comparison may be any that orders segments by their first location first. -/
theorem min_node_least_of_closed_contiguous (lt : NodeRefSegment → NodeRefSegment → Bool)
    (hlt : comparesFirstLocation lt) (R : ProtoRing)
    (hc : closed R = some true) (hcont : contiguous R.m_segments = true) :
    ∃ nd, min_node lt R = some nd ∧
      isLeastLocation nd.location (endpointLocations R.m_segments) :=
  min_node_least lt hlt R (closed_true_ne_nil R hc)
    (closed_contiguous_second_is_first R hc hcont)

theorem min_node_least_of_closed_contiguous_witness :
    ∃ nd, min_node NodeRefSegment.less minSumRing = some nd ∧
      isLeastLocation nd.location (endpointLocations minSumRing.m_segments) :=
  min_node_least_of_closed_contiguous NodeRefSegment.less less_comparesFirstLocation
    minSumRing (by decide) (by decide)

/-- C12 (as stated) fails: in the non-empty contiguous open chain
`(2,0) -> (5,0) -> (1,0)` the smallest segment is the one starting at `(2,0)`,
and `min_node()` is its endpoint `(2,0)`, while the endpoint `(1,0)` of the
other segment is smaller. -/
theorem min_node_not_least_openChain :
    openChain.m_segments ≠ [] ∧
    contiguous openChain.m_segments = true ∧
    min_node NodeRefSegment.less openChain = some ⟨1, ⟨2, 0⟩⟩ ∧
    (⟨1, 0⟩ : Location) ∈ endpointLocations openChain.m_segments ∧
    ¬ Location.le ⟨2, 0⟩ ⟨1, 0⟩ ∧
    ¬ isLeastLocation (⟨2, 0⟩ : Location) (endpointLocations openChain.m_segments) := by
  decide

/-- C13: for every closed contiguous ring, `min_node()` has the same location
for the ring, for the ring after `reverse()`, and for every rotation of its
segment sequence; the segment comparison may be any that orders segments by
their first location first. -/
theorem min_node_location_invariant (lt : NodeRefSegment → NodeRefSegment → Bool)
    (hlt : comparesFirstLocation lt) (R : ProtoRing)
    (hc : closed R = some true) (hcont : contiguous R.m_segments = true) :
    ∃ nd, min_node lt R = some nd ∧
      (∃ nd', min_node lt (reverse R) = some nd' ∧ nd'.location = nd.location) ∧
      (∀ k, ∃ nd', min_node lt (rotated R k) = some nd' ∧ nd'.location = nd.location) := by
  have hne := closed_true_ne_nil R hc
  have hP := closed_contiguous_second_is_first R hc hcont
  have hQ := closed_contiguous_first_is_second R hc hcont
  obtain ⟨nd, hnd, hleast⟩ := min_node_least lt hlt R hne hP
  refine ⟨nd, hnd, ?_, ?_⟩
  · have hne' : (reverse R).m_segments ≠ [] := by
      rw [reverse_segments]; simpa using hne
    have hP' : ∀ s ∈ (reverse R).m_segments,
        ∃ t ∈ (reverse R).m_segments, t.first.location = s.second.location := by
      intro s hs
      obtain ⟨u, hu, rfl⟩ := (mem_reverse_segments R s).mp hs
      obtain ⟨t, ht, hts⟩ := hQ u hu
      exact ⟨t.swap_locations, (mem_reverse_segments R _).mpr ⟨t, ht, rfl⟩, hts⟩
    obtain ⟨nd', hnd', hleast'⟩ := min_node_least lt hlt (reverse R) hne' hP'
    exact ⟨nd', hnd',
      isLeastLocation_unique hleast' hleast (mem_endpointLocations_reverse R)⟩
  · intro k
    have hne' : (rotated R k).m_segments ≠ [] := by
      simpa [rotated] using hne
    have hP' : ∀ s ∈ (rotated R k).m_segments,
        ∃ t ∈ (rotated R k).m_segments, t.first.location = s.second.location := by
      simpa [rotated, List.mem_rotate] using hP
    obtain ⟨nd', hnd', hleast'⟩ := min_node_least lt hlt (rotated R k) hne' hP'
    exact ⟨nd', hnd',
      isLeastLocation_unique hleast' hleast (mem_endpointLocations_rotated R k)⟩

theorem min_node_location_invariant_witness :
    ∃ nd, min_node NodeRefSegment.less worldRing = some nd ∧
      (∃ nd', min_node NodeRefSegment.less (reverse worldRing) = some nd' ∧
        nd'.location = nd.location) ∧
      (∀ k, ∃ nd', min_node NodeRefSegment.less (rotated worldRing k) = some nd' ∧
        nd'.location = nd.location) :=
  min_node_location_invariant NodeRefSegment.less less_comparesFirstLocation worldRing
    (by decide) (by decide)

/-- C14 (amended): the point that `is_in(outer)` tests is the location of the
first endpoint of the ring's first segment: for every non-empty ring R and
outer ring O on which no intermediate value of the 32-bit computation
overflows, `R.is_in(O)` equals the crossing-number test of O's start vertices,
evaluated over the mathematical integers, applied to that location; it is the
test applied to the location of `min_node()` when that is the same location. -/
theorem is_in_tests_first_location (lt : NodeRefSegment → NodeRefSegment → Bool)
    (R O : ProtoRing) (f : NodeRefSegment)
    (hR : R.m_segments.head? = some f)
    (hnov : noOverflowIn f.first.location (startVertices O)) :
    is_in R O = some (crossing_number_test_exact f.first.location (startVertices O)) ∧
    ∀ nd, min_node lt R = some nd → nd.location = f.first.location →
      is_in R O = some (crossing_number_test_exact nd.location (startVertices O)) := by
  have h := is_in_eq_crossing_number_test_exact R O f hR hnov
  refine ⟨h, ?_⟩
  intro nd _ hloc
  rw [hloc]; exact h

theorem is_in_tests_first_location_witness :
    is_in straddlingTriangle square10
      = some (crossing_number_test_exact ⟨5, 5⟩ (startVertices square10)) :=
  (is_in_tests_first_location NodeRefSegment.less straddlingTriangle square10
    (mkSeg 5 5 5 6 (-5) 5) (by decide) (by decide)).1

/-- C14 (as stated) fails: the closed contiguous triangle `straddlingTriangle`
starts at `(5,5)`, inside the square `square10`, and `is_in` is true; its
`min_node()` lies at `(-5,5)`, where the crossing-number test of the square is
false, in the 32-bit arithmetic of the code and over the mathematical
integers. -/
theorem is_in_ne_test_at_min_node :
    closed straddlingTriangle = some true ∧
    contiguous straddlingTriangle.m_segments = true ∧
    is_in straddlingTriangle square10 = some true ∧
    min_node NodeRefSegment.less straddlingTriangle = some ⟨6, ⟨-5, 5⟩⟩ ∧
    crossing_number_test ⟨-5, 5⟩ (startVertices square10) = false ∧
    crossing_number_test_exact ⟨-5, 5⟩ (startVertices square10) = false := by
  decide

/-- Without overflow, `R.is_in(O)` is true exactly when the number of indices
`i` (with `j = i - 1`, and `j = n - 1` for `i = 0`) satisfying the crossing
condition for `v_i` and `v_j` over the mathematical integers is odd; only the
start vertices are used, and an outer ring with no segments contains
nothing. -/
theorem is_in_iff_odd_crossings_of_noOverflow (R O : ProtoRing) (f : NodeRefSegment)
    (hR : R.m_segments.head? = some f)
    (hnov : noOverflowIn f.first.location (startVertices O)) :
    is_in R O = some (decide
      (((List.range (startVertices O).length).countP
          (fun i => decide (crossesAtExact f.first.location
            (vertexAt (startVertices O) i)
            (vertexAt (startVertices O) (prevIdx (startVertices O).length i))))) % 2 = 1)) ∧
    (∀ O2 : ProtoRing, startVertices O2 = startVertices O → is_in R O2 = is_in R O) ∧
    (O.m_segments = [] → is_in R O = some false) := by
  have h := is_in_eq_crossing_number_test_exact R O f hR hnov
  refine ⟨h, ?_, ?_⟩
  · intro O2 h2
    rw [h, is_in_eq_crossing_number_test_exact R O2 f hR (by rw [h2]; exact hnov), h2]
  · intro hnil
    rw [h]
    simp [crossing_number_test_exact, crossingCountExact, startVertices, hnil]

/-- C15 (the code at the failing input): for the test point `(20000, 20000)`
and the outer ring `smallTriangle`, exactly one index satisfies the condition
`((v_i.y > t.y) != (v_j.y > t.y))` and
`t.x < (v_j.x - v_i.x) * (t.y - v_i.y) / (v_j.y - v_i.y) + v_i.x`, namely
`i = 2` with `v_i = (0, 100000)` and `v_j = (100000, 0)`, so the number is odd;
`is_in` computes the product in 32 bits, where it overflows, and returns
false. -/
theorem is_in_ne_odd_crossings_smallTriangle :
    probeInTriangle.m_segments.head?.map (fun s => s.first.location) = some ⟨20000, 20000⟩ ∧
    startVertices smallTriangle = [⟨0, 0⟩, ⟨100000, 0⟩, ⟨0, 100000⟩] ∧
    crossesAtExact ⟨20000, 20000⟩ ⟨0, 100000⟩ ⟨100000, 0⟩ ∧
    crossingCountExact ⟨20000, 20000⟩ (startVertices smallTriangle) = 1 ∧
    ¬ crossesAt ⟨20000, 20000⟩ ⟨0, 100000⟩ ⟨100000, 0⟩ ∧
    is_in probeInTriangle smallTriangle = some false := by
  refine ⟨by decide, by decide, by decide, by decide, by decide, by decide⟩

/-- C16: for every axis-aligned rectangular outer ring O whose start vertices
are the corners `(x0,y0), (x1,y0), (x1,y1), (x0,y1)`, `x0 < x1`, `y0 < y1`, in
either winding and from any starting corner, and every ring R whose first
segment's first location is `(tx, ty)`: if `x0 < tx < x1` and `y0 < ty < y1`
then `R.is_in(O)` is true, and if `tx < x0` or `tx > x1` or `ty < y0` or
`ty > y1` then `R.is_in(O)` is false. -/
theorem is_in_rectangle (R O : ProtoRing) (f : NodeRefSegment) (x0 y0 x1 y1 : Int) (k : Nat)
    (hR : R.m_segments.head? = some f)
    (hx : x0 < x1) (hy : y0 < y1)
    (hx0 : isInt32 x0) (hy0 : isInt32 y0) (hx1 : isInt32 x1) (hy1 : isInt32 y1)
    (hO : startVertices O = (rectCorners x0 y0 x1 y1).rotate k ∨
          startVertices O = (rectCorners x0 y0 x1 y1).reverse.rotate k) :
    ((x0 < f.first.location.x ∧ f.first.location.x < x1 ∧
        y0 < f.first.location.y ∧ f.first.location.y < y1) → is_in R O = some true) ∧
    ((f.first.location.x < x0 ∨ f.first.location.x > x1 ∨
        f.first.location.y < y0 ∨ f.first.location.y > y1) → is_in R O = some false) := by
  have h32 : ∀ v ∈ startVertices O, isInt32 v.y := by
    intro v hv
    have hmem : v ∈ rectCorners x0 y0 x1 y1 := by
      rcases hO with h | h
      · rw [h, List.mem_rotate] at hv; exact hv
      · rw [h, List.mem_rotate, List.mem_reverse] at hv; exact hv
    simp only [rectCorners, List.mem_cons, List.mem_singleton, List.not_mem_nil,
      or_false] at hmem
    rcases hmem with h | h | h | h <;> subst h <;> assumption
  have hin := is_in_of_startVertices R O f _ hR rfl h32
    (rect_no_trap f.first.location x0 y0 x1 y1 _ (rect_rotations x0 y0 x1 y1 k _ hO))
  have hc := crossing_rect f.first.location x0 y0 x1 y1 (startVertices O) hx hy hx0 hx1
    (rect_rotations x0 y0 x1 y1 k _ hO)
  rw [hin]
  exact ⟨fun h => by rw [hc.1 h], fun h => by rw [hc.2 h]⟩

theorem is_in_rectangle_witness :
    is_in straddlingTriangle (reverse worldSquare) = some true ∧
      is_in minSumRing square10 = some false :=
  ⟨(is_in_rectangle straddlingTriangle (reverse worldSquare) (mkSeg 5 5 5 6 (-5) 5)
      (-900000000) (-900000000) 900000000 900000000 3 (by decide)
      (by decide) (by decide) (by decide) (by decide) (by decide) (by decide)
      (Or.inr (by decide))).1 (by decide),
   (is_in_rectangle minSumRing square10
      (mkSeg 1 (-1800000000) (-900000000) 2 (-1800000000) 381023895) 0 0 10 10 0 (by decide)
      (by decide) (by decide) (by decide) (by decide) (by decide) (by decide)
      (Or.inl (by decide))).2 (by decide)⟩

/-- C17 (amended): for every non-empty ring R and every closed contiguous
outer ring O such that no intermediate value of the 32-bit computation
overflows for the reversed ring, `R.is_in(O)` after `O.reverse()` is the
crossing-number test in which the crossing condition of every pair of
consecutive start vertices of O is evaluated, over the mathematical integers,
with the two vertices exchanged; if no intermediate value overflows for O
either, it is the value before `O.reverse()` whenever exchanging the two
vertices does not change the crossing condition of any pair. -/
theorem is_in_reverse_outer (R O : ProtoRing) (f : NodeRefSegment)
    (hR : R.m_segments.head? = some f)
    (hnovr : noOverflowIn f.first.location (startVertices (reverse O)))
    (hc : closed O = some true) (hcont : contiguous O.m_segments = true) :
    is_in R (reverse O)
      = some (decide
          (crossingCountExchangedExact f.first.location (startVertices O) % 2 = 1)) ∧
    (noOverflowIn f.first.location (startVertices O) →
      (∀ i, i < (startVertices O).length →
        (crossesAtExact f.first.location (vertexAt (startVertices O) i)
            (vertexAt (startVertices O) (prevIdx (startVertices O).length i)) ↔
          crossesAtExact f.first.location
            (vertexAt (startVertices O) (prevIdx (startVertices O).length i))
            (vertexAt (startVertices O) i))) →
      is_in R (reverse O) = is_in R O) := by
  have h1 := is_in_eq_crossing_number_test_exact R (reverse O) f hR hnovr
  unfold crossing_number_test_exact at h1
  rw [crossingCountExact_reverse _ O hc hcont] at h1
  refine ⟨h1, ?_⟩
  intro hnov hsym
  have h2 := is_in_eq_crossing_number_test_exact R O f hR hnov
  unfold crossing_number_test_exact at h2
  rw [h1, h2]
  have he : crossingCountExchangedExact f.first.location (startVertices O)
      = crossingCountExact f.first.location (startVertices O) := by
    unfold crossingCountExchangedExact crossingCountExact
    apply List.countP_congr
    intro i hi
    rw [List.mem_range] at hi
    simp only [decide_eq_true_eq]
    exact (hsym i hi).symm
  rw [he]

theorem is_in_reverse_outer_witness :
    is_in probe11 (reverse square10) = is_in probe11 square10 :=
  (is_in_reverse_outer probe11 square10 (mkSeg 7 1 1 8 2 1) (by decide) (by decide)
    (by decide) (by decide)).2 (by decide) (by decide)

/-- C17 (as stated) fails: the point `(1, 1)` lies strictly inside the closed
contiguous triangle `(0,0) -> (3,0) -> (0,2) -> (0,0)`; `is_in` is false for
that outer ring and true after its `reverse()`: the edge between `(3,0)` and
`(0,2)` passes `y = 1` at `x = 1.5`, which the truncating division makes 1
in one direction and 2 in the other; no intermediate value overflows. -/
theorem is_in_reverse_outer_differs :
    closed triangle32 = some true ∧
    contiguous triangle32.m_segments = true ∧
    is_in probe11 triangle32 = some false ∧
    is_in probe11 (reverse triangle32) = some true ∧
    noOverflowIn ⟨1, 1⟩ (startVertices triangle32) ∧
    noOverflowIn ⟨1, 1⟩ (startVertices (reverse triangle32)) := by
  decide

end ProtoRing

namespace ProtoRing

theorem int32_mul_bounds (a b : Int) (ha : isInt32 a) (hb : isInt32 b) :
    -4611686016279904256 ≤ a * b ∧ a * b ≤ 4611686018427387904 := by
  unfold isInt32 at ha hb
  have h1 := mul_nonneg (by linarith : (0 : Int) ≤ a + 2147483648)
    (by linarith : (0 : Int) ≤ b + 2147483648)
  have h2 := mul_nonneg (by linarith : (0 : Int) ≤ 2147483647 - a)
    (by linarith : (0 : Int) ≤ 2147483647 - b)
  have h3 := mul_nonneg (by linarith : (0 : Int) ≤ a + 2147483648)
    (by linarith : (0 : Int) ≤ 2147483647 - b)
  have h4 := mul_nonneg (by linarith : (0 : Int) ≤ 2147483647 - a)
    (by linarith : (0 : Int) ≤ b + 2147483648)
  constructor <;> nlinarith [h1, h2, h3, h4]

/-- C30: for every segment with 32-bit signed endpoint coordinates, both
products of the term `first.x * second.y - second.x * first.y` and their
difference lie within `[-2^63, 2^63 - 1]`, so that the 64-bit computation of
`sum()` yields the exact term. -/
theorem sum_term_no_overflow (s : NodeRefSegment) (h : segInt32 s) :
    isInt64 (s.first.location.x * s.second.location.y) ∧
    isInt64 (s.second.location.x * s.first.location.y) ∧
    isInt64 (s.first.location.x * s.second.location.y
              - s.second.location.x * s.first.location.y) ∧
    sum_term s = s.first.location.x * s.second.location.y
                  - s.second.location.x * s.first.location.y := by
  obtain ⟨h1, h2, h3, h4⟩ := h
  have hp := int32_mul_bounds _ _ h1 h4
  have hq := int32_mul_bounds _ _ h3 h2
  have hpi : isInt64 (s.first.location.x * s.second.location.y) := by
    unfold isInt64; omega
  have hqi : isInt64 (s.second.location.x * s.first.location.y) := by
    unfold isInt64; omega
  have hdi : isInt64 (s.first.location.x * s.second.location.y
              - s.second.location.x * s.first.location.y) := by
    unfold isInt64; omega
  refine ⟨hpi, hqi, hdi, ?_⟩
  unfold sum_term
  rw [wrap64_of_isInt64 _ hpi, wrap64_of_isInt64 _ hqi, wrap64_of_isInt64 _ hdi]

theorem sum_term_no_overflow_witness :
    sum_term (mkSeg 1 (-2147483648) 2147483647 2 (-2147483648) (-2147483648))
      = (-2147483648) * (-2147483648) - (-2147483648) * 2147483647 :=
  (sum_term_no_overflow (mkSeg 1 (-2147483648) 2147483647 2 (-2147483648) (-2147483648))
    (by decide)).2.2.2

end ProtoRing

namespace typed_mmap

theorem wrapU64_of_lt (n : Nat) (h : n < 18446744073709551616) : wrapU64 n = n := by
  unfold wrapU64; omega

/-- C23: for a file of `n` bytes on which `fstat` succeeds and an object size
`k > 0`, `file_size` raises `std::length_error` exactly when `n` is not a
multiple of `k`, and otherwise returns `n / k`, which times `k` is `n`. -/
theorem file_size_spec (k n : Nat) (fd : File) (_hk : 0 < k)
    (hn : n ≤ 9223372036854775807) (hsize : fd.st_size = n) (hstat : fd.fstat_ok = true) :
    ((∃ what, file_size k fd = .error (.length_error what)) ↔ ¬ k ∣ n) ∧
    (k ∣ n → file_size k fd = .ok (n / k) ∧ n / k * k = n) := by
  have hw : wrapU64 fd.st_size = n := by rw [hsize]; exact wrapU64_of_lt n (by omega)
  unfold file_size
  rw [hw]
  simp only [hstat, Bool.true_eq_false, if_false]
  by_cases hd : k ∣ n
  · have hm : n % k = 0 := Nat.mod_eq_zero_of_dvd hd
    simp [hm, hd, Nat.div_mul_cancel hd]
  · have hm : n % k ≠ 0 := fun h => hd (Nat.dvd_of_mod_eq_zero h)
    simp [hm, hd]

theorem file_size_spec_witness :
    file_size 8 { st_size := 24 } = .ok (24 / 8) ∧ 24 / 8 * 8 = 24 :=
  (file_size_spec 8 24 { st_size := 24 } (by decide) (by decide) rfl rfl).2 (by decide)

/-- Without overflow of `sizeof(T) * new_size`, `grow_file` leaves a file that
is large enough unchanged and otherwise makes it `sizeof(T) * new_size` bytes
long. -/
theorem grow_file_of_no_overflow (k new_size n : Nat) (fd : File) (hk : 0 < k)
    (hn : n ≤ 9223372036854775807) (hsize : fd.st_size = n) (hdvd : k ∣ n)
    (hstat : fd.fstat_ok = true) (htrunc : fd.ftruncate_ok = true)
    (hprod : k * new_size ≤ 9223372036854775807) :
    (n / k ≥ new_size → grow_file k new_size fd = .ok fd) ∧
    (n / k < new_size → grow_file k new_size fd = .ok { fd with st_size := k * new_size }) ∧
    ∃ fd2, grow_file k new_size fd = .ok fd2 ∧ n ≤ fd2.st_size ∧ new_size * k ≤ fd2.st_size := by
  have hfs := ((file_size_spec k n fd hk hn hsize hstat).2 hdvd)
  have hcast : static_cast_with_assert_off_t (wrapU64 (k * new_size)) = some (k * new_size) := by
    rw [wrapU64_of_lt _ (by omega)]
    unfold static_cast_with_assert_off_t
    rw [if_pos hprod]
  have hge : n / k ≥ new_size → grow_file k new_size fd = .ok fd := by
    intro h
    unfold grow_file
    rw [hfs.1]
    simp only
    rw [if_neg (by omega)]
  have hlt : n / k < new_size →
      grow_file k new_size fd = .ok { fd with st_size := k * new_size } := by
    intro h
    unfold grow_file
    rw [hfs.1]
    simp only
    rw [if_pos h, hcast]
    simp [htrunc]
  refine ⟨hge, hlt, ?_⟩
  by_cases h : n / k < new_size
  · refine ⟨_, hlt h, ?_, ?_⟩
    · simp only
      have : n / k * k ≤ new_size * k := Nat.mul_le_mul_right k (Nat.le_of_lt h)
      rw [hfs.2] at this
      rw [Nat.mul_comm k new_size]; exact this
    · simp only; rw [Nat.mul_comm]
  · refine ⟨fd, hge (by omega), by omega, ?_⟩
    rw [hsize]
    have : new_size * k ≤ n / k * k := Nat.mul_le_mul_right k (by omega)
    rw [hfs.2] at this
    exact this

/-- C24 (the code at the failing input): with objects of 8 bytes, a file of 8
bytes holds 1 object; `grow_file` for `2^61` objects computes
`8 * 2^61 = 2^64` in `size_t`, which is 0, and truncates the file to 0
bytes. -/
theorem grow_file_shrinks :
    file_size 8 { st_size := 8 } = .ok 1 ∧
    grow_file 8 2305843009213693952 { st_size := 8 } = .ok { st_size := 0 } :=
  ⟨rfl, rfl⟩

end typed_mmap

namespace SparseMemTable

theorem assign_spec {V : Type} (dflt : V) (t : sparsetable V) (i : Nat) (v : V)
    (h : i < t.table_size) :
    ∃ t2, t.assign i v = some t2 ∧ t2.table_size = t.table_size ∧ t2.read dflt i = v := by
  refine ⟨{ t with assigned := (i, v) :: t.assigned.filter (fun e => decide (e.1 ≠ i)) },
    ?_, rfl, ?_⟩
  · unfold sparsetable.assign; rw [if_pos h]
  · simp [sparsetable.read, List.lookup]

/-- Without overflow of `id + m_grow_size` and with a grow size of at least 1,
`set` succeeds, the element can be read back, and the size is `id + m_grow_size`
after a resize and unchanged otherwise. -/
theorem set_of_no_overflow {V : Type} [DecidableEq V] (dflt empty : V) (t : SparseMemTable V)
    (id : Nat) (v : V) (hg : 1 ≤ t.m_grow_size)
    (hno : id + t.m_grow_size < 18446744073709551616) :
    ∃ t2, set t id v = some t2 ∧
      (v ≠ empty → get dflt empty t2 id = .ok v) ∧
      get_noexcept dflt empty t2 id = v ∧
      (size t ≤ id → size t2 = id + t.m_grow_size) ∧
      (id < size t → size t2 = size t) := by
  have hlt : id < (set_resize t id).m_elements.table_size := by
    unfold set_resize
    by_cases h : id ≥ t.m_elements.size
    · rw [if_pos h]
      simp only [sparsetable.resize, wrapU64]
      omega
    · rw [if_neg h]
      unfold sparsetable.size at h
      omega
  obtain ⟨e, he, hsz, hread⟩ := assign_spec dflt (set_resize t id).m_elements id v hlt
  refine ⟨{ set_resize t id with m_elements := e }, ?_, ?_, ?_, ?_, ?_⟩
  · unfold set; rw [he]
  · intro hv
    unfold get
    simp only [sparsetable.size, hsz, hread]
    rw [if_neg (by omega), if_neg hv]
  · unfold get_noexcept
    simp only [sparsetable.size, hsz, hread]
    rw [if_neg (by omega)]
  · intro h
    simp only [size, sparsetable.size, hsz] at h ⊢
    unfold set_resize
    rw [if_pos (by unfold sparsetable.size; omega)]
    simp only [sparsetable.resize, wrapU64]
    omega
  · intro h
    simp only [size, sparsetable.size, hsz] at h ⊢
    unfold set_resize
    rw [if_neg (by unfold sparsetable.size; omega)]

/-- C21 (the code at the failing input): in a table constructed with grow size
10000, `set(2^64 - 1, 7)` resizes to `2^64 - 1 + 10000` computed in 64 bits,
which is 9999, and the assignment to the element `2^64 - 1` then lies outside
the table: `set` has no defined result, and `get` on the resized table throws
`not_found`. -/
theorem set_get_max_id :
    (set_resize (create 10000 : SparseMemTable Nat) 18446744073709551615).m_elements.size
      = 9999 ∧
    set (create 10000 : SparseMemTable Nat) 18446744073709551615 7 = none ∧
    get 0 0 (set_resize (create 10000 : SparseMemTable Nat) 18446744073709551615)
      18446744073709551615 = .error 18446744073709551615 := by
  refine ⟨rfl, rfl, rfl⟩

/-- C22 (the code at the failing input): a table constructed with grow size
10000 has size 10000; the call `set(2^64 - 10000, 7)` finds the table out of
space and resizes it to `2^64 - 10000 + 10000` computed in 64 bits, which is
0: the size decreases. -/
theorem set_size_decreases :
    size (create 10000 : SparseMemTable Nat) = 10000 ∧
    size (set_resize (create 10000 : SparseMemTable Nat) 18446744073709541616) = 0 ∧
    set (create 10000 : SparseMemTable Nat) 18446744073709541616 7 = none := by
  refine ⟨rfl, rfl, rfl⟩

end SparseMemTable

namespace XML

theorem listHeaderOps_lawful : listHeaderOps.Lawful where
  get_set := by intro h k v; simp [listHeaderOps, List.lookup]
  get_set_other := by
    intro h k k2 v hne
    have : (k2 == k) = false := by simpa using hne
    simp [listHeaderOps, List.lookup, this]
  get_versions := by intro h b k; rfl
  get_add_box := by intro h a k; rfl

theorem check_root_attributes_error {H : Type} (ops : HeaderOps H) (attrs : Attrs)
    (hbad : ∃ nv ∈ attrs, nv.1 = "version" ∧ nv.2 ≠ "0.6") :
    ∀ h : H, ∃ v,
      check_attributes attrs (check_root_attribute ops) h
        = .error (.format_version_error (some v)) := by
  induction attrs with
  | nil => simp at hbad
  | cons a rest ih =>
    intro h
    obtain ⟨name, value⟩ := a
    unfold check_attributes
    by_cases hv : name = "version"
    · by_cases h06 : value = "0.6"
      · have hrest : ∃ nv ∈ rest, nv.1 = "version" ∧ nv.2 ≠ "0.6" := by
          obtain ⟨nv, hmem, hn, hval⟩ := hbad
          rcases List.mem_cons.mp hmem with heq | hmem
          · subst heq; exact absurd h06 hval
          · exact ⟨nv, hmem, hn, hval⟩
        simp only [check_root_attribute, hv, h06, if_true, ne_eq, not_true_eq_false, if_false]
        exact ih hrest _
      · exact ⟨value, by simp [check_root_attribute, hv, h06]⟩
    · have hrest : ∃ nv ∈ rest, nv.1 = "version" ∧ nv.2 ≠ "0.6" := by
        obtain ⟨nv, hmem, hn, hval⟩ := hbad
        rcases List.mem_cons.mp hmem with heq | hmem
        · subst heq; exact absurd hn hv
        · exact ⟨nv, hmem, hn, hval⟩
      by_cases hgen : name = "generator"
      · simp only [check_root_attribute, hv, hgen, if_false, if_true]
        exact ih hrest _
      · simp only [check_root_attribute, hv, hgen, if_false]
        exact ih hrest _

theorem check_root_attributes_ok {H : Type} (ops : HeaderOps H) (hops : ops.Lawful)
    (attrs : Attrs) (hgood : ∀ nv ∈ attrs, nv.1 = "version" → nv.2 = "0.6") :
    ∀ h : H, ∃ h1,
      check_attributes attrs (check_root_attribute ops) h = .ok h1 ∧
      ((∃ nv ∈ attrs, nv.1 = "version") → ops.get h1 "version" = "0.6") ∧
      ((∀ nv ∈ attrs, nv.1 ≠ "version") → ops.get h1 "version" = ops.get h "version") := by
  induction attrs with
  | nil => intro h; exact ⟨h, rfl, by simp, by simp⟩
  | cons a rest ih =>
    intro h
    obtain ⟨name, value⟩ := a
    have hrest : ∀ nv ∈ rest, nv.1 = "version" → nv.2 = "0.6" :=
      fun nv hmem => hgood nv (List.mem_cons_of_mem _ hmem)
    unfold check_attributes
    by_cases hv : name = "version"
    · have h06 : value = "0.6" := hgood (name, value) (List.mem_cons_self _ _) hv
      simp only [check_root_attribute, hv, h06, if_true, ne_eq, not_true_eq_false, if_false]
      obtain ⟨h1, hok, hex, hnone⟩ := ih hrest (ops.set h "version" "0.6")
      refine ⟨h1, hok, ?_, ?_⟩
      · intro _
        by_cases hex2 : ∃ nv ∈ rest, nv.1 = "version"
        · exact hex hex2
        · have : ∀ nv ∈ rest, nv.1 ≠ "version" := by
            intro nv hmem hn; exact hex2 ⟨nv, hmem, hn⟩
          rw [hnone this, hops.get_set]
      · intro hall
        exact absurd rfl (hall _ (List.mem_cons_self _ _))
    · by_cases hgen : name = "generator"
      · simp only [check_root_attribute, hv, hgen, if_false, if_true]
        obtain ⟨h1, hok, hex, hnone⟩ := ih hrest (ops.set h "generator" value)
        refine ⟨h1, hok, ?_, ?_⟩
        · rintro ⟨nv, hmem, hn⟩
          rcases List.mem_cons.mp hmem with heq | hmem
          · subst heq
            have hgv : ("generator" : String) ≠ "version" := by decide
            exact absurd hn hgv
          · exact hex ⟨nv, hmem, hn⟩
        · intro hall
          rw [hnone (fun nv hmem => hall nv (List.mem_cons_of_mem _ hmem)),
            hops.get_set_other _ _ _ _ (by decide)]
      · simp only [check_root_attribute, hv, hgen, if_false]
        obtain ⟨h1, hok, hex, hnone⟩ := ih hrest h
        refine ⟨h1, hok, ?_, ?_⟩
        · rintro ⟨nv, hmem, hn⟩
          rcases List.mem_cons.mp hmem with heq | hmem
          · subst heq; exact absurd hn hv
          · exact hex ⟨nv, hmem, hn⟩
        · intro hall
          exact hnone (fun nv hmem => hall nv (List.mem_cons_of_mem _ hmem))

/-- C25 (amended): a `start_element` event in the context `root`. For the
element names `osm` and `osmChange` it raises `format_version_error` if the
attributes contain a `version` attribute whose value is not `0.6`, and also if
they contain no `version` attribute and the header holds no version (as at the
first element of a document); if they contain no `version` attribute and the
header already holds a version, and if they contain `version` attributes that
all have the value `0.6`, it moves the parser to the context `top`. Every
other element name raises `xml_error`. -/
theorem start_element_root {H : Type} (ops : HeaderOps H) (hops : ops.Lawful) (ext : External)
    (p : XMLParser H) (element : String) (attrs : Attrs)
    (hctx : p.m_context = .root) :
    ((element = "osm" ∨ element = "osmChange") →
      ((∃ nv ∈ attrs, nv.1 = "version" ∧ nv.2 ≠ "0.6") →
        ∃ v, start_element ops ext p element attrs
          = .error (.format_version_error (some v))) ∧
      ((∀ nv ∈ attrs, nv.1 ≠ "version") → ops.get p.m_header "version" = "" →
        start_element ops ext p element attrs = .error (.format_version_error none)) ∧
      ((∀ nv ∈ attrs, nv.1 ≠ "version") → ops.get p.m_header "version" ≠ "" →
        ∃ p2, start_element ops ext p element attrs = .ok p2 ∧ p2.m_context = .top) ∧
      (¬ ((∀ nv ∈ attrs, nv.1 ≠ "version") ∨
            (∃ nv ∈ attrs, nv.1 = "version" ∧ nv.2 ≠ "0.6")) →
        ∃ p2, start_element ops ext p element attrs = .ok p2 ∧ p2.m_context = .top)) ∧
    (¬ (element = "osm" ∨ element = "osmChange") →
      ∃ m, start_element ops ext p element attrs = .error (.xml_error m)) := by
  have hkeepver : ops.get
      (if element = "osmChange" then ops.set_has_multiple_object_versions p.m_header true
        else p.m_header) "version" = ops.get p.m_header "version" := by
    split_ifs
    · rw [hops.get_versions]
    · rfl
  refine ⟨fun hel => ⟨?_, ?_, ?_, ?_⟩, ?_⟩
  · intro hbad
    unfold start_element
    rw [hctx]
    simp only [hel, if_true]
    obtain ⟨v, hv⟩ := check_root_attributes_error ops attrs hbad
      (if element = "osmChange" then ops.set_has_multiple_object_versions p.m_header true
        else p.m_header)
    exact ⟨v, by rw [hv]⟩
  · intro hnone hfresh
    have hgood : ∀ nv ∈ attrs, nv.1 = "version" → nv.2 = "0.6" :=
      fun nv hmem hn => absurd hn (hnone nv hmem)
    obtain ⟨h1, hok, _, hkeep⟩ := check_root_attributes_ok ops hops attrs hgood
      (if element = "osmChange" then ops.set_has_multiple_object_versions p.m_header true
        else p.m_header)
    have hver : ops.get h1 "version" = "" := by
      rw [hkeep hnone, hkeepver]; exact hfresh
    unfold start_element
    rw [hctx]
    simp only [hel, if_true]
    rw [hok]
    simp [hver]
  · intro hnone hstored
    have hgood : ∀ nv ∈ attrs, nv.1 = "version" → nv.2 = "0.6" :=
      fun nv hmem hn => absurd hn (hnone nv hmem)
    obtain ⟨h1, hok, _, hkeep⟩ := check_root_attributes_ok ops hops attrs hgood
      (if element = "osmChange" then ops.set_has_multiple_object_versions p.m_header true
        else p.m_header)
    have hver : ops.get h1 "version" ≠ "" := by
      rw [hkeep hnone, hkeepver]; exact hstored
    unfold start_element
    rw [hctx]
    simp only [hel, if_true]
    exact ⟨{ p with m_header := h1, m_context := .top }, by rw [hok]; simp [hver], rfl⟩
  · intro hcase
    have hex : ∃ nv ∈ attrs, nv.1 = "version" := by
      by_contra hno
      exact hcase (Or.inl (fun nv hmem hn => hno ⟨nv, hmem, hn⟩))
    have hgood : ∀ nv ∈ attrs, nv.1 = "version" → nv.2 = "0.6" := by
      intro nv hmem hn
      by_contra hne
      exact hcase (Or.inr ⟨nv, hmem, hn, hne⟩)
    unfold start_element
    rw [hctx]
    simp only [hel, if_true]
    obtain ⟨h1, hok, hset, _⟩ := check_root_attributes_ok ops hops attrs hgood
      (if element = "osmChange" then ops.set_has_multiple_object_versions p.m_header true
        else p.m_header)
    have hver : ops.get h1 "version" ≠ "" := by rw [hset hex]; decide
    exact ⟨{ p with m_header := h1, m_context := .top }, by rw [hok]; simp [hver], rfl⟩
  · intro hel
    unfold start_element
    rw [hctx]
    exact ⟨"Unknown top-level element: " ++ element, by simp only [hel, if_false]⟩

theorem start_element_root_witness :
    (∃ p2, start_element listHeaderOps { char_to_item_type := fun _ => item_type.undefined }
        (initial {}) "osm" [("version", "0.6"), ("generator", "JOSM")] = .ok p2 ∧
      p2.m_context = .top) ∧
    start_element listHeaderOps { char_to_item_type := fun _ => item_type.undefined }
        (initial {}) "osm" [("generator", "JOSM")] = .error (.format_version_error none) :=
  have h := (start_element_root listHeaderOps listHeaderOps_lawful
      { char_to_item_type := fun _ => item_type.undefined } (initial {}) "osm"
      [("version", "0.6"), ("generator", "JOSM")] rfl).1 (Or.inl rfl)
  have h2 := (start_element_root listHeaderOps listHeaderOps_lawful
      { char_to_item_type := fun _ => item_type.undefined } (initial {}) "osm"
      [("generator", "JOSM")] rfl).1 (Or.inl rfl)
  ⟨h.2.2.2 (by decide), h2.2.1 (by decide) rfl⟩

/-- C25 (as stated) fails: after the events of
`<osm version="0.6"><osm/>` the parser is in the context `root` again with the
version stored in the header (the end of the inner `osm` element is handled in
the context `top`), and a `start_element` event for `osm` without a `version`
attribute raises nothing and moves the parser to the context `top`. -/
theorem start_element_root_accepts_missing_version :
    ∃ p, run listHeaderOps readAll (initial {})
        [.start_element "osm" [("version", "0.6")], .start_element "osm" [],
          .end_element "osm"] = .ok p ∧
      p.m_context = .root ∧
      ∃ p2, start_element listHeaderOps readAll p "osm" [] = .ok p2 ∧ p2.m_context = .top :=
  ⟨_, rfl, rfl, _, rfl, rfl⟩

end XML

namespace memory

/-- One pass of the loop of `update_buffer` in terms of `read()`. -/
theorem update_buffer_read {Item : Type} (src : Source Item) :
    Iterator.update_buffer src.pending
      = if src.read.1.valid = false then Iterator.end_iterator
        else if src.read.1.items.length = 0 then Iterator.update_buffer src.read.2.pending
        else { m_source := some src.read.2, m_buffer := some src.read.1, m_iter := some 0 } := by
  obtain ⟨pending⟩ := src
  cases pending with
  | nil => simp [Iterator.update_buffer, Source.read]
  | cons b rest => simp [Iterator.update_buffer, Source.read]

theorem visit_end {Item : Type} (fuel : Nat) :
    Iterator.visit (fuel + 1) (Iterator.end_iterator : Iterator Item) = some [] := by
  simp [Iterator.visit, Iterator.equals_end, Iterator.end_iterator]

theorem visit_in_buffer {Item : Type} (b : Buffer Item) (rest : List (Buffer Item))
    (hrest : ∀ fuel, (all_items rest).length < fuel →
      Iterator.visit fuel (Iterator.update_buffer rest) = some (all_items rest)) :
    ∀ (k i fuel : Nat), i + k = b.items.length → 0 < k →
      k + (all_items rest).length < fuel →
      Iterator.visit fuel
          { m_source := some { pending := rest }, m_buffer := some b, m_iter := some i }
        = some (b.items.drop i ++ all_items rest) := by
  intro k
  induction k with
  | zero => intro i fuel _ h0; omega
  | succ k ih =>
    intro i fuel hik _ hfuel
    have hi : i < b.items.length := by omega
    cases fuel with
    | zero => omega
    | succ fuel =>
      have hdrop : b.items.drop i = b.items[i] :: b.items.drop (i + 1) :=
        List.drop_eq_getElem_cons hi
      unfold Iterator.visit
      simp only [Iterator.equals_end, Option.isNone_some, Bool.false_and, Bool.and_false,
        Bool.false_eq_true, if_false, Iterator.deref, Iterator.increment,
        List.getElem?_eq_getElem hi, if_pos hi]
      by_cases hlast : i + 1 = b.items.length
      · rw [if_pos hlast]
        simp only
        rw [hrest fuel (by omega), hdrop]
        have : b.items.drop (i + 1) = [] := by
          rw [List.drop_eq_nil_iff]; omega
        rw [this]; rfl
      · rw [if_neg hlast]
        simp only
        rw [ih (i + 1) fuel (by omega) (by omega) (by omega), hdrop]
        rfl

theorem visit_update_buffer {Item : Type} (bs : List (Buffer Item))
    (hvalid : ∀ b ∈ bs, b.valid = true) :
    ∀ fuel, (all_items bs).length < fuel →
      Iterator.visit fuel (Iterator.update_buffer bs) = some (all_items bs) := by
  induction bs with
  | nil =>
    intro fuel hfuel
    cases fuel with
    | zero => omega
    | succ fuel => exact visit_end fuel
  | cons b rest ih =>
    intro fuel hfuel
    have hb : b.valid = true := hvalid b (List.mem_cons_self _ _)
    have hrest := ih (fun c hc => hvalid c (List.mem_cons_of_mem _ hc))
    simp only [all_items, List.length_append] at hfuel
    unfold Iterator.update_buffer
    simp only [hb, Bool.true_eq_false, if_false]
    by_cases hempty : b.items.length = 0
    · rw [if_pos hempty]
      have : b.items = [] := List.length_eq_zero.mp hempty
      simp only [all_items, this, List.nil_append]
      exact hrest fuel (by omega)
    · rw [if_neg hempty]
      have := visit_in_buffer b rest hrest b.items.length 0 fuel (by omega) (by omega)
        (by omega)
      simpa [all_items] using this

theorem update_buffer_rests_on_item {Item : Type} (bs : List (Buffer Item)) :
    (Iterator.update_buffer bs).rests_on_item := by
  induction bs with
  | nil => left; rfl
  | cons b rest ih =>
    unfold Iterator.update_buffer
    by_cases hb : b.valid = false
    · rw [if_pos hb]; left; rfl
    · rw [if_neg hb]
      by_cases hempty : b.items.length = 0
      · rw [if_pos hempty]; exact ih
      · rw [if_neg hempty]
        right
        exact ⟨b, 0, rfl, rfl, by omega⟩

theorem increment_rests_on_item {Item : Type} (it next : Iterator Item)
    (h : it.increment = some next) : next.rests_on_item := by
  unfold Iterator.increment at h
  split at h
  · rename_i source buffer i hs hb hi
    split_ifs at h with h1 h2
    · simp only [Option.some.injEq] at h
      rw [← h]; exact update_buffer_rests_on_item _
    · simp only [Option.some.injEq] at h
      rw [← h]
      right
      exact ⟨buffer, i + 1, hb, rfl, by omega⟩
  · exact absurd h (by simp)

theorem advance_rests_on_item {Item : Type} :
    ∀ (k : Nat) (it next : Iterator Item), it.rests_on_item →
      Iterator.advance k it = some next → next.rests_on_item := by
  intro k
  induction k with
  | zero =>
    intro it next hit h
    simp only [Iterator.advance, Option.some.injEq] at h
    rw [← h]; exact hit
  | succ k ih =>
    intro it next _ h
    unfold Iterator.advance at h
    split at h
    · rename_i nx hnx
      exact ih nx next (increment_rests_on_item it nx hnx) h
    · exact absurd h (by simp)

/-- C26: for a source that returns the valid buffers `b_1, ..., b_n` and then an
invalid buffer, the loop from `Iterator(source)` to the end iterator ends and
visits exactly the items of `b_1, ..., b_n`, in order, each once (buffers
without items contribute nothing); and every iterator reached by `operator++`
is the end iterator or rests on an item, never on a buffer's end position. -/
theorem iterator_visits_all_items {Item : Type} (source : Source Item)
    (hvalid : ∀ b ∈ source.pending, b.valid = true) :
    (∀ fuel, (all_items source.pending).length < fuel →
      Iterator.visit fuel (Iterator.create source) = some (all_items source.pending)) ∧
    (∀ k next, Iterator.advance k (Iterator.create source) = some next →
      next.rests_on_item) :=
  ⟨visit_update_buffer source.pending hvalid,
   fun k next h =>
    advance_rests_on_item k _ next (update_buffer_rests_on_item source.pending) h⟩

theorem iterator_visits_all_items_witness :
    Iterator.visit 4
        (Iterator.create
          { pending := [⟨true, [1, 2]⟩, ⟨true, []⟩, ⟨true, [3]⟩] } : Iterator Nat)
      = some [1, 2, 3] :=
  (iterator_visits_all_items { pending := [⟨true, [1, 2]⟩, ⟨true, []⟩, ⟨true, [3]⟩] }
    (by decide)).1 4 (by decide)

end memory

/-- C27: the order of locations is lexicographic on the fixed-point
coordinates, `x` before `y`: `a < b` exactly when `a.x < b.x`, or `a.x = b.x`
and `a.y < b.y`, and `a > b` exactly when `b < a`; the five comparisons of the
test hold, among them `(10.2, 20.2) < (11.2, 20.0)`. -/
theorem location_order_lexicographic (a b : Location) :
    (Location.lt a b = true ↔ (a.x < b.x ∨ (a.x = b.x ∧ a.y < b.y))) ∧
    (Location.gt a b = true ↔ Location.lt b a = true) ∧
    Location.lt ⟨-12000000, 100000000⟩ ⟨12000000, 100000000⟩ = true ∧
    Location.gt ⟨12000000, 100000000⟩ ⟨-12000000, 100000000⟩ = true ∧
    Location.lt ⟨102000000, 200000000⟩ ⟨112000000, 202000000⟩ = true ∧
    Location.lt ⟨102000000, 202000000⟩ ⟨112000000, 200000000⟩ = true ∧
    Location.gt ⟨112000000, 202000000⟩ ⟨102000000, 200000000⟩ = true := by
  refine ⟨?_, Iff.rfl, by decide, by decide, by decide, by decide, by decide⟩
  unfold Location.lt
  simp only [Bool.or_eq_true, Bool.and_eq_true, beq_iff_eq, decide_eq_true_eq]
  omega

namespace detail

/-! ## Conversion of coordinates from and to strings -/

theorem is_digit_iff (c : Char) : is_digit c = true ↔ 48 ≤ c.toNat ∧ c.toNat ≤ 57 := by
  simp [is_digit]

theorem wrap32_nat (n : Nat) (h : n ≤ 2147483647) : wrap32 (n : Int) = (n : Int) := by
  unfold wrap32; omega

/-- The value accumulated from `result` by reading the digits `l`. -/
theorem foldl_digits (l : List Char) :
    ∀ result : Nat,
      l.foldl (fun acc c => acc * 10 + (c.toNat - 48)) result
        = result * 10 ^ l.length + digits_value l := by
  induction l using List.reverseRecOn with
  | nil => intro result; simp [digits_value]
  | append_singleton l c ih =>
    intro result
    have h0 := ih 0
    simp only [zero_mul, zero_add] at h0
    unfold digits_value
    rw [List.foldl_append, List.foldl_append, ih result]
    simp only [List.foldl_cons, List.foldl_nil, List.length_append, List.length_singleton]
    rw [h0]
    unfold digits_value
    ring

theorem digits_value_append (a b : List Char) :
    digits_value (a ++ b) = digits_value a * 10 ^ b.length + digits_value b := by
  unfold digits_value
  rw [List.foldl_append, foldl_digits b]
  rfl

theorem digits_value_cons (c : Char) (l : List Char) :
    digits_value (c :: l) = (c.toNat - 48) * 10 ^ l.length + digits_value l := by
  have h := digits_value_append [c] l
  simpa [digits_value] using h

theorem digits_value_lt (l : List Char) (hd : ∀ c ∈ l, is_digit c = true) :
    digits_value l < 10 ^ l.length := by
  induction l using List.reverseRecOn with
  | nil => simp [digits_value]
  | append_singleton l c ih =>
    have hc := (is_digit_iff c).mp (hd c (by simp))
    have hl := ih (fun x hx => hd x (by simp [hx]))
    have h1 : digits_value [c] = c.toNat - 48 := by simp [digits_value]
    rw [digits_value_append, h1]
    simp only [List.length_singleton, pow_one, List.length_append]
    rw [pow_succ]
    omega

theorem read_significant_spec (fracs : List Char) (hd : ∀ c ∈ fracs, is_digit c = true) :
    ∀ (scale result : Nat),
      result * 10 ^ (fracs.take scale).length + digits_value (fracs.take scale) ≤ 2147483647 →
      read_significant scale (result : Int) fracs
        = (((result * 10 ^ (fracs.take scale).length + digits_value (fracs.take scale) : Nat)
              : Int),
            scale - (fracs.take scale).length, fracs.drop scale) := by
  induction fracs with
  | nil =>
    intro scale result _
    cases scale <;> simp [read_significant, digits_value]
  | cons c rest ih =>
    intro scale result hb
    cases scale with
    | zero => simp [read_significant, digits_value]
    | succ scale =>
      have hc := (is_digit_iff c).mp (hd c (List.mem_cons_self _ _))
      have hcd : is_digit c = true := hd c (List.mem_cons_self _ _)
      simp only [List.take_succ_cons, List.length_cons, digits_value_cons] at hb
      have hpos : 0 < 10 ^ (List.take scale rest).length := Nat.pos_pow_of_pos _ (by decide)
      have hexp : result * 10 ^ ((List.take scale rest).length + 1)
            + ((c.toNat - 48) * 10 ^ (List.take scale rest).length
                + digits_value (List.take scale rest))
          = (result * 10 + (c.toNat - 48)) * 10 ^ (List.take scale rest).length
              + digits_value (List.take scale rest) := by
        rw [pow_succ]; ring
      rw [hexp] at hb
      have hsmall : result * 10 + (c.toNat - 48) ≤ 2147483647 := by
        have : result * 10 + (c.toNat - 48)
            ≤ (result * 10 + (c.toNat - 48)) * 10 ^ (List.take scale rest).length :=
          Nat.le_mul_of_pos_right _ hpos
        omega
      have hstep : wrap32 (wrap32 ((result : Int) * 10) + digit_value c)
          = ((result * 10 + (c.toNat - 48) : Nat) : Int) := by
        unfold digit_value wrap32
        omega
      unfold read_significant
      rw [if_pos hcd, hstep, ih (fun x hx => hd x (List.mem_cons_of_mem _ hx)) scale _ hb]
      simp only [List.take_succ_cons, List.length_cons, digits_value_cons, List.drop_succ_cons,
        Nat.add_sub_add_right, hexp]

theorem scale_up_spec : ∀ (scale result : Nat), result * 10 ^ scale ≤ 2147483647 →
    scale_up scale (result : Int) = ((result * 10 ^ scale : Nat) : Int) := by
  intro scale
  induction scale with
  | zero => intro result _; simp [scale_up]
  | succ scale ih =>
    intro result hb
    have hpos : 0 < 10 ^ scale := Nat.pos_pow_of_pos _ (by decide)
    have hexp : result * 10 ^ (scale + 1) = (result * 10) * 10 ^ scale := by
      rw [pow_succ]; ring
    rw [hexp] at hb
    have hsmall : result * 10 ≤ 2147483647 := by
      have : result * 10 ≤ (result * 10) * 10 ^ scale := Nat.le_mul_of_pos_right _ hpos
      omega
    have hstep : wrap32 ((result : Int) * 10) = ((result * 10 : Nat) : Int) := by
      unfold wrap32; omega
    unfold scale_up
    rw [hstep, ih _ hb, hexp]

theorem is_digit_not_point (c : Char) (h : is_digit c = true) : c ≠ '.' := by
  rintro rfl; revert h; decide

theorem is_digit_not_minus (c : Char) (h : is_digit c = true) : c ≠ '-' := by
  rintro rfl; revert h; decide

theorem digit_value_nat (c : Char) (h : is_digit c = true) :
    digit_value c = ((c.toNat - 48 : Nat) : Int) ∧ c.toNat - 48 ≤ 9 := by
  have hc := (is_digit_iff c).mp h
  unfold digit_value
  omega

theorem digits_value_one (c1 : Char) : digits_value [c1] = c1.toNat - 48 := by
  simp only [digits_value, List.foldl_cons, List.foldl_nil, zero_mul, zero_add]

theorem digits_value_two (c1 c2 : Char) :
    digits_value [c1, c2] = (c1.toNat - 48) * 10 + (c2.toNat - 48) := by
  simp only [digits_value, List.foldl_cons, List.foldl_nil, zero_mul, zero_add]

theorem digits_value_three (c1 c2 c3 : Char) :
    digits_value [c1, c2, c3]
      = ((c1.toNat - 48) * 10 + (c2.toNat - 48)) * 10 + (c3.toNat - 48) := by
  simp only [digits_value, List.foldl_cons, List.foldl_nil, zero_mul, zero_add]

theorem read_more_nil (result : Int) : read_more_integer_digits result [] = (result, []) := rfl

theorem read_more_no_digit (result : Int) (c : Char) (rest : List Char)
    (hc : is_digit c = false) :
    read_more_integer_digits result (c :: rest) = (result, c :: rest) := by
  simp only [read_more_integer_digits, hc, Bool.false_eq_true, if_false]

theorem read_more_one_nil (result : Int) (c2 : Char) (h2 : is_digit c2 = true) :
    read_more_integer_digits result [c2]
      = (wrap32 (wrap32 (result * 10) + digit_value c2), []) := by
  simp only [read_more_integer_digits, h2, if_true]

theorem read_more_one_no_digit (result : Int) (c2 c : Char) (rest : List Char)
    (h2 : is_digit c2 = true) (hc : is_digit c = false) :
    read_more_integer_digits result (c2 :: c :: rest)
      = (wrap32 (wrap32 (result * 10) + digit_value c2), c :: rest) := by
  simp only [read_more_integer_digits, h2, hc, if_true, Bool.false_eq_true, if_false]

theorem read_more_two (result : Int) (c2 c3 : Char) (rest : List Char)
    (h2 : is_digit c2 = true) (h3 : is_digit c3 = true) :
    read_more_integer_digits result (c2 :: c3 :: rest)
      = (wrap32 (wrap32 (wrap32 (wrap32 (result * 10) + digit_value c2) * 10)
          + digit_value c3), rest) := by
  simp only [read_more_integer_digits, h2, h3, if_true]

theorem wrap32_step (a b : Nat) (ha : a ≤ 99999999) (hb : b ≤ 9) :
    wrap32 (wrap32 ((a : Int) * 10) + (b : Int)) = ((a * 10 + b : Nat) : Int) := by
  have h1 : wrap32 ((a : Int) * 10) = ((a * 10 : Nat) : Int) := by
    rw [← wrap32_nat (a * 10) (by omega)]; push_cast; rfl
  rw [h1, ← wrap32_nat (a * 10 + b) (by omega)]; push_cast; rfl

/-- The optional second and third digit: at most two further digits `more`
are read when what follows is the end of the string or no digit. -/
theorem read_more_integer_digits_spec (c1 : Char) (more rest : List Char)
    (h1 : is_digit c1 = true) (hmore : ∀ c ∈ more, is_digit c = true)
    (hlen : more.length ≤ 2) (hrest : ∀ c, rest.head? = some c → is_digit c = false) :
    read_more_integer_digits (digit_value c1) (more ++ rest)
      = (((digits_value (c1 :: more) : Nat) : Int), rest) := by
  have hd1 := digit_value_nat c1 h1
  cases more with
  | nil =>
    rw [digits_value_one, ← hd1.1]
    cases rest with
    | nil => rfl
    | cons c rest => exact read_more_no_digit _ c rest (hrest c rfl)
  | cons c2 more =>
    have h2 : is_digit c2 = true := hmore c2 (List.mem_cons_self _ _)
    have hd2 := digit_value_nat c2 h2
    have hv2 : wrap32 (wrap32 (digit_value c1 * 10) + digit_value c2)
        = ((digits_value [c1, c2] : Nat) : Int) := by
      rw [digits_value_two, hd1.1, hd2.1]
      exact wrap32_step _ _ (by omega) hd2.2
    cases more with
    | nil =>
      rw [← hv2]
      cases rest with
      | nil => exact read_more_one_nil _ c2 h2
      | cons c rest => exact read_more_one_no_digit _ c2 c rest h2 (hrest c rfl)
    | cons c3 more =>
      have h3 : is_digit c3 = true :=
        hmore c3 (List.mem_cons_of_mem _ (List.mem_cons_self _ _))
      have hd3 := digit_value_nat c3 h3
      cases more with
      | nil =>
        have hv3 : wrap32 (wrap32 (wrap32 (wrap32 (digit_value c1 * 10) + digit_value c2) * 10)
              + digit_value c3)
            = ((digits_value [c1, c2, c3] : Nat) : Int) := by
          rw [hv2, digits_value_three, digits_value_two, hd3.1]
          exact wrap32_step _ _ (by omega) hd3.2
        rw [← hv3]
        exact read_more_two _ c2 c3 rest h2 h3
      | cons c4 more =>
        simp only [List.length_cons] at hlen; omega

theorem parse_unsigned_of_integer (sign : Int) (c1 : Char) (str1 : List Char) (result : Int)
    (h1 : is_digit c1 = true)
    (hr : read_more_integer_digits (digit_value c1) str1 = (result, [])) :
    parse_unsigned sign (c1 :: str1) = some (wrap32 (scale_up 7 result * sign)) := by
  simp only [parse_unsigned, h1, hr, Bool.true_eq_false, if_false]

theorem parse_unsigned_of_point (sign : Int) (c1 : Char) (str1 str4 str5 str6 : List Char)
    (result r5 r6 : Int) (scale : Nat) (h1 : is_digit c1 = true)
    (hr : read_more_integer_digits (digit_value c1) str1 = (result, '.' :: str4))
    (hs : read_significant 7 result str4 = (r5, scale, str5))
    (hro : round_eighth r5 scale str5 = (r6, str6))
    (hdw : str6.dropWhile is_digit = []) :
    parse_unsigned sign (c1 :: str1) = some (wrap32 (scale_up scale r6 * sign)) := by
  simp only [parse_unsigned, h1, hr, hs, hro, hdw, Bool.true_eq_false, if_false, ne_eq,
    not_true_eq_false]

theorem parse_unsigned_of_other (sign : Int) (c1 c : Char) (str1 str4 : List Char)
    (result : Int) (hc : c ≠ '.')
    (hr : read_more_integer_digits (digit_value c1) str1 = (result, c :: str4)) :
    parse_unsigned sign (c1 :: str1) = none := by
  by_cases h1 : is_digit c1 = true
  · simp only [parse_unsigned, h1, hr, Bool.true_eq_false, if_false, ne_eq, hc,
      not_false_eq_true, if_true]
  · simp only [parse_unsigned, Bool.not_eq_true] at h1 ⊢
    simp only [h1, if_true]

theorem parse_unsigned_no_digit (sign : Int) (c1 : Char) (str1 : List Char)
    (h1 : is_digit c1 = false) : parse_unsigned sign (c1 :: str1) = none := by
  simp only [parse_unsigned, h1, if_true]

theorem wrap32_mul_sign (n : Nat) (h : n ≤ 2147483647) (sign : Int)
    (hs : sign = 1 ∨ sign = -1) : wrap32 ((n : Int) * sign) = sign * (n : Int) := by
  rcases hs with rfl | rfl <;> unfold wrap32 <;> omega

theorem dropWhile_digits (l : List Char) (h : ∀ c ∈ l, is_digit c = true) :
    l.dropWhile is_digit = [] := by
  rw [List.dropWhile_eq_nil_iff]; exact h

/-- Digits only: the conversion gives the number times `10^7`. -/
theorem parse_unsigned_integer (sign : Int) (hsign : sign = 1 ∨ sign = -1) (c1 : Char)
    (more : List Char) (h1 : is_digit c1 = true) (hmore : ∀ c ∈ more, is_digit c = true)
    (hlen : more.length ≤ 2) (hrange : scaled_value (c1 :: more) [] ≤ 2147483647) :
    parse_unsigned sign (c1 :: more)
      = some (sign * ((scaled_value (c1 :: more) [] : Nat) : Int)) := by
  have hr := read_more_integer_digits_spec c1 more [] h1 hmore hlen
    (fun c hc => by simp at hc)
  rw [List.append_nil] at hr
  have hv : scaled_value (c1 :: more) [] = digits_value (c1 :: more) * 10 ^ 7 := by
    simp [scaled_value, digits_value]
  rw [hv] at hrange ⊢
  rw [parse_unsigned_of_integer sign c1 more _ h1 hr, scale_up_spec 7 _ hrange,
    wrap32_mul_sign _ hrange sign hsign]

/-- Digits, a decimal point and digits: the conversion gives `scaled_value`. -/
theorem parse_unsigned_fraction (sign : Int) (hsign : sign = 1 ∨ sign = -1) (c1 : Char)
    (more fracs : List Char) (h1 : is_digit c1 = true)
    (hmore : ∀ c ∈ more, is_digit c = true) (hlen : more.length ≤ 2)
    (hfracs : ∀ c ∈ fracs, is_digit c = true)
    (hrange : scaled_value (c1 :: more) fracs ≤ 2147483647) :
    parse_unsigned sign (c1 :: (more ++ '.' :: fracs))
      = some (sign * ((scaled_value (c1 :: more) fracs : Nat) : Int)) := by
  have hr := read_more_integer_digits_spec c1 more ('.' :: fracs) h1 hmore hlen
    (fun c hc => by
      simp only [List.head?_cons, Option.some.injEq] at hc
      subst hc; decide)
  have hpos : 0 < 10 ^ (7 - (fracs.take 7).length) := Nat.pos_pow_of_pos _ (by decide)
  cases hdrop : fracs.drop 7 with
  | nil =>
    have hv : scaled_value (c1 :: more) fracs
        = (digits_value (c1 :: more) * 10 ^ (fracs.take 7).length
            + digits_value (fracs.take 7)) * 10 ^ (7 - (fracs.take 7).length) := by
      simp only [scaled_value, hdrop, add_zero]
    rw [hv] at hrange ⊢
    have hN : digits_value (c1 :: more) * 10 ^ (fracs.take 7).length
        + digits_value (fracs.take 7) ≤ 2147483647 :=
      le_trans (Nat.le_mul_of_pos_right _ hpos) hrange
    have hs := read_significant_spec fracs hfracs 7 (digits_value (c1 :: more)) hN
    rw [hdrop] at hs
    rw [parse_unsigned_of_point sign c1 _ fracs [] [] _ _ _ _ h1 hr hs rfl rfl,
      scale_up_spec _ _ hrange, wrap32_mul_sign _ hrange sign hsign]
  | cons d rest =>
    have hlen7 : (fracs.take 7).length = 7 := by
      have : 7 < fracs.length := by
        by_contra hcon
        rw [List.drop_eq_nil_of_le (by omega)] at hdrop
        exact List.noConfusion hdrop
      rw [List.length_take]; omega
    have hsub : ∀ c ∈ d :: rest, is_digit c = true := by
      intro c hc
      rw [← hdrop] at hc
      exact hfracs c (List.mem_of_mem_drop hc)
    have hd := (is_digit_iff d).mp (hsub d (List.mem_cons_self _ _))
    have hv : scaled_value (c1 :: more) fracs
        = (digits_value (c1 :: more) * 10 ^ 7 + digits_value (fracs.take 7))
            + (if 53 ≤ d.toNat then 1 else 0) := by
      simp only [scaled_value, hdrop, hlen7, Nat.sub_self, pow_zero, mul_one]
    rw [hv] at hrange ⊢
    have hN : digits_value (c1 :: more) * 10 ^ (fracs.take 7).length
        + digits_value (fracs.take 7) ≤ 2147483647 := by
      rw [hlen7]; omega
    have hs := read_significant_spec fracs hfracs 7 (digits_value (c1 :: more)) hN
    rw [hdrop, hlen7] at hs
    by_cases h5 : 53 ≤ d.toNat
    · rw [if_pos h5] at hrange ⊢
      have hro : round_eighth
          ((digits_value (c1 :: more) * 10 ^ 7 + digits_value (fracs.take 7) : Nat) : Int)
          (7 - 7) (d :: rest)
          = (((digits_value (c1 :: more) * 10 ^ 7 + digits_value (fracs.take 7) + 1 : Nat)
              : Int), rest) := by
        have hw := wrap32_nat _ hrange
        simp only [round_eighth, Nat.sub_self, true_and, h5, hd.2, and_self, if_true]
        rw [← hw]; push_cast; rfl
      rw [parse_unsigned_of_point sign c1 _ fracs _ rest _ _ _ _ h1 hr hs hro
          (dropWhile_digits rest (fun c hc => hsub c (List.mem_cons_of_mem _ hc))),
        Nat.sub_self, scale_up, wrap32_mul_sign _ hrange sign hsign]
    · rw [if_neg h5, Nat.add_zero] at hrange ⊢
      have hro : round_eighth
          ((digits_value (c1 :: more) * 10 ^ 7 + digits_value (fracs.take 7) : Nat) : Int)
          (7 - 7) (d :: rest)
          = (((digits_value (c1 :: more) * 10 ^ 7 + digits_value (fracs.take 7) : Nat)
              : Int), d :: rest) := by
        simp only [round_eighth, Nat.sub_self, true_and, h5, false_and, if_false]
      rw [parse_unsigned_of_point sign c1 _ fracs _ (d :: rest) _ _ _ _ h1 hr hs hro
          (dropWhile_digits _ hsub),
        Nat.sub_self, scale_up, wrap32_mul_sign _ hrange sign hsign]

/-- What the conversion computes is the decimal number times `10^7`, rounded
to the nearest integer, halves rounded up. -/
theorem scaled_value_eq_scaled_rounded (ints fracs : List Char)
    (hfracs : ∀ c ∈ fracs, is_digit c = true) :
    scaled_value ints fracs = scaled_rounded ints fracs := by
  unfold scaled_rounded
  symm
  cases hdrop : fracs.drop 7 with
  | nil =>
    have hle : fracs.length ≤ 7 := by
      by_contra hcon
      have hl := List.length_drop 7 fracs
      rw [hdrop, List.length_nil] at hl
      omega
    have htake : fracs.take 7 = fracs := List.take_of_length_le hle
    have hv : scaled_value ints fracs
        = digits_value (ints ++ fracs) * 10 ^ (7 - fracs.length) := by
      simp only [scaled_value, hdrop, add_zero, htake, digits_value_append]
    rw [hv]
    have hP : 0 < 10 ^ fracs.length := Nat.pos_pow_of_pos _ (by decide)
    have h7 : 10000000 = 10 ^ (7 - fracs.length) * 10 ^ fracs.length := by
      rw [← pow_add, Nat.sub_add_cancel hle]; norm_num
    rw [h7]
    generalize digits_value (ints ++ fracs) = V
    generalize 10 ^ (7 - fracs.length) = Q
    generalize 10 ^ fracs.length = P at hP
    have e1 : V * Q * (2 * P) = 2 * (V * (Q * P)) := by ring
    have e2 : (V * Q + 1) * (2 * P) = 2 * (V * (Q * P)) + 2 * P := by ring
    apply Nat.div_eq_of_lt_le
    · rw [e1]; omega
    · rw [e2]; omega
  | cons d rest =>
    have hsplit : fracs = fracs.take 7 ++ d :: rest := by
      rw [← hdrop, List.take_append_drop]
    have hlt : 7 < fracs.length := by
      by_contra hcon
      rw [List.drop_eq_nil_of_le (by omega)] at hdrop
      exact List.noConfusion hdrop
    have hlen7 : (fracs.take 7).length = 7 := by
      rw [List.length_take]; omega
    have hlen : fracs.length = 7 + (rest.length + 1) := by
      have hl := List.length_drop 7 fracs
      rw [hdrop, List.length_cons] at hl
      omega
    have hsub : ∀ c ∈ d :: rest, is_digit c = true := by
      intro c hc
      rw [← hdrop] at hc
      exact hfracs c (List.mem_of_mem_drop hc)
    have hd := (is_digit_iff d).mp (hsub d (List.mem_cons_self _ _))
    have hR := digits_value_lt rest (fun c hc => hsub c (List.mem_cons_of_mem _ hc))
    have hv : scaled_value ints fracs
        = digits_value (ints ++ fracs.take 7) + (if 53 ≤ d.toNat then 1 else 0) := by
      simp only [scaled_value, hdrop, hlen7, Nat.sub_self, pow_zero, mul_one,
        digits_value_append]
    have hall : digits_value (ints ++ fracs)
        = digits_value (ints ++ fracs.take 7) * (10 * 10 ^ rest.length)
          + ((d.toNat - 48) * 10 ^ rest.length + digits_value rest) := by
      conv_lhs => rw [hsplit, ← List.append_assoc, digits_value_append _ (d :: rest),
        digits_value_cons, List.length_cons, pow_succ]
      ring
    have hpow : 10 ^ fracs.length = 10000000 * (10 * 10 ^ rest.length) := by
      rw [hlen, pow_add, pow_succ]; ring
    rw [hv, hall, hpow]
    have hP : 0 < 10 ^ rest.length := Nat.pos_pow_of_pos _ (by decide)
    generalize digits_value (ints ++ fracs.take 7) = A
    generalize digits_value rest = R at hR
    generalize 10 ^ rest.length = P at hR hP
    have hnum : 2 * ((A * (10 * P) + ((d.toNat - 48) * P + R)) * 10000000)
          + 10000000 * (10 * P)
        = 200000000 * (A * P) + 20000000 * ((d.toNat - 48) * P) + 20000000 * R
          + 100000000 * P := by ring
    have hden : ∀ k, k * (2 * (10000000 * (10 * P))) = 200000000 * (k * P) := by
      intro k; ring
    rw [hnum]
    by_cases h5 : 53 ≤ d.toNat
    · rw [if_pos h5]
      have hlo : 5 * P ≤ (d.toNat - 48) * P := Nat.mul_le_mul_right _ (by omega)
      have hhi : (d.toNat - 48) * P ≤ 9 * P := Nat.mul_le_mul_right _ (by omega)
      have e1 : (A + 1) * P = A * P + P := by ring
      have e2 : (A + 1 + 1) * P = A * P + 2 * P := by ring
      apply Nat.div_eq_of_lt_le
      · rw [hden, e1]; omega
      · rw [hden, e2]; omega
    · rw [if_neg h5, Nat.add_zero]
      have hhi : (d.toNat - 48) * P ≤ 4 * P := Nat.mul_le_mul_right _ (by omega)
      have e1 : (A + 1) * P = A * P + P := by ring
      apply Nat.div_eq_of_lt_le
      · rw [hden]; omega
      · rw [hden, e1]; omega

theorem parse_unsigned_of_trailing (sign : Int) (c1 : Char) (str1 str4 str5 str6 : List Char)
    (result r5 r6 : Int) (scale : Nat)
    (hr : read_more_integer_digits (digit_value c1) str1 = (result, '.' :: str4))
    (hs : read_significant 7 result str4 = (r5, scale, str5))
    (hro : round_eighth r5 scale str5 = (r6, str6))
    (hdw : str6.dropWhile is_digit ≠ []) :
    parse_unsigned sign (c1 :: str1) = none := by
  by_cases h1 : is_digit c1 = true
  · simp only [parse_unsigned, h1, hr, hs, hro, hdw, Bool.true_eq_false, if_false, ne_eq,
      not_true_eq_false, not_false_eq_true, if_true]
  · rw [Bool.not_eq_true] at h1
    exact parse_unsigned_no_digit sign c1 str1 h1

theorem read_more_integer_digits_split (result : Int) (str : List Char) :
    ∃ pre, str = pre ++ (read_more_integer_digits result str).2
      ∧ ∀ c ∈ pre, is_digit c = true := by
  cases str with
  | nil => exact ⟨[], rfl, fun c hc => absurd hc (List.not_mem_nil c)⟩
  | cons c2 str2 =>
    cases h2 : is_digit c2 with
    | false =>
      rw [read_more_no_digit result c2 str2 h2]
      exact ⟨[], rfl, fun c hc => absurd hc (List.not_mem_nil c)⟩
    | true =>
      cases str2 with
      | nil =>
        rw [read_more_one_nil result c2 h2]
        exact ⟨[c2], rfl, fun c hc => by rw [List.mem_singleton] at hc; rw [hc]; exact h2⟩
      | cons c3 str3 =>
        cases h3 : is_digit c3 with
        | false =>
          rw [read_more_one_no_digit result c2 c3 str3 h2 h3]
          exact ⟨[c2], rfl, fun c hc => by rw [List.mem_singleton] at hc; rw [hc]; exact h2⟩
        | true =>
          rw [read_more_two result c2 c3 str3 h2 h3]
          refine ⟨[c2, c3], rfl, fun c hc => ?_⟩
          simp only [List.mem_cons, List.mem_singleton, List.not_mem_nil, or_false] at hc
          rcases hc with rfl | rfl
          · exact h2
          · exact h3

theorem read_significant_split (str : List Char) :
    ∀ (scale : Nat) (result : Int),
      ∃ pre, str = pre ++ (read_significant scale result str).2.2
        ∧ ∀ c ∈ pre, is_digit c = true := by
  induction str with
  | nil =>
    intro scale result
    refine ⟨[], ?_, fun c hc => absurd hc (List.not_mem_nil c)⟩
    cases scale <;> rfl
  | cons c str ih =>
    intro scale result
    cases scale with
    | zero => exact ⟨[], rfl, fun c hc => absurd hc (List.not_mem_nil c)⟩
    | succ scale =>
      cases hc : is_digit c with
      | false =>
        refine ⟨[], ?_, fun c hc => absurd hc (List.not_mem_nil c)⟩
        simp only [read_significant, hc, Bool.false_eq_true, if_false, List.nil_append]
      | true =>
        obtain ⟨pre, hpre, hdig⟩ :=
          ih scale (wrap32 (wrap32 (result * 10) + digit_value c))
        refine ⟨c :: pre, ?_, ?_⟩
        · simp only [read_significant, hc, if_true, List.cons_append]
          rw [← hpre]
        · intro x hx
          rcases List.mem_cons.mp hx with rfl | hx
          · exact hc
          · exact hdig x hx

theorem round_eighth_rest (result : Int) (scale : Nat) (str : List Char) :
    str = (round_eighth result scale str).2
      ∨ ∃ d, str = d :: (round_eighth result scale str).2 ∧ is_digit d = true := by
  cases str with
  | nil => exact Or.inl rfl
  | cons d rest =>
    by_cases h : scale = 0 ∧ 53 ≤ d.toNat ∧ d.toNat ≤ 57
    · right
      refine ⟨d, ?_, (is_digit_iff d).mpr ⟨by omega, h.2.2⟩⟩
      simp only [round_eighth, h, and_self, if_true]
    · left
      simp only [round_eighth, h, if_false]

/-- A string that is converted consists of digits and decimal points. -/
theorem parse_unsigned_chars (sign : Int) (str : List Char) (v : Int)
    (h : parse_unsigned sign str = some v) : ∀ c ∈ str, is_digit c = true ∨ c = '.' := by
  cases str with
  | nil => exact fun c hc => absurd hc (List.not_mem_nil c)
  | cons c1 str1 =>
    cases h1 : is_digit c1 with
    | false =>
      rw [parse_unsigned_no_digit sign c1 str1 h1] at h
      exact Option.noConfusion h
    | true =>
      obtain ⟨pre, hpre, hdig⟩ := read_more_integer_digits_split (digit_value c1) str1
      cases hr : read_more_integer_digits (digit_value c1) str1 with
      | mk result rest =>
        rw [hr] at hpre
        cases rest with
        | nil =>
          intro c hc
          rw [hpre, List.append_nil] at hc
          rcases List.mem_cons.mp hc with rfl | hc
          · exact Or.inl h1
          · exact Or.inl (hdig c hc)
        | cons p str4 =>
          by_cases hp : p = '.'
          · subst hp
            obtain ⟨pre2, hpre2, hdig2⟩ := read_significant_split str4 7 result
            cases hs : read_significant 7 result str4 with
            | mk r5 rest5 =>
              cases rest5 with
              | mk scale str5 =>
                rw [hs] at hpre2
                have hro := round_eighth_rest r5 scale str5
                cases hro6 : round_eighth r5 scale str5 with
                | mk r6 str6 =>
                  rw [hro6] at hro
                  by_cases hdw : str6.dropWhile is_digit = []
                  · rw [List.dropWhile_eq_nil_iff] at hdw
                    have h5 : ∀ c ∈ str5, is_digit c = true := by
                      intro c hc
                      rcases hro with h6 | ⟨d, h6, hd⟩
                      · rw [h6] at hc; exact hdw c hc
                      · rw [h6] at hc
                        rcases List.mem_cons.mp hc with rfl | hc
                        · exact hd
                        · exact hdw c hc
                    intro c hc
                    rw [hpre, hpre2] at hc
                    simp only [List.mem_cons, List.mem_append] at hc
                    rcases hc with rfl | hc | rfl | hc | hc
                    · exact Or.inl h1
                    · exact Or.inl (hdig c hc)
                    · exact Or.inr rfl
                    · exact Or.inl (hdig2 c hc)
                    · exact Or.inl (h5 c hc)
                  · rw [parse_unsigned_of_trailing sign c1 str1 str4 str5 str6 result r5 r6
                      scale hr hs hro6 hdw] at h
                    exact Option.noConfusion h
          · rw [parse_unsigned_of_other sign c1 p str1 str4 result hp hr] at h
            exact Option.noConfusion h

theorem string_to_location_coordinate_mk_minus (s : List Char) :
    string_to_location_coordinate (String.mk ('-' :: s)) = parse_unsigned (-1) s := by
  show (if '-' = '-' then parse_unsigned (-1) s else parse_unsigned 1 ('-' :: s)) = _
  rw [if_pos rfl]

theorem string_to_location_coordinate_mk_digit (c : Char) (s : List Char)
    (hc : is_digit c = true) :
    string_to_location_coordinate (String.mk (c :: s)) = parse_unsigned 1 (c :: s) := by
  show (if c = '-' then parse_unsigned (-1) s else parse_unsigned 1 (c :: s)) = _
  rw [if_neg (is_digit_not_minus c hc)]

theorem parse_unsigned_not_numeric (sign : Int) (s : List Char)
    (h : ∃ c ∈ s, is_numeric c = false) : parse_unsigned sign s = none := by
  obtain ⟨c, hc, hnum⟩ := h
  cases hp : parse_unsigned sign s with
  | none => rfl
  | some v =>
    exfalso
    have hch := parse_unsigned_chars sign s v hp c hc
    simp only [is_numeric, Bool.or_eq_false_iff, beq_eq_false_iff_ne, ne_eq] at hnum
    rcases hch with hd | hd
    · rw [hd] at hnum; exact Bool.noConfusion hnum.1.1
    · exact hnum.1.2 hd

theorem parse_unsigned_without_digit (sign : Int) (s : List Char)
    (h : ∀ c ∈ s, is_digit c = false) : parse_unsigned sign s = none := by
  cases s with
  | nil => rfl
  | cons c rest => exact parse_unsigned_no_digit sign c rest (h c (List.mem_cons_self _ _))

theorem parse_unsigned_four_digits (sign : Int) (c1 c2 c3 c4 : Char) (rest : List Char)
    (h2 : is_digit c2 = true) (h3 : is_digit c3 = true) (h4 : is_digit c4 = true) :
    parse_unsigned sign (c1 :: c2 :: c3 :: c4 :: rest) = none :=
  parse_unsigned_of_other sign c1 c4 _ rest _ (is_digit_not_point c4 h4)
    (read_more_two _ c2 c3 (c4 :: rest) h2 h3)

/-- The strings without a result: the conversion of `s` and of `"-" ++ s`. -/
theorem string_to_location_coordinate_invalid (s : List Char)
    (hbad : (∃ c ∈ s, is_numeric c = false) ∨ (∀ c ∈ s, is_digit c = false)
      ∨ ∃ c1 c2 c3 c4 rest, s = c1 :: c2 :: c3 :: c4 :: rest ∧ is_digit c1 = true
          ∧ is_digit c2 = true ∧ is_digit c3 = true ∧ is_digit c4 = true) :
    string_to_location_coordinate (String.mk s) = none
      ∧ string_to_location_coordinate (String.mk ('-' :: s)) = none := by
  rw [string_to_location_coordinate_mk_minus]
  rcases hbad with hnum | hnod | ⟨c1, c2, c3, c4, rest, rfl, h1, h2, h3, h4⟩
  · refine ⟨?_, parse_unsigned_not_numeric _ s hnum⟩
    cases s with
    | nil => rfl
    | cons c rest =>
      show (if c = '-' then parse_unsigned (-1) rest else parse_unsigned 1 (c :: rest)) = none
      split
      · rename_i hc
        subst hc
        obtain ⟨x, hx, hxn⟩ := hnum
        rcases List.mem_cons.mp hx with rfl | hx
        · exact absurd hxn (by decide)
        · exact parse_unsigned_not_numeric _ rest ⟨x, hx, hxn⟩
      · exact parse_unsigned_not_numeric _ _ hnum
  · refine ⟨?_, parse_unsigned_without_digit _ s hnod⟩
    cases s with
    | nil => rfl
    | cons c rest =>
      show (if c = '-' then parse_unsigned (-1) rest else parse_unsigned 1 (c :: rest)) = none
      split
      · exact parse_unsigned_without_digit _ rest
          (fun x hx => hnod x (List.mem_cons_of_mem _ hx))
      · exact parse_unsigned_without_digit _ _ hnod
  · rw [string_to_location_coordinate_mk_digit c1 _ h1]
    exact ⟨parse_unsigned_four_digits 1 c1 c2 c3 c4 rest h2 h3 h4,
      parse_unsigned_four_digits (-1) c1 c2 c3 c4 rest h2 h3 h4⟩

theorem scaled_value_integer_le (ints fracs : List Char) :
    scaled_value ints [] ≤ scaled_value ints fracs := by
  have hk : (fracs.take 7).length ≤ 7 := by
    rw [List.length_take]; omega
  have h7 : 10 ^ 7 = 10 ^ (fracs.take 7).length * 10 ^ (7 - (fracs.take 7).length) := by
    rw [← pow_add, Nat.add_sub_cancel' hk]
  have h0 : scaled_value ints [] = digits_value ints * 10 ^ 7 := by
    simp [scaled_value, digits_value]
  rw [h0, h7]
  unfold scaled_value
  calc digits_value ints * (10 ^ (fracs.take 7).length * 10 ^ (7 - (fracs.take 7).length))
      = digits_value ints * 10 ^ (fracs.take 7).length
          * 10 ^ (7 - (fracs.take 7).length) := by ring
    _ ≤ (digits_value ints * 10 ^ (fracs.take 7).length + digits_value (fracs.take 7))
          * 10 ^ (7 - (fracs.take 7).length) :=
        Nat.mul_le_mul_right _ (Nat.le_add_right _ _)
    _ ≤ _ := Nat.le_add_right _ _

/-- The strings with a result: one to three digits `ints`, alone or followed
by a decimal point and the digits `fracs`, with and without a minus sign. -/
theorem string_to_location_coordinate_valid (ints fracs : List Char)
    (hints : ∀ c ∈ ints, is_digit c = true) (hlen1 : 1 ≤ ints.length)
    (hlen3 : ints.length ≤ 3) (hfracs : ∀ c ∈ fracs, is_digit c = true)
    (hrange : scaled_rounded ints fracs ≤ 2147483647) :
    string_to_location_coordinate (String.mk ints)
        = some ((scaled_rounded ints [] : Nat) : Int)
      ∧ string_to_location_coordinate (String.mk ('-' :: ints))
        = some (-((scaled_rounded ints [] : Nat) : Int))
      ∧ string_to_location_coordinate (String.mk (ints ++ '.' :: fracs))
        = some ((scaled_rounded ints fracs : Nat) : Int)
      ∧ string_to_location_coordinate (String.mk ('-' :: (ints ++ '.' :: fracs)))
        = some (-((scaled_rounded ints fracs : Nat) : Int)) := by
  rw [← scaled_value_eq_scaled_rounded ints fracs hfracs] at hrange ⊢
  rw [← scaled_value_eq_scaled_rounded ints []
    (fun c hc => absurd hc (List.not_mem_nil c))]
  have hrange0 := le_trans (scaled_value_integer_le ints fracs) hrange
  cases ints with
  | nil => simp only [List.length_nil] at hlen1; omega
  | cons c1 more =>
    have h1 : is_digit c1 = true := hints c1 (List.mem_cons_self _ _)
    have hmore : ∀ c ∈ more, is_digit c = true :=
      fun c hc => hints c (List.mem_cons_of_mem _ hc)
    have hlen : more.length ≤ 2 := by
      simp only [List.length_cons] at hlen3; omega
    rw [string_to_location_coordinate_mk_minus, string_to_location_coordinate_mk_minus,
      string_to_location_coordinate_mk_digit c1 _ h1, List.cons_append,
      string_to_location_coordinate_mk_digit c1 _ h1,
      parse_unsigned_integer 1 (Or.inl rfl) c1 more h1 hmore hlen hrange0,
      parse_unsigned_integer (-1) (Or.inr rfl) c1 more h1 hmore hlen hrange0,
      parse_unsigned_fraction 1 (Or.inl rfl) c1 more fracs h1 hmore hlen hfracs hrange,
      parse_unsigned_fraction (-1) (Or.inr rfl) c1 more fracs h1 hmore hlen hfracs hrange]
    simp only [one_mul, neg_mul, and_self]

/-- C29 (amended): for one to three decimal digits `ints` and decimal digits
`fracs` such that the value of `ints.fracs` times `10^7`, rounded to the nearest
integer (halves up), is at most 2147483647, `string_to_location_coordinate`
gives that rounded value for `ints` and for `ints.fracs` and its negation after
a leading `-`; and for a string `s` that contains a character other than a
digit, `.` and `-`, or has no digit (the empty string included), or starts with
four digits, neither `s` nor `-s` has a result (`invalid_location`). The test
strings `1.12345674`, `1.12345675`, `0001` and `1234` are included. -/
theorem string_to_location_coordinate_spec (ints fracs s : List Char)
    (hints : ∀ c ∈ ints, is_digit c = true) (hlen1 : 1 ≤ ints.length)
    (hlen3 : ints.length ≤ 3) (hfracs : ∀ c ∈ fracs, is_digit c = true)
    (hrange : scaled_rounded ints fracs ≤ 2147483647)
    (hbad : (∃ c ∈ s, is_numeric c = false) ∨ (∀ c ∈ s, is_digit c = false)
      ∨ ∃ c1 c2 c3 c4 rest, s = c1 :: c2 :: c3 :: c4 :: rest ∧ is_digit c1 = true
          ∧ is_digit c2 = true ∧ is_digit c3 = true ∧ is_digit c4 = true) :
    (string_to_location_coordinate (String.mk ints)
        = some ((scaled_rounded ints [] : Nat) : Int)
      ∧ string_to_location_coordinate (String.mk ('-' :: ints))
        = some (-((scaled_rounded ints [] : Nat) : Int))
      ∧ string_to_location_coordinate (String.mk (ints ++ '.' :: fracs))
        = some ((scaled_rounded ints fracs : Nat) : Int)
      ∧ string_to_location_coordinate (String.mk ('-' :: (ints ++ '.' :: fracs)))
        = some (-((scaled_rounded ints fracs : Nat) : Int)))
    ∧ (string_to_location_coordinate (String.mk s) = none
      ∧ string_to_location_coordinate (String.mk ('-' :: s)) = none)
    ∧ string_to_location_coordinate "" = none
    ∧ string_to_location_coordinate "-" = none
    ∧ string_to_location_coordinate "1.12345674" = some 11234567
    ∧ string_to_location_coordinate "1.12345675" = some 11234568
    ∧ string_to_location_coordinate "-1.12345675" = some (-11234568)
    ∧ string_to_location_coordinate "0001" = none
    ∧ string_to_location_coordinate "1234" = none :=
  ⟨string_to_location_coordinate_valid ints fracs hints hlen1 hlen3 hfracs hrange,
    string_to_location_coordinate_invalid s hbad, by decide, by decide, by decide, by decide,
    by decide, by decide, by decide⟩

theorem string_to_location_coordinate_spec_witness :
    string_to_location_coordinate
        (String.mk (['1', '7', '9'] ++ '.' :: ['9', '9', '9', '9', '9', '9', '9', '9']))
      = some ((scaled_rounded ['1', '7', '9'] ['9', '9', '9', '9', '9', '9', '9', '9'] : Nat)
          : Int)
    ∧ scaled_rounded ['1', '7', '9'] ['9', '9', '9', '9', '9', '9', '9', '9'] = 1800000000
    ∧ string_to_location_coordinate (String.mk ['1', '2', '3', ' ']) = none :=
  have h := string_to_location_coordinate_spec ['1', '7', '9']
    ['9', '9', '9', '9', '9', '9', '9', '9'] ['1', '2', '3', ' ']
    (by decide) (by decide) (by decide) (by decide) (by decide)
    (Or.inl ⟨' ', by decide, by decide⟩)
  ⟨h.1.2.2.1, by decide, h.2.1.1⟩

/-- C29, counterexample: `999` is three decimal digits, its value times `10^7`
is 9990000000, which is no `int32_t`; the conversion gives 1400065408, and
-1400065408 for `-999`. -/
theorem string_to_location_coordinate_out_of_range :
    (∀ c ∈ ['9', '9', '9'], is_digit c = true)
    ∧ scaled_rounded ['9', '9', '9'] [] = 9990000000
    ∧ string_to_location_coordinate "999" = some 1400065408
    ∧ string_to_location_coordinate "-999" = some (-1400065408) := by
  refine ⟨by decide, by decide, by decide, by decide⟩

end detail

namespace ProtoRing

/-! ## The division and the 32-bit arithmetic of `is_in` -/

/-- When the first operand of the condition holds, the divisor is not zero. -/
theorem is_in_divisor_ne_zero (t vi vj : Location) (hi : isInt32 vi.y) (hj : isInt32 vj.y)
    (h : (decide (vi.y > t.y) != decide (vj.y > t.y)) = true) :
    vj.y ≠ vi.y ∧ wrap32 (vj.y - vi.y) ≠ 0 := by
  have hne : vj.y ≠ vi.y := by
    intro heq
    rw [heq] at h
    simp at h
  unfold isInt32 at hi hj
  refine ⟨hne, ?_⟩
  unfold wrap32
  omega

/-- Without overflow the condition of `is_in` is the condition over the
mathematical integers. -/
theorem crossesAt_iff_exact_of_noOverflow (t vi vj : Location) (h : noOverflowAt t vi vj) :
    crossesAt t vi vj ↔ crossesAtExact t vi vj := by
  obtain ⟨h1, h2, h3, h4, h5, h6⟩ := h
  unfold crossesAt crossesAtExact
  rw [wrap32_of_isInt32 _ h1, wrap32_of_isInt32 _ h2, wrap32_of_isInt32 _ h3,
    wrap32_of_isInt32 _ h4, wrap32_of_isInt32 _ h5, wrap32_of_isInt32 _ h6]

/-- Without overflow at any pair of vertices the crossing-number test of
`is_in` is the test over the mathematical integers. -/
theorem crossing_number_test_eq_exact (t : Location) (vs : List Location)
    (h : ∀ i, i < vs.length →
      noOverflowAt t (vertexAt vs i) (vertexAt vs (prevIdx vs.length i))) :
    crossing_number_test t vs = crossing_number_test_exact t vs := by
  unfold crossing_number_test crossing_number_test_exact crossingCount crossingCountExact
  have hc : (List.range vs.length).countP
        (fun i => decide (crossesAt t (vertexAt vs i) (vertexAt vs (prevIdx vs.length i))))
      = (List.range vs.length).countP
        (fun i => decide (crossesAtExact t (vertexAt vs i)
          (vertexAt vs (prevIdx vs.length i)))) := by
    apply List.countP_congr
    intro i hi
    have hlt : i < vs.length := List.mem_range.mp hi
    simp only [decide_eq_true_eq]
    exact crossesAt_iff_exact_of_noOverflow _ _ _ (h i hlt)
  rw [hc]

/-- The division of `is_in` can be without a value for valid locations: for
the test point `(0, 0)` and the edge from `(1073741824, 0)` to
`(-1073741824, 1)` of `trapTriangle` the dividend is `INT_MIN` and the divisor
is -1, and `is_in` has no result. -/
theorem is_in_traps_trapTriangle :
    (∀ s ∈ trapTriangle.m_segments ++ probeOrigin.m_segments,
      validLocation s.first.location ∧ validLocation s.second.location) ∧
    closed trapTriangle = some true ∧
    contiguous trapTriangle.m_segments = true ∧
    quotient_traps ⟨0, 0⟩ ⟨-1073741824, 1⟩ ⟨1073741824, 0⟩ ∧
    is_in probeOrigin trapTriangle = none := by
  refine ⟨by decide, by decide, by decide, by decide, by decide⟩

/-- C31: `is_in` never divides by zero. For `int32_t` coordinates, whenever
the first operand `(v_i.y > t.y) != (v_j.y > t.y)` of the condition holds,
`v_j.y` differs from `v_i.y` and the divisor `v_j.y - v_i.y` computed in 32 bits
is not zero; the condition is without a result only when the first operand
holds, the dividend is `INT_MIN` and the divisor is -1, and `is_in` of a
non-empty ring is without a result only when that happens at some index of
the outer ring. -/
theorem is_in_never_divides_by_zero (R O : ProtoRing) (f : NodeRefSegment)
    (t vi vj : Location) (hi : isInt32 vi.y) (hj : isInt32 vj.y)
    (hR : R.m_segments.head? = some f)
    (hO : ∀ s ∈ O.m_segments, isInt32 s.first.location.y) :
    ((decide (vi.y > t.y) != decide (vj.y > t.y)) = true →
        vj.y ≠ vi.y ∧ wrap32 (vj.y - vi.y) ≠ 0) ∧
    (is_in_cond t vi vj = none ↔
      (¬ (vi.y > t.y ↔ vj.y > t.y) ∧
        wrap32 (wrap32 (vj.x - vi.x) * wrap32 (t.y - vi.y)) = -2147483648 ∧
        wrap32 (vj.y - vi.y) = -1)) ∧
    (is_in R O = none →
      ∃ i, i < (startVertices O).length ∧
        quotient_traps f.first.location (vertexAt (startVertices O) i)
          (vertexAt (startVertices O) (prevIdx (startVertices O).length i))) := by
  refine ⟨is_in_divisor_ne_zero t vi vj hi hj, is_in_cond_eq_none_iff t vi vj hi hj, ?_⟩
  intro hnone
  by_contra hno
  have hq : ∀ i, i < (startVertices O).length →
      ¬ quotient_traps f.first.location (vertexAt (startVertices O) i)
        (vertexAt (startVertices O) (prevIdx (startVertices O).length i)) :=
    fun i hi hq => hno ⟨i, hi, hq⟩
  rw [is_in_eq_crossing_number_test R O f hR hO hq] at hnone
  exact Option.noConfusion hnone

theorem is_in_never_divides_by_zero_witness :
    wrap32 (10 - 0) ≠ 0 ∧
    (is_in probeOrigin trapTriangle = none →
      ∃ i, i < (startVertices trapTriangle).length ∧
        quotient_traps ⟨0, 0⟩ (vertexAt (startVertices trapTriangle) i)
          (vertexAt (startVertices trapTriangle)
            (prevIdx (startVertices trapTriangle).length i))) :=
  have h := is_in_never_divides_by_zero probeOrigin trapTriangle (mkSeg 7 0 0 8 1 0)
    ⟨5, 5⟩ ⟨10, 0⟩ ⟨10, 10⟩ (by decide) (by decide) rfl (by decide)
  ⟨(h.1 (by decide)).2, h.2.2⟩

/-- C32 (the code at the failing input): all coordinates of `smallTriangle`
and of `probeInTriangle` are valid locations; for the edge from `(0, 100000)`
to `(100000, 0)` the product `100000 * (20000 - 100000)` is `-8000000000`, which
is no `int32_t`, and wraps to `589934592`; `is_in` is false, and the same
formula over the mathematical integers gives true. -/
theorem is_in_overflow_smallTriangle :
    (∀ s ∈ smallTriangle.m_segments ++ probeInTriangle.m_segments,
      validLocation s.first.location ∧ validLocation s.second.location) ∧
    ¬ isInt32 ((100000 - 0) * (20000 - 100000)) ∧
    wrap32 ((100000 - 0) * (20000 - 100000)) = 589934592 ∧
    is_in probeInTriangle smallTriangle = some false ∧
    crossing_number_test_exact ⟨20000, 20000⟩ (startVertices smallTriangle) = true := by
  refine ⟨by decide, by decide, by decide, by decide, by decide⟩

end ProtoRing

namespace XML

/-! ## Sequences of events -/

/-- A `start_element` event keeps the invariant of the contexts: in the
context `in_object` the last context is that of an object. -/
theorem start_element_in_object {H : Type} (ops : HeaderOps H) (ext : External)
    (p p2 : XMLParser H) (element : String) (attrs : Attrs)
    (hinv : p.m_context = .in_object → object_context p.m_last_context)
    (h : start_element ops ext p element attrs = .ok p2) :
    p2.m_context = .in_object → object_context p2.m_last_context := by
  unfold start_element at h
  cases hc : p.m_context <;> rw [hc] at h <;> simp only at h
  all_goals repeat' split at h
  all_goals first
    | exact Except.noConfusion h
    | (cases h
       intro hctx2
       first
         | exact hinv hctx2
         | simp [object_context, hc] at hctx2 ⊢)

/-- A `start_element` event that enters the context `in_object` records the
context it was received in, which is that of an object. -/
theorem start_element_enters_in_object {H : Type} (ops : HeaderOps H) (ext : External)
    (p p2 : XMLParser H) (element : String) (attrs : Attrs)
    (h : start_element ops ext p element attrs = .ok p2)
    (hctx2 : p2.m_context = .in_object) :
    p2.m_last_context = p.m_context ∧ object_context p.m_context := by
  unfold start_element at h
  cases hc : p.m_context <;> rw [hc] at h <;> simp only at h
  all_goals repeat' split at h
  all_goals first
    | exact Except.noConfusion h
    | (cases h
       simp [object_context, hc] at hctx2 ⊢)

theorem end_element_in_object {H : Type} (p p2 : XMLParser H) (element : String)
    (hinv : p.m_context = .in_object → object_context p.m_last_context)
    (h : end_element p element = .ok p2) :
    p2.m_context = .in_object → object_context p2.m_last_context := by
  unfold end_element at h
  cases hc : p.m_context <;> rw [hc] at h <;> simp only at h
  all_goals repeat' split at h
  all_goals first
    | exact Except.noConfusion h
    | (cases h
       intro hctx2
       first
         | exact hinv hctx2
         | exact hinv hc
         | simp [object_context, hc] at hctx2 ⊢)

theorem characters_in_object {H : Type} (p : XMLParser H) (text : String)
    (hinv : p.m_context = .in_object → object_context p.m_last_context) :
    (characters p text).m_context = .in_object →
      object_context (characters p text).m_last_context := by
  unfold characters
  split
  · exact hinv
  · exact hinv

theorem step_in_object {H : Type} (ops : HeaderOps H) (ext : External)
    (p p2 : XMLParser H) (ev : Event)
    (hinv : p.m_context = .in_object → object_context p.m_last_context)
    (h : step ops ext p ev = .ok p2) :
    p2.m_context = .in_object → object_context p2.m_last_context := by
  cases ev with
  | start_element element attrs => exact start_element_in_object ops ext p p2 element attrs hinv h
  | end_element element => exact end_element_in_object p p2 element hinv h
  | characters text =>
    simp only [step, Except.ok.injEq] at h
    rw [← h]
    exact characters_in_object p text hinv

theorem run_in_object {H : Type} (ops : HeaderOps H) (ext : External) (events : List Event) :
    ∀ (p p2 : XMLParser H),
      (p.m_context = .in_object → object_context p.m_last_context) →
      run ops ext p events = .ok p2 →
      p2.m_context = .in_object → object_context p2.m_last_context := by
  induction events with
  | nil =>
    intro p p2 hinv h
    simp only [run, Except.ok.injEq] at h
    rw [← h]; exact hinv
  | cons ev rest ih =>
    intro p p2 hinv h
    unfold run at h
    cases hs : step ops ext p ev with
    | error e => rw [hs] at h; exact Except.noConfusion h
    | ok p1 =>
      rw [hs] at h
      exact ih p1 p2 (step_in_object ops ext p p1 ev hinv hs) h

/-- C33: every state that the parser reaches from its initial state by a
sequence of events and that has the context `in_object` has a last context
among `node`, `way`, `relation` and `changeset`; `end_element` in that state
succeeds and sets the context to the last context, which is neither `root` nor
`top`; and every `start_element` that enters `in_object` records as last
context the context of the object it was received in. -/
theorem in_object_last_context {H : Type} (ops : HeaderOps H) (ext : External) (h : H)
    (events : List Event) (p : XMLParser H)
    (hrun : run ops ext (initial h) events = .ok p) (hctx : p.m_context = .in_object) :
    object_context p.m_last_context ∧
    (∀ element, ∃ p2, end_element p element = .ok p2 ∧ p2.m_context = p.m_last_context ∧
      p2.m_context ≠ .root ∧ p2.m_context ≠ .top) ∧
    (∀ (q q2 : XMLParser H) (element : String) (attrs : Attrs),
      start_element ops ext q element attrs = .ok q2 → q2.m_context = .in_object →
        q2.m_last_context = q.m_context ∧ object_context q.m_context) := by
  have hobj : object_context p.m_last_context :=
    run_in_object ops ext events (initial h) p (fun hc => by simp [initial] at hc) hrun hctx
  refine ⟨hobj, ?_, fun q q2 element attrs =>
    start_element_enters_in_object ops ext q q2 element attrs⟩
  intro element
  refine ⟨{ p with m_context := p.m_last_context }, ?_, rfl, ?_, ?_⟩
  · unfold end_element; rw [hctx]
  · show p.m_last_context ≠ .root
    unfold object_context at hobj
    rcases hobj with h1 | h1 | h1 | h1 <;> rw [h1] <;> decide
  · show p.m_last_context ≠ .top
    unfold object_context at hobj
    rcases hobj with h1 | h1 | h1 | h1 <;> rw [h1] <;> decide

theorem in_object_last_context_witness :
    ∃ p2, end_element
        ({ m_context := .in_object, m_last_context := .way,
           m_header := listHeaderOps.set {} "version" "0.6" } : XMLParser ListHeader) "nd"
        = .ok p2 ∧ p2.m_context = .way :=
  have h := in_object_last_context listHeaderOps readAll {}
    [.start_element "osm" [("version", "0.6")], .start_element "way" [],
      .start_element "nd" [("ref", "1")]]
    { m_context := .in_object, m_last_context := .way,
      m_header := listHeaderOps.set {} "version" "0.6" } rfl rfl
  (h.2.1 "nd").elim (fun p2 hp => ⟨p2, hp.1, hp.2.1⟩)

/-- C34 (the code at the failing input): the events of
`<osm version="0.6"><changeset><foo/></changeset></osm>` are well nested and
no `start_element` raises an exception; the start of `foo` leaves the parser in
the context `changeset`, and the end of `foo` fails the assertion
`!std::strcmp(element, "changeset")` of `end_element`. -/
theorem end_element_assertion_fails :
    well_nested_from [] unknownChildDocument = true ∧
    (∃ p, run listHeaderOps readAll (initial {}) (unknownChildDocument.take 3) = .ok p ∧
      p.m_context = .changeset ∧ end_element p "foo" = .error .assertion_failed) ∧
    run listHeaderOps readAll (initial {}) unknownChildDocument = .error .assertion_failed :=
  ⟨by decide, ⟨_, rfl, rfl, rfl⟩, rfl⟩

theorem foldl_append_text (texts : List String) :
    ∀ acc : String,
      texts.foldl (fun acc t => acc ++ t) acc = acc ++ texts.foldl (fun acc t => acc ++ t) "" := by
  induction texts with
  | nil => intro acc; simp
  | cons t rest ih =>
    intro acc
    simp only [List.foldl_cons]
    rw [ih (acc ++ t), ih ("" ++ t), String.empty_append, String.append_assoc]

theorem run_characters {H : Type} (ops : HeaderOps H) (ext : External) (texts : List String)
    (rest : List Event) :
    ∀ p : XMLParser H, p.m_context = .comment_text →
      run ops ext p (texts.map Event.characters ++ rest)
        = run ops ext
            { p with m_comment_text := texts.foldl (fun acc t => acc ++ t) p.m_comment_text }
            rest := by
  induction texts with
  | nil => intro p _; rfl
  | cons t texts ih =>
    intro p hctx
    have hstep : step ops ext p (Event.characters t)
        = .ok { p with m_comment_text := p.m_comment_text ++ t } := by
      simp only [step, characters, hctx, if_true]
    simp only [List.map_cons, List.cons_append, List.foldl_cons]
    rw [run, hstep]
    exact ih { p with m_comment_text := p.m_comment_text ++ t } hctx

/-- A `text` element received in the context `comment`: the string handed to
`add_comment_text` is the comment text held before the element followed by the
character data of the element. -/
theorem run_text_element {H : Type} (ops : HeaderOps H) (ext : External) (p : XMLParser H)
    (texts : List String) (hctx : p.m_context = .comment) :
    run ops ext p (text_element texts)
      = .ok { p with
          m_comment_text := p.m_comment_text ++ texts.foldl (fun acc t => acc ++ t) ""
          comment_texts :=
            (p.m_comment_text ++ texts.foldl (fun acc t => acc ++ t) "") :: p.comment_texts } := by
  have hstart : step ops ext p (Event.start_element "text" [])
      = .ok { p with m_context := .comment_text } := by
    simp only [step, start_element, hctx, if_true]
  unfold text_element
  rw [run, hstart]
  show run ops ext { p with m_context := .comment_text }
    (texts.map Event.characters ++ [Event.end_element "text"]) = _
  rw [run_characters ops ext texts _ _ rfl]
  simp only [run, step, end_element, if_true]
  rw [foldl_append_text texts p.m_comment_text]
  obtain ⟨c, lc, d, hd, ct, cts⟩ := p
  simp only at hctx
  rw [hctx]

/-- C35 (the code at the failing input): in a discussion with the comments
`<comment><text>a</text></comment><comment><text>b</text></comment>` and no
character data between the elements, the strings handed to `add_comment_text`
are `a` and then `ab`: the second one contains the character data of the
first `text` element. -/
theorem comment_text_keeps_earlier_text :
    well_nested_from [] twoCommentsDocument = true ∧
    ∃ p, run listHeaderOps readAll (initial {}) twoCommentsDocument = .ok p ∧
      p.comment_texts = ["ab", "a"] :=
  ⟨by decide, ⟨_, rfl, by decide⟩⟩

end XML

end Osmium
